import Mathlib

/-!
Verification development for the genedex FM-Index library.

This file contains a shallow embedding of the library's core data structures
and algorithms (alphabet translation, slice compression, the two text-with-
rank-support encodings, the construction pipeline, the sampled suffix array
with walk-back recovery, the text-id search tree, the lookup tables, the
cursor engine and the batched multi-query engine), together with theorems
about the embedded definitions.

Conventions of the embedding:
* Rust byte slices and vectors become `List ℕ`; all machine integers are
  modelled as `ℕ` (the library asserts that the total text length fits the
  chosen index type, so no wrap-around occurs on index arithmetic).
* 64-bit words inside blocks are modelled as `ℕ` with explicit masking by
  `2 ^ 64` where the hardware would wrap; a 512-bit block (`[u64; 8]` in
  row-major little-endian order) is modelled as the natural number whose
  bits are the concatenated bits of the eight words, which realises the
  same `get_bit`/`set_bit`/`negate`/`count_ones_before` observable
  behaviour as the source.
* Functions that can panic in Rust (alphabet translation of an unknown
  byte, out-of-bounds lookup-table indexing) return `Option`; `none`
  models the panic.
* The external suffix-array construction (libsais) is out of scope of the
  repository sources and is modelled from the spec, see `suffixArray`.
* The `rayon` parallel chunk iterations of the construction pipeline are
  deterministic map/reduce operations over chunk lists; they are embedded
  as sequential folds over the same chunk decompositions.
-/

namespace Genedex

/-! ### Basic utilities -/

/-- Population count of a natural number (number of 1 bits).
Models `u64::count_ones` composed with whatever mask was applied before. -/
def popcount : ℕ → ℕ
  | 0 => 0
  | n + 1 => (n + 1) % 2 + popcount ((n + 1) / 2)
decreasing_by omega

/-- Split a list into consecutive chunks of size `k` (the last chunk may be
shorter). Models Rust's `slice::chunks` / rayon's `par_chunks`.
For `k = 0` we return `[]` (Rust panics on chunk size 0; never called so). -/
def chunksOf (k : ℕ) : List α → List (List α)
  | [] => []
  | a :: l =>
    if _h : k = 0 then [] else
      (a :: l).take k :: chunksOf k ((a :: l).drop k)
termination_by l => l.length
decreasing_by
  simp only [List.length_drop, List.length_cons]
  omega

/-- The number of occurrences of value `c` among the first `i` elements of
`l` (used to state rank soundness). -/
def countBelow (c : ℕ) (l : List ℕ) (i : ℕ) : ℕ := (l.take i).count c

/-! ### Slice compression (src/construction/slice_compression.rs)

The trait `SliceCompression` with its two implementations
`NoSliceCompression` and `HalfBytesCompression` is embedded as an inductive
of the two modes together with mode-dispatching functions. -/

inductive SliceCompression where
  | noSliceCompression
  | halfBytesCompression
deriving DecidableEq, Repr

/-- `pack_into_left_half_of_byte`: `*byte = (value << 4) | (*byte & 0x0F)`
(`u8` arithmetic, so the shifted value is masked to 8 bits). -/
def packIntoLeftHalfOfByte (byte value : ℕ) : ℕ :=
  value % 16 * 16 + byte % 16

/-- `pack_into_right_half_of_byte`: `*byte = (*byte & 0xF0) | (value & 0x0F)`. -/
def packIntoRightHalfOfByte (byte value : ℕ) : ℕ :=
  byte % 256 / 16 * 16 + value % 16

/-- `unpack_from_left_half_of_byte`: `byte >> 4` on a `u8`. -/
def unpackFromLeftHalfOfByte (byte : ℕ) : ℕ :=
  byte % 256 / 16

/-- `unpack_from_right_half_of_byte`: `byte & 0x0F`. -/
def unpackFromRightHalfOfByte (byte : ℕ) : ℕ :=
  byte % 16

namespace SliceCompression

/-- `SliceCompression::get`. Out-of-bounds access (a Rust panic on contract
violation) is embedded as default value 0; all call sites stay in bounds. -/
def get : SliceCompression → ℕ → List ℕ → ℕ
  | noSliceCompression, idx, slice => slice.getD idx 0
  | halfBytesCompression, idx, slice =>
    let byte := slice.getD (idx / 2) 0
    if idx % 2 = 0 then unpackFromLeftHalfOfByte byte
    else unpackFromRightHalfOfByte byte

/-- `SliceCompression::set`. -/
def set : SliceCompression → ℕ → List ℕ → ℕ → List ℕ
  | noSliceCompression, idx, slice, value => slice.set idx value
  | halfBytesCompression, idx, slice, value =>
    let byte := slice.getD (idx / 2) 0
    if idx % 2 = 0 then slice.set (idx / 2) (packIntoLeftHalfOfByte byte value)
    else slice.set (idx / 2) (packIntoRightHalfOfByte byte value)

/-- `SliceCompression::transform_chunk_size`. -/
def transformChunkSize : SliceCompression → ℕ → ℕ
  | noSliceCompression, chunkSize => chunkSize
  | halfBytesCompression, chunkSize => chunkSize / 2

/-- `SliceCompression::transformed_slice_len`. -/
def transformedSliceLen : SliceCompression → List ℕ → ℕ
  | noSliceCompression, slice => slice.length
  | halfBytesCompression, slice => slice.length * 2

/-- `SliceCompression::iter`. -/
def iter : SliceCompression → List ℕ → List ℕ
  | noSliceCompression, slice => slice
  | halfBytesCompression, slice =>
    slice.flatMap fun byte =>
      [unpackFromLeftHalfOfByte byte, unpackFromRightHalfOfByte byte]

/-- `SliceCompression::iter_zero_indices` (for `NoSliceCompression` this is
`memchr_iter(0, slice)`, i.e. the indices of all zero bytes in order). -/
def iterZeroIndices (s : SliceCompression) (slice : List ℕ) : List ℕ :=
  (List.range (s.iter slice).length).filter fun i => (s.iter slice).getD i 1 = 0

end SliceCompression

/-- `half_byte_compress_text`: packs pairs of symbols into single bytes in
the first half of the buffer. The second half of the buffer keeps its old
contents (the source overwrites in place and later splits the buffer). -/
def halfByteCompressText (text : List ℕ) : List ℕ :=
  ((List.range (text.length / 2)).map fun i =>
    packIntoRightHalfOfByte
      (packIntoLeftHalfOfByte 0 (text.getD (i * 2) 0))
      (text.getD (i * 2 + 1) 0))
  ++ text.drop (text.length / 2)

/-! ### Configuration (src/config.rs) -/

inductive PerformancePriority where
  | highSpeed
  | balanced
  | lowMemory
deriving DecidableEq, Repr

/-! ### Alphabet (src/alphabet.rs) -/

structure Alphabet where
  ioToDenseRepresentationTable : List ℕ
  denseToIoRepresentationTable : List ℕ
  numIoSymbolsNotSearcheable : ℕ
deriving DecidableEq, Repr

namespace Alphabet

def numDenseSymbols (a : Alphabet) : ℕ :=
  a.denseToIoRepresentationTable.length + 1

def numSearchableDenseSymbols (a : Alphabet) : ℕ :=
  a.numDenseSymbols - a.numIoSymbolsNotSearcheable - 1

/-- `Alphabet::try_io_to_dense_representation`. -/
def tryIoToDenseRepresentation (a : Alphabet) (symbol : ℕ) : Option ℕ :=
  let symbol := a.ioToDenseRepresentationTable.getD symbol 0
  if symbol = 0 then none else some symbol

/-- `Alphabet::io_to_dense_representation` panics on an unknown byte; the
panic is embedded as `none` (`tryIoToDenseRepresentation` composed with
`expect`). -/
def ioToDenseRepresentation (a : Alphabet) (symbol : ℕ) : Option ℕ :=
  a.tryIoToDenseRepresentation symbol

/-- `Alphabet::from_io_symbols`: builds the 256-entry io→dense table by
writing `i + 1` at the position of the `i`-th symbol. -/
def fromIoSymbols (symbols : List ℕ) (numIoSymbolsNotSearcheable : ℕ) : Alphabet :=
  let ioTable :=
    (symbols.enum).foldl
      (fun table si => table.set si.2 (si.1 + 1))
      (List.replicate 256 0)
  { ioToDenseRepresentationTable := ioTable
    denseToIoRepresentationTable := symbols
    numIoSymbolsNotSearcheable := numIoSymbolsNotSearcheable }

/-- `Alphabet::from_ambiguous_io_symbols`: all bytes of group `i` map to
dense symbol `i + 1`; the group's first byte is the canonical io byte. -/
def fromAmbiguousIoSymbols (symbolGroups : List (List ℕ))
    (numIoSymbolsNotSearcheable : ℕ) : Alphabet :=
  let ioTable :=
    (symbolGroups.enum).foldl
      (fun table gi => gi.2.foldl (fun t s => t.set s (gi.1 + 1)) table)
      (List.replicate 256 0)
  { ioToDenseRepresentationTable := ioTable
    denseToIoRepresentationTable := symbolGroups.map (fun g => g.headD 0)
    numIoSymbolsNotSearcheable := numIoSymbolsNotSearcheable }

/-- Well-formedness facts guaranteed by the assertions in `Alphabet::new`,
used as hypotheses of the theorems below. -/
structure WF (a : Alphabet) : Prop where
  table_length : a.ioToDenseRepresentationTable.length = 256
  entries_le : ∀ d ∈ a.ioToDenseRepresentationTable,
    d ≤ a.denseToIoRepresentationTable.length
  searchable_nonempty : a.numIoSymbolsNotSearcheable + 2 ≤ a.numDenseSymbols

end Alphabet

/-- `alphabet::ascii_dna()`. -/
def asciiDna : Alphabet :=
  Alphabet.fromAmbiguousIoSymbols [[65, 97], [67, 99], [71, 103], [84, 116]] 0

/-- `alphabet::ascii_dna_with_n()`. -/
def asciiDnaWithN : Alphabet :=
  Alphabet.fromAmbiguousIoSymbols
    [[65, 97], [67, 99], [71, 103], [84, 116], [78, 110]] 1

/-- `alphabet::u8_until(max_symbol)`. -/
def u8Until (maxSymbol : ℕ) : Alphabet :=
  Alphabet.fromIoSymbols (List.range (maxSymbol + 1)) 0

/-! ### Compression mode selection (src/construction/mod.rs) -/

/-- `should_not_use_slice_compression`. -/
def shouldNotUseSliceCompression (performancePriority : PerformancePriority)
    (alphabet : Alphabet) : Bool :=
  performancePriority = PerformancePriority.highSpeed ∨
    alphabet.numDenseSymbols > 16

/-- The slice-compression mode that both `bwt_from_suffix_array` and
`construct_text_with_rank_support_maybe_slice_compressed` select (both
branch on `should_not_use_slice_compression`). -/
def chosenSliceCompression (performancePriority : PerformancePriority)
    (alphabet : Alphabet) : SliceCompression :=
  if shouldNotUseSliceCompression performancePriority alphabet then
    SliceCompression.noSliceCompression
  else
    SliceCompression.halfBytesCompression

/-! ### Blocks (src/text_with_rank_support/block.rs)

A block of `W` bits (`W = 64` for `Block64`, `W = 512` for `Block512`) is
modelled as a natural number `< 2 ^ W`: `Block512` stores `[u64; 8]` whose
`get_bit`/`set_bit` address bit `idx % 64` of word `idx / 64`, which is bit
`idx` of the little-endian concatenation of the words; the per-word
implementations of `negate`, `set_to_self_and`, `count_ones_before` (via
the `BLOCK512_MASKS` table, which masks all bits `≥ idx`) and the
offset-in-word-0 operations realise exactly the operations below on that
concatenation. -/

def NUM_BLOCK_OFFSET_BITS : ℕ := 16

namespace Block

/-- `Block::zeroes`. -/
def zeroes : ℕ := 0

/-- `Block::negate`: bitwise NOT of all `W` bits (per-word `!` in the
source). -/
def negate (W data : ℕ) : ℕ := data ^^^ (2 ^ W - 1)

/-- `Block::set_to_self_and`. -/
def setToSelfAnd (data other : ℕ) : ℕ := data &&& other

/-- `Block::count_ones_before idx`: popcount of the bits strictly below
`idx` (the source masks with `!(u64::MAX << idx)` resp. the
`BLOCK512_MASKS` entry, i.e. reduces the block modulo `2 ^ idx`, then
popcounts). -/
def countOnesBefore (data idx : ℕ) : ℕ := popcount (data % 2 ^ idx)

/-- `Block::get_bit`. -/
def getBit (data idx : ℕ) : ℕ := data >>> idx &&& 1

/-- `Block::set_bit_assuming_zero`. -/
def setBitAssumingZero (data idx bit : ℕ) : ℕ := data ||| bit <<< idx

/-- `Block::integrate_block_offset_assuming_zero`: stores the offset in
word 0 of the block, which is by assumption still zero. -/
def integrateBlockOffsetAssumingZero (data blockOffset : ℕ) : ℕ :=
  data ||| blockOffset % 2 ^ 64

/-- `Block::extract_block_offset_and_then_zeroize_it`: returns the low
16 bits and the block with them cleared. -/
def extractBlockOffsetAndThenZeroizeIt (data : ℕ) : ℕ × ℕ :=
  (data % 2 ^ NUM_BLOCK_OFFSET_BITS, data - data % 2 ^ NUM_BLOCK_OFFSET_BITS)

end Block

/-- `ilog2_ceil_for_nonzero`:
`usize::BITS - value.leading_zeros() - value.is_power_of_two()`, the
ceiling of the base-2 logarithm for nonzero input. -/
def ilog2CeilForNonzero (value : ℕ) : ℕ :=
  if value = 0 then 0
  else Nat.log2 value + 1 - (if 2 ^ Nat.log2 value = value then 1 else 0)

/-- Ceiling division `usize::div_ceil`. -/
def divCeil (a b : ℕ) : ℕ := (a + b - 1) / b

/-- u16::MAX + 1, the condensed superblock size. -/
def SUPERBLOCK_SIZE : ℕ := 65536

/-! ### Condensed text with rank support
(src/text_with_rank_support/condensed.rs) -/

structure CondensedTextWithRankSupport where
  textLen : ℕ
  alphabetSize : ℕ
  interleavedBlocks : List ℕ
  interleavedBlockOffsets : List ℕ
  interleavedSuperblockOffsets : List ℕ
deriving DecidableEq, Repr

namespace CondensedTextWithRankSupport

/-- State of `fill_superblock`'s inner symbol loop: the superblock's
symbol counts, the running block-offset sums (`u16` arithmetic) and the
bit-planes of the current block. -/
def fillBlockStep (nb : ℕ) (st : List ℕ × List ℕ × List ℕ) (is : ℕ × ℕ) :
    List ℕ × List ℕ × List ℕ :=
  let so := st.1
  let bos := st.2.1
  let blocks := st.2.2
  let indexInBlock := is.1
  let symbol := is.2
  let so := so.set symbol (so.getD symbol 0 + 1)
  let bos := bos.set symbol ((bos.getD symbol 0 + 1) % 65536)
  let blocks :=
    (List.range nb).foldl
      (fun bl b =>
        bl.set b (Block.setBitAssumingZero (bl.getD b 0) indexInBlock (symbol >>> b &&& 1)))
      blocks
  (so, bos, blocks)

/-- One text block of `fill_superblock`: records the current block-offset
sums, then accounts all symbols of the block into the superblock counts,
the offset sums and the block bit-planes. -/
def fillSuperblockStep (S : SliceCompression) (nb : ℕ)
    (st : List ℕ × List ℕ × List ℕ × List ℕ) (textBlock : List ℕ) :
    List ℕ × List ℕ × List ℕ × List ℕ :=
  let so := st.1
  let bos := st.2.1
  let boAcc := st.2.2.1
  let blocksAcc := st.2.2.2
  let boAcc := boAcc ++ bos
  let res := ((S.iter textBlock).enum).foldl (fillBlockStep nb) (so, bos, List.replicate nb 0)
  (res.1, res.2.1, boAcc, blocksAcc ++ res.2.2)

/-- `fill_superblock` for the condensed structure. Takes the superblock's
text chunk and the (zero-initialised) slices of the three interleaved
arrays belonging to this superblock; returns the filled slices. -/
def fillSuperblock (S : SliceCompression) (W alphabetSize : ℕ)
    (textChunk soChunk boChunk blocksChunk : List ℕ) :
    List ℕ × List ℕ × List ℕ :=
  let nb := ilog2CeilForNonzero alphabetSize
  let textBlocks := chunksOf (S.transformChunkSize W) textChunk
  let res :=
    textBlocks.foldl (fillSuperblockStep S nb)
      (soChunk, List.replicate alphabetSize 0, ([] : List ℕ), ([] : List ℕ))
  let so := res.1
  let bosFinal := res.2.1
  let boWritten := res.2.2.1
  let blocksWritten := res.2.2.2
  let blocksOvershoot := textBlocks.length < divCeil blocksChunk.length nb
  let bo := boWritten ++ boChunk.drop boWritten.length
  let bo :=
    if blocksOvershoot then bo.take (boChunk.length - alphabetSize) ++ bosFinal
    else bo
  let blocks := blocksWritten ++ blocksChunk.drop blocksWritten.length
  (so, bo, blocks)

/-- The serial exclusive prefix-sum pass over the per-superblock symbol
counts ("accumulate superblocks in single thread"). -/
def accumulateSuperblockOffsets (alphabetSize : ℕ) (offsets : List ℕ) : List ℕ :=
  ((chunksOf alphabetSize offsets).foldl
    (fun st record =>
      (st.1 ++ st.2, (st.2.zip record).map fun p => p.1 + p.2))
    (([] : List ℕ), List.replicate alphabetSize 0)).1

/-- `CondensedTextWithRankSupport::construct_from_maybe_slice_compressed_text`
(for block width `W`). -/
def construct (S : SliceCompression) (W : ℕ)
    (text : List ℕ) (uncompressedTextLen alphabetSize : ℕ) :
    CondensedTextWithRankSupport :=
  let nb := ilog2CeilForNonzero alphabetSize
  let len := S.transformedSliceLen text + 1
  let numIndicatorBlocks := divCeil len W * nb
  let numBlockOffsets := divCeil len W * alphabetSize
  let numSuperblockOffsets := divCeil len SUPERBLOCK_SIZE * alphabetSize
  let blocksAlloc := List.replicate numIndicatorBlocks 0
  let boAlloc := List.replicate numBlockOffsets 0
  let soAlloc := List.replicate numSuperblockOffsets 0
  let numBlocksPerSuperblock := SUPERBLOCK_SIZE / W * nb
  let numBlockOffsetsPerSuperblock := SUPERBLOCK_SIZE / W * alphabetSize
  let textChunks := chunksOf (S.transformChunkSize SUPERBLOCK_SIZE) text
  let soChunks := chunksOf alphabetSize soAlloc
  let boChunks := chunksOf numBlockOffsetsPerSuperblock boAlloc
  let blocksChunks := chunksOf numBlocksPerSuperblock blocksAlloc
  -- the rayon multizip truncates to the text chunk count; chunks beyond it
  -- keep their zero-initialised contents
  let filled :=
    (textChunks.zip ((soChunks.zip (boChunks.zip blocksChunks)))).map
      fun tc => fillSuperblock S W alphabetSize tc.1 tc.2.1 tc.2.2.1 tc.2.2.2
  let so := (filled.map fun f => f.1).flatten ++ (soChunks.drop filled.length).flatten
  let bo := (filled.map fun f => f.2.1).flatten ++ (boChunks.drop filled.length).flatten
  let blocks :=
    (filled.map fun f => f.2.2).flatten ++ (blocksChunks.drop filled.length).flatten
  { textLen := uncompressedTextLen
    alphabetSize := alphabetSize
    interleavedBlocks := blocks
    interleavedBlockOffsets := bo
    interleavedSuperblockOffsets := accumulateSuperblockOffsets alphabetSize so }

/-- The plane-combination loop of `rank_unchecked`: AND together the
remaining planes, each negated when the corresponding bit of the symbol
is zero (the symbol is shifted right before each plane). -/
def combinePlanes (W : ℕ) : ℕ → ℕ → List ℕ → ℕ
  | _symbol, acc, [] => acc
  | symbol, acc, b :: rest =>
    let symbol := symbol >>> 1
    let b := if symbol &&& 1 = 0 then Block.negate W b else b
    combinePlanes W symbol (Block.setToSelfAnd acc b) rest

/-- `CondensedTextWithRankSupport::rank_unchecked`. -/
def rankUnchecked (W : ℕ) (r : CondensedTextWithRankSupport) (symbol idx : ℕ) : ℕ :=
  let superblockOffsetIdx := idx / SUPERBLOCK_SIZE * r.alphabetSize + symbol
  let superblockOffset := r.interleavedSuperblockOffsets.getD superblockOffsetIdx 0
  let blockOffsetIdx := idx / W * r.alphabetSize + symbol
  let blockOffset := r.interleavedBlockOffsets.getD blockOffsetIdx 0
  let nb := ilog2CeilForNonzero r.alphabetSize
  let interleavedBlocks := (r.interleavedBlocks.drop (idx / W * nb)).take nb
  match interleavedBlocks with
  | [] => 0
  | firstBlock :: otherBlocks =>
    let acc := if symbol &&& 1 = 0 then Block.negate W firstBlock else firstBlock
    let acc := combinePlanes W symbol acc otherBlocks
    let indexInBlock := idx % W
    superblockOffset + blockOffset + Block.countOnesBefore acc indexInBlock

/-- `CondensedTextWithRankSupport::symbol_at` (the caller guarantees
`idx < text_len`; the source asserts it). -/
def symbolAt (W : ℕ) (r : CondensedTextWithRankSupport) (idx : ℕ) : ℕ :=
  let nb := ilog2CeilForNonzero r.alphabetSize
  let blocks := (r.interleavedBlocks.drop (idx / W * nb)).take nb
  let indexInBlock := idx % W
  (blocks.enum.foldl
    (fun symbol ib => symbol ||| Block.getBit ib.2 indexInBlock <<< ib.1) 0)

end CondensedTextWithRankSupport

/-! ### Flat text with rank support (src/text_with_rank_support/flat.rs) -/

structure FlatTextWithRankSupport where
  textLen : ℕ
  alphabetSize : ℕ
  superblockSize : ℕ
  interleavedBlocks : List ℕ
  interleavedSuperblockOffsets : List ℕ
deriving DecidableEq, Repr

namespace FlatTextWithRankSupport

/-- Inner symbol loop of the flat `fill_superblock`. -/
def fillBlockStep (st : List ℕ × List ℕ × List ℕ) (is : ℕ × ℕ) :
    List ℕ × List ℕ × List ℕ :=
  let so := st.1
  let bos := st.2.1
  let blocks := st.2.2
  let indexInBlock := is.1
  let symbol := is.2
  let so := so.set symbol (so.getD symbol 0 + 1)
  let bos := bos.set symbol ((bos.getD symbol 0 + 1) % 2 ^ 64)
  let blocks :=
    blocks.set symbol
      (Block.setBitAssumingZero (blocks.getD symbol 0)
        (indexInBlock + NUM_BLOCK_OFFSET_BITS) 1)
  (so, bos, blocks)

/-- One text block of the flat `fill_superblock`: integrate the running
block offsets into the fresh blocks of this position, then account all
symbols. -/
def fillSuperblockStep (S : SliceCompression) (_alphabetSize : ℕ)
    (st : List ℕ × List ℕ × List ℕ) (textBlock : List ℕ) :
    List ℕ × List ℕ × List ℕ :=
  let so := st.1
  let bos := st.2.1
  let blocksAcc := st.2.2
  let blocks := bos.map fun offset => Block.integrateBlockOffsetAssumingZero 0 offset
  let res := ((S.iter textBlock).enum).foldl fillBlockStep (so, bos, blocks)
  (res.1, res.2.1, blocksAcc ++ res.2.2)

/-- `fill_superblock` for the flat structure. -/
def fillSuperblock (S : SliceCompression) (W alphabetSize : ℕ)
    (textChunk soChunk blocksChunk : List ℕ) : List ℕ × List ℕ :=
  let usedBitsPerBlock := W - NUM_BLOCK_OFFSET_BITS
  let textBlocks := chunksOf (S.transformChunkSize usedBitsPerBlock) textChunk
  let res :=
    textBlocks.foldl (fillSuperblockStep S alphabetSize)
      (soChunk, List.replicate alphabetSize 0, ([] : List ℕ))
  let so := res.1
  let bosFinal := res.2.1
  let blocksWritten := res.2.2
  let blocksOvershoot := textBlocks.length < divCeil blocksChunk.length alphabetSize
  let blocks := blocksWritten ++ blocksChunk.drop blocksWritten.length
  let blocks :=
    if blocksOvershoot then
      blocks.take (blocksChunk.length - alphabetSize) ++
        (bosFinal.map fun offset => Block.integrateBlockOffsetAssumingZero 0 offset)
    else blocks
  (so, blocks)

/-- `FlatTextWithRankSupport::construct_from_maybe_slice_compressed_text`
(for block width `W`). -/
def construct (S : SliceCompression) (W : ℕ)
    (text : List ℕ) (uncompressedTextLen alphabetSize : ℕ) :
    FlatTextWithRankSupport :=
  let len := S.transformedSliceLen text + 1
  let usedBitsPerBlock := W - NUM_BLOCK_OFFSET_BITS
  let maxSuperblockSize := 2 ^ NUM_BLOCK_OFFSET_BITS
  let superblockSize := maxSuperblockSize / usedBitsPerBlock * usedBitsPerBlock
  let numIndicatorBlocks := divCeil len usedBitsPerBlock * alphabetSize
  let numSuperblockOffsets := divCeil len superblockSize * alphabetSize
  let blocksAlloc := List.replicate numIndicatorBlocks 0
  let soAlloc := List.replicate numSuperblockOffsets 0
  let numBlocksPerSuperblock := superblockSize / usedBitsPerBlock * alphabetSize
  let textChunks := chunksOf (S.transformChunkSize superblockSize) text
  let soChunks := chunksOf alphabetSize soAlloc
  let blocksChunks := chunksOf numBlocksPerSuperblock blocksAlloc
  let filled :=
    (textChunks.zip (soChunks.zip blocksChunks)).map
      fun tc => fillSuperblock S W alphabetSize tc.1 tc.2.1 tc.2.2
  let so := (filled.map fun f => f.1).flatten ++ (soChunks.drop filled.length).flatten
  let blocks :=
    (filled.map fun f => f.2).flatten ++ (blocksChunks.drop filled.length).flatten
  { textLen := uncompressedTextLen
    alphabetSize := alphabetSize
    superblockSize := superblockSize
    interleavedBlocks := blocks
    interleavedSuperblockOffsets :=
      CondensedTextWithRankSupport.accumulateSuperblockOffsets alphabetSize so }

/-- `FlatTextWithRankSupport::rank_unchecked`. -/
def rankUnchecked (W : ℕ) (r : FlatTextWithRankSupport) (symbol idx : ℕ) : ℕ :=
  let usedBitsPerBlock := W - NUM_BLOCK_OFFSET_BITS
  let superblockOffsetIdx := idx / r.superblockSize * r.alphabetSize + symbol
  let superblockOffset := r.interleavedSuperblockOffsets.getD superblockOffsetIdx 0
  let blockIdx := idx / usedBitsPerBlock * r.alphabetSize + symbol
  let block := r.interleavedBlocks.getD blockIdx 0
  let extracted := Block.extractBlockOffsetAndThenZeroizeIt block
  let idxInBlock := idx % usedBitsPerBlock
  superblockOffset + extracted.1 +
    Block.countOnesBefore extracted.2 (idxInBlock + NUM_BLOCK_OFFSET_BITS)

/-- `FlatTextWithRankSupport::symbol_at` (caller guarantees
`idx < text_len`; the `unreachable!()` case yields `alphabet_size`). -/
def symbolAt (W : ℕ) (r : FlatTextWithRankSupport) (idx : ℕ) : ℕ :=
  let usedBitsPerBlock := W - NUM_BLOCK_OFFSET_BITS
  let blocks := (r.interleavedBlocks.drop (idx / usedBitsPerBlock * r.alphabetSize)).take
    r.alphabetSize
  let indexInBlock := idx % usedBitsPerBlock + NUM_BLOCK_OFFSET_BITS
  blocks.findIdx fun block => Block.getBit block indexInBlock = 1

end FlatTextWithRankSupport

/-! ### The concatenated text and count table (src/construction/mod.rs) -/

/-- `create_concatenated_densely_encoded_text`, sentinel-offset part: a scan
recording, for each text, the offset of its trailing sentinel in the
concatenation. -/
def sentinelIndicesOf (texts : List (List ℕ)) : List ℕ :=
  (texts.foldl
    (fun (st : ℕ × List ℕ) t => (st.1 + t.length + 1, st.2 ++ [st.1 + t.length]))
    (0, [])).2

/-- `create_concatenated_densely_encoded_text`: densely encodes every text
(a panic on a byte outside the alphabet is `none`), concatenates them with
one sentinel byte 0 after each text, and tallies a 256-bin frequency table
whose bin 0 is then set to the number of texts. Returns
`(concatenated_text, frequency_table, sentinel_indices)`. -/
def createConcatenatedDenselyEncodedText (texts : List (List ℕ))
    (alphabet : Alphabet) : Option (List ℕ × List ℕ × List ℕ) := do
  if texts.isEmpty then none
  else do
    let encoded ← texts.mapM fun t => t.mapM alphabet.ioToDenseRepresentation
    let concatenatedText := (encoded.map fun t => t ++ [0]).flatten
    let frequencyTable :=
      encoded.foldl
        (fun table t =>
          t.foldl (fun table s => table.set s (table.getD s 0 + 1)) table)
        (List.replicate 256 0)
    let frequencyTable := frequencyTable.set 0 texts.length
    pure (concatenatedText, frequencyTable, sentinelIndicesOf texts)

/-- `frequency_table_to_count`: in-place exclusive prefix sum over the
first `alphabet_size + 1` bins. -/
def frequencyTableToCount (frequencyTable : List ℕ) (alphabetSize : ℕ) : List ℕ :=
  (((frequencyTable.take (alphabetSize + 1)).foldl
    (fun (st : ℕ × List ℕ) value => (st.1 + value, st.2 ++ [st.1]))
    (0, []))).2

/-! ### Suffix array -/

/-- Modelled from the spec: the suffix-array construction itself (the
external `libsais`/`sais-drum` crates) is not part of this repository's
sources; the spec treats it as "an opaque library returning, for a text T
of length n, an array SA of length n such that T[SA[i]..] is the i-th
suffix in lexicographic order". We realise that contract as the stable
sort of all suffix start positions by lexicographic comparison of the
suffixes (the suffixes of a sentinel-terminated text are pairwise
distinct, so the sorted order is unique). -/
def suffixArray (text : List ℕ) : List ℕ :=
  (List.range text.length).mergeSort fun i j => decide (text.drop i ≤ text.drop j)

/-! ### BWT and text-border map (src/construction/bwt.rs) -/

/-- The body of the innermost loop of
`bwt_from_suffix_array_maybe_slice_compressed`: writes
`text[sa_entry - 1]` (wrapping to the end of the text for entry 0) at the
next position of the BWT chunk. -/
def bwtWriteStep (S : SliceCompression) (text : List ℕ) (uncompressedTextLen : ℕ)
    (bwtChunk : List ℕ) (iEntry : ℕ × ℕ) : List ℕ :=
  let textIndex := if iEntry.2 > 0 then iEntry.2 else uncompressedTextLen
  S.set iEntry.1 bwtChunk (S.get (textIndex - 1) text)

/-- One inner chunk of `bwt_from_suffix_array_maybe_slice_compressed`:
fills the BWT values for this chunk of the suffix array, then scans the
freshly written chunk for zero symbols and records
`(global_row_index, sa_entry)` for each into the text-border map. -/
def bwtInnerChunk (S : SliceCompression) (text : List ℕ)
    (uncompressedTextLen globalBase : ℕ)
    (saChunk bwtChunk : List ℕ) : List ℕ × List (ℕ × ℕ) :=
  let bwtChunk := saChunk.enum.foldl (bwtWriteStep S text uncompressedTextLen) bwtChunk
  let borders :=
    (S.iterZeroIndices bwtChunk).map fun i => (globalBase + i, saChunk.getD i 0)
  (bwtChunk, borders)

/-- `bwt_from_suffix_array_maybe_slice_compressed`, embedded with the
outer chunk size as a parameter (in the source it is derived from the
rayon thread count and forced to be even). Inner chunks have 128 suffix
array entries. Returns the stored BWT and the text-border map (an
association list; the per-chunk hash maps have pairwise disjoint keys, so
their merge is concatenation). -/
def bwtFromSuffixArrayMaybeSliceCompressed (S : SliceCompression)
    (outerChunkSize : ℕ) (suffixArr text bwt : List ℕ)
    (uncompressedTextLen : ℕ) : List ℕ × List (ℕ × ℕ) :=
  let innerChunkSize := 128
  let bwtOuterChunkSize := S.transformChunkSize outerChunkSize
  let bwtInnerChunkSize := S.transformChunkSize innerChunkSize
  let saOuterChunks := chunksOf outerChunkSize suffixArr
  let bwtOuterChunks := chunksOf bwtOuterChunkSize bwt
  let processedOuter :=
    ((saOuterChunks.zip bwtOuterChunks).enum).map fun oc =>
      let outerChunkIdx := oc.1
      let saOuterChunk := oc.2.1
      let bwtOuterChunk := oc.2.2
      let saInnerChunks := chunksOf innerChunkSize saOuterChunk
      let bwtInnerChunks := chunksOf bwtInnerChunkSize bwtOuterChunk
      let processedInner :=
        ((saInnerChunks.zip bwtInnerChunks).enum).map fun ic =>
          bwtInnerChunk S text uncompressedTextLen
            (outerChunkSize * outerChunkIdx + innerChunkSize * ic.1)
            ic.2.1 ic.2.2
      ((processedInner.map fun p => p.1).flatten ++
        (bwtInnerChunks.drop processedInner.length).flatten,
        (processedInner.map fun p => p.2).flatten)
  ((processedOuter.map fun p => p.1).flatten ++
    (bwtOuterChunks.drop processedOuter.length).flatten,
    (processedOuter.map fun p => p.2).flatten)

/-- `bwt_from_suffix_array`: in the raw mode the BWT buffer is a fresh
zeroed vector of text length; in the packed-nibble mode the text is padded
to even length with the dense symbol 1, compressed in place, and the
second half of the buffer (which still holds the old text bytes) becomes
the BWT buffer. Returns `(stored_bwt, border_map, uncompressed_text_len)`
together with the chosen compression mode. -/
def bwtFromSuffixArray (outerChunkSize : ℕ) (suffixArr : List ℕ)
    (text : List ℕ) (performancePriority : PerformancePriority)
    (alphabet : Alphabet) :
    List ℕ × List (ℕ × ℕ) × ℕ × SliceCompression :=
  let uncompressedTextLen := text.length
  if shouldNotUseSliceCompression performancePriority alphabet then
    let res := bwtFromSuffixArrayMaybeSliceCompressed
      SliceCompression.noSliceCompression outerChunkSize suffixArr text
      (List.replicate text.length 0) uncompressedTextLen
    (res.1, res.2, uncompressedTextLen, SliceCompression.noSliceCompression)
  else
    let text := if text.length % 2 = 1 then text ++ [1] else text
    let compressed := halfByteCompressText text
    let half := text.length / 2
    let res := bwtFromSuffixArrayMaybeSliceCompressed
      SliceCompression.halfBytesCompression outerChunkSize suffixArr
      (compressed.take half) (compressed.drop half) uncompressedTextLen
    (res.1, res.2, uncompressedTextLen, SliceCompression.halfBytesCompression)

/-! ### Sampled suffix array (src/sampled_suffix_array.rs) -/

structure SampledSuffixArray where
  suffixArrayData : List ℕ
  textBorderLookup : List (ℕ × ℕ)
  samplingRate : ℕ
deriving DecidableEq, Repr

/-- `SampledSuffixArray::new_uncompressed`: retains every entry whose
index is divisible by the sampling rate, compacted in order. (The
`new_u32_compressed` variant stores the same retained values narrowed to
their low 32 bits; the construction asserts that the text length fits the
index type, so the values are unchanged and the variant is observationally
identical.) -/
def SampledSuffixArray.newUncompressed (suffixArrayData : List ℕ)
    (samplingRate : ℕ) (textBorderLookup : List (ℕ × ℕ)) : SampledSuffixArray :=
  { suffixArrayData :=
      ((suffixArrayData.enum).filter fun p => p.1 % samplingRate = 0).map fun p => p.2
    textBorderLookup := textBorderLookup
    samplingRate := samplingRate }

/-! ### Text-id search tree (src/text_id_search_tree.rs)

The source lays the tree out in a flat array in implicit-heap order; the
build recursion `add_nodes` and the descent `lookup_text_id` only ever
follow the parent/child index relation, so the embedding uses the
corresponding binary tree directly. -/

inductive TextIdNode where
  | leaf (textId : ℕ)
  | inner (threshold : ℕ) (left right : TextIdNode)
deriving DecidableEq, Repr

/-- The biased split point of `add_nodes`: `num_indices / 2` when the
length is a power of two, `num_indices.next_power_of_two() / 2` otherwise
(`is_power_of_two` tested via `2 ^ log2`). -/
def addNodesSplit (numIndices : ℕ) : ℕ :=
  if 2 ^ numIndices.log2 = numIndices then numIndices / 2
  else Nat.nextPowerOfTwo numIndices / 2

/-- `add_nodes`: split with a power-of-two bias, threshold is the last
index of the left part. The recursion is bounded by a fuel argument that
`addNodes` instantiates with the list length, which suffices because the
split point always lies strictly inside a list of two or more elements
(the impossible fuel-exhausted and empty cases return a junk leaf). -/
def addNodesAux : ℕ → List ℕ → ℕ → TextIdNode
  | 0, _, indicesOffset => TextIdNode.leaf indicesOffset
  | _ + 1, [], indicesOffset => TextIdNode.leaf indicesOffset
  | _ + 1, [_], indicesOffset => TextIdNode.leaf indicesOffset
  | fuel + 1, a :: b :: rest, indicesOffset =>
    let indices := a :: b :: rest
    let currOffset := addNodesSplit indices.length
    let left := indices.take currOffset
    let right := indices.drop currOffset
    let threshold := left.getLast? |>.getD 0
    TextIdNode.inner threshold
      (addNodesAux fuel left indicesOffset)
      (addNodesAux fuel right (indicesOffset + currOffset))

def addNodes (indices : List ℕ) (indicesOffset : ℕ) : TextIdNode :=
  addNodesAux indices.length indices indicesOffset

/-- `lookup_text_id`'s descent. -/
def TextIdNode.lookupTextId : TextIdNode → ℕ → ℕ
  | TextIdNode.leaf textId, _ => textId
  | TextIdNode.inner threshold left right, concatenatedTextIndex =>
    if concatenatedTextIndex ≤ threshold then left.lookupTextId concatenatedTextIndex
    else right.lookupTextId concatenatedTextIndex

structure TexdIdSearchTree where
  root : TextIdNode
  sentinelIndices : List ℕ
deriving DecidableEq, Repr

/-- `TexdIdSearchTree::new_from_sentinel_indices`. -/
def TexdIdSearchTree.newFromSentinelIndices (sentinelIndices : List ℕ) :
    TexdIdSearchTree :=
  { root := addNodes sentinelIndices 0, sentinelIndices := sentinelIndices }

/-- `TexdIdSearchTree::lookup_text_id`. -/
def TexdIdSearchTree.lookupTextId (t : TexdIdSearchTree)
    (concatenatedTextIndex : ℕ) : ℕ :=
  t.root.lookupTextId concatenatedTextIndex

/-- `TexdIdSearchTree::backtransfrom_concatenated_text_index`. -/
def TexdIdSearchTree.backtransfromConcatenatedTextIndex (t : TexdIdSearchTree)
    (concatenatedTextIndex : ℕ) : ℕ × ℕ :=
  let textId := t.lookupTextId concatenatedTextIndex
  let textIndex :=
    if textId = 0 then concatenatedTextIndex
    else concatenatedTextIndex - t.sentinelIndices.getD (textId - 1) 0 - 1
  (textId, textIndex)

/-! ### Generic text with rank support (src/text_with_rank_support/mod.rs)

The Rust `FmIndex` is generic over `R: TextWithRankSupport<I>`; the four
instantiations used by the library (condensed/flat × block width 64/512)
are embedded as a sum type with dispatching operations. -/

inductive RankVariant where
  | condensed
  | flat
deriving DecidableEq, Repr

inductive TextWithRankSupport where
  | condensed (W : ℕ) (r : CondensedTextWithRankSupport)
  | flat (W : ℕ) (r : FlatTextWithRankSupport)
deriving DecidableEq, Repr

namespace TextWithRankSupport

/-- `construct_from_maybe_slice_compressed_text` of the chosen variant. -/
def construct (variant : RankVariant) (S : SliceCompression) (W : ℕ)
    (text : List ℕ) (uncompressedTextLen alphabetSize : ℕ) :
    TextWithRankSupport :=
  match variant with
  | RankVariant.condensed =>
    condensed W
      (CondensedTextWithRankSupport.construct S W text uncompressedTextLen alphabetSize)
  | RankVariant.flat =>
    flat W
      (FlatTextWithRankSupport.construct S W text uncompressedTextLen alphabetSize)

/-- `TextWithRankSupport::rank_unchecked`. -/
def rankUnchecked : TextWithRankSupport → ℕ → ℕ → ℕ
  | condensed W r, symbol, idx => r.rankUnchecked W symbol idx
  | flat W r, symbol, idx => r.rankUnchecked W symbol idx

def textLen : TextWithRankSupport → ℕ
  | condensed _ r => r.textLen
  | flat _ r => r.textLen

def alphabetSize : TextWithRankSupport → ℕ
  | condensed _ r => r.alphabetSize
  | flat _ r => r.alphabetSize

/-- The public `TextWithRankSupport::rank`, which asserts
`symbol < alphabet_size && idx <= text_len` before delegating to
`rank_unchecked` (the panic is `none`). -/
def rank (r : TextWithRankSupport) (symbol idx : ℕ) : Option ℕ :=
  if symbol < r.alphabetSize ∧ idx ≤ r.textLen then
    some (r.rankUnchecked symbol idx)
  else none

/-- `TextWithRankSupport::symbol_at`. -/
def symbolAt : TextWithRankSupport → ℕ → ℕ
  | condensed W r, idx => r.symbolAt W idx
  | flat W r, idx => r.symbolAt W idx

end TextWithRankSupport

/-! ### Intervals, hits (src/lib.rs) -/

/-- `HalfOpenInterval` (`end` is a Lean keyword, so the field is `stop`). -/
structure HalfOpenInterval where
  start : ℕ
  stop : ℕ
deriving DecidableEq, Repr

/-- `Hit`. -/
structure Hit where
  textId : ℕ
  position : ℕ
deriving DecidableEq, Repr

/-! ### Lookup tables (src/lookup_table.rs) -/

structure LookupTable where
  data : List (ℕ × ℕ)
  depth : ℕ
deriving DecidableEq, Repr

structure LookupTables where
  numSymbols : ℕ
  factors : List ℕ
  tables : List LookupTable
deriving DecidableEq, Repr

namespace LookupTables

def newEmpty : LookupTables :=
  { numSymbols := 0, factors := [], tables := [] }

def maxDepth (lt : LookupTables) : ℕ := lt.tables.length - 1

/-- `compute_lookup_idx` (the const-curried `compute_lookup_idx_static_len`
specialisations compute the same sum as the dynamic fallback
`compute_lookup_idx_dynamic_len` embedded here). A query byte outside the
alphabet makes the translation panic (`none`). -/
def computeLookupIdx (lt : LookupTables) (alphabet : Alphabet)
    (querySuffix : List ℕ) : Option ℕ :=
  (querySuffix.zip lt.factors).foldl
    (fun acc sf => do
      let idx ← acc
      let denseSymbol ← alphabet.ioToDenseRepresentation sf.1
      pure (idx + (denseSymbol - 1) * sf.2))
    (some 0)

/-- `compute_lookup_idx_without_alphabet_transition` (dense input). -/
def computeLookupIdxWithoutAlphabetTransition (lt : LookupTables)
    (querySuffix : List ℕ) : ℕ :=
  (querySuffix.zip lt.factors).foldl
    (fun idx sf => idx + (sf.1 - 1) * sf.2) 0

/-- `lookup_idx`: `self.tables[depth].lookup(idx)`; the out-of-bounds
panic of `self.data[idx]` (which a non-searchable dense symbol in the
query suffix provokes) is `none`. -/
def lookupIdx (lt : LookupTables) (depth idx : ℕ) : Option HalfOpenInterval := do
  let table ← lt.tables[depth]?
  let p ← table.data[idx]?
  pure { start := p.1, stop := p.2 }

/-- `LookupTables::lookup`. -/
def lookup (lt : LookupTables) (querySuffix : List ℕ) (alphabet : Alphabet) :
    Option HalfOpenInterval := do
  let idx ← lt.computeLookupIdx alphabet querySuffix
  lt.lookupIdx querySuffix.length idx

/-- `LookupTables::lookup_without_alphabet_translation`. -/
def lookupWithoutAlphabetTranslation (lt : LookupTables)
    (querySuffix : List ℕ) : Option HalfOpenInterval :=
  lt.lookupIdx querySuffix.length
    (lt.computeLookupIdxWithoutAlphabetTransition querySuffix)

end LookupTables

/-! ### The FM-Index (src/lib.rs) -/

structure FmIndex where
  alphabet : Alphabet
  count : List ℕ
  textWithRankSupport : TextWithRankSupport
  suffixArray : SampledSuffixArray
  textIds : TexdIdSearchTree
  lookupTables : LookupTables
deriving Repr

namespace FmIndex

/-- `FmIndex::total_text_len`. -/
def totalTextLen (index : FmIndex) : ℕ := index.textWithRankSupport.textLen

/-- `FmIndex::lf_mapping_step`. The checked `rank` assertion always passes
on the arguments produced by the index (dense symbols are below the
alphabet size, interval borders stay `≤ n`), so the step is embedded as a
total function on `rank_unchecked`. -/
def lfMappingStep (index : FmIndex) (symbol idx : ℕ) : ℕ :=
  index.count.getD symbol 0 + index.textWithRankSupport.rankUnchecked symbol idx

/-- `Cursor::extend_query_front` on a dense symbol: one LF step on both
interval borders unless the cursor is already empty (empty cursors are
no-ops). This is `extend_front_without_alphabet_translation` of the
cursor. -/
def extendFrontDense (index : FmIndex) (interval : HalfOpenInterval)
    (symbol : ℕ) : HalfOpenInterval :=
  if interval.start ≠ interval.stop then
    { start := index.lfMappingStep symbol interval.start
      stop := index.lfMappingStep symbol interval.stop }
  else interval

/-- Modelled from the spec: the `Cursor` revision used by `lib.rs` (with a
mutating `extend_query_front`) is absent from the sources; spec §4.7
specifies the LF step on both borders with empty cursors being no-ops and
§4.7 step 1 the `BadSymbol` failure on a byte outside the alphabet, which
matches `Cursor::extend_front` of the present older revision. -/
def extendQueryFront (index : FmIndex) (interval : HalfOpenInterval)
    (symbol : ℕ) : Option HalfOpenInterval := do
  let denseSymbol ← index.alphabet.ioToDenseRepresentation symbol
  pure (index.extendFrontDense interval denseSymbol)

/-- The loop of `cursor_for_query`: extend with the remaining query
symbols right-to-left, breaking as soon as the count reaches zero. -/
def extendLoop (index : FmIndex) : List ℕ → HalfOpenInterval →
    Option HalfOpenInterval
  | [], interval => some interval
  | symbol :: rest, interval => do
    let interval ← index.extendQueryFront interval symbol
    if interval.stop - interval.start = 0 then some interval
    else index.extendLoop rest interval

/-- The corresponding loop of
`cursor_for_query_without_alphabet_translation` (dense input). -/
def extendLoopDense (index : FmIndex) : List ℕ → HalfOpenInterval →
    HalfOpenInterval
  | [], interval => interval
  | symbol :: rest, interval =>
    let interval := index.extendFrontDense interval symbol
    if interval.stop - interval.start = 0 then interval
    else index.extendLoopDense rest interval

/-- `FmIndex::split_query_for_lookup`. -/
def splitQueryForLookup (index : FmIndex) (query : List ℕ) :
    List ℕ × List ℕ :=
  let lookupDepth := min query.length index.lookupTables.maxDepth
  let suffixIdx := query.length - lookupDepth
  (query.take suffixIdx, query.drop suffixIdx)

/-- `FmIndex::cursor_for_query` (the interval of the returned cursor). -/
def cursorForQuery (index : FmIndex) (query : List ℕ) :
    Option HalfOpenInterval := do
  let split := index.splitQueryForLookup query
  let interval ← index.lookupTables.lookup split.2 index.alphabet
  index.extendLoop split.1.reverse interval

/-- `FmIndex::cursor_for_query_without_alphabet_translation`. -/
def cursorForQueryWithoutAlphabetTranslation (index : FmIndex)
    (query : List ℕ) : Option HalfOpenInterval := do
  let split := index.splitQueryForLookup query
  let interval ← index.lookupTables.lookupWithoutAlphabetTranslation split.2
  pure (index.extendLoopDense split.1.reverse interval)

/-- `FmIndex::count` (`cursor.count()` is `end - start`). -/
def countQuery (index : FmIndex) (query : List ℕ) : Option ℕ :=
  (index.cursorForQuery query).map fun interval => interval.stop - interval.start

/-- The loop of `SampledSuffixArray::recover_range` for a single row, with
fuel (the source loop has none; `recoverOne` supplies fuel `n + 1`, which
theorem `C10_walk_back_terminates` shows is never exhausted). `none`
models both fuel exhaustion and the panics on a missing border-map entry
or an out-of-range sampled-array access. -/
def recoverAux (index : FmIndex) : ℕ → ℕ → ℕ → Option ℕ
  | 0, _, _ => none
  | fuel + 1, i, numStepsDone =>
    if i % index.suffixArray.samplingRate ≠ 0 then
      let bwtSymbol := index.textWithRankSupport.symbolAt i
      if bwtSymbol = 0 then
        (index.suffixArray.textBorderLookup.lookup i).map (· + numStepsDone)
      else
        index.recoverAux fuel (index.lfMappingStep bwtSymbol i) (numStepsDone + 1)
    else
      (index.suffixArray.suffixArrayData[i / index.suffixArray.samplingRate]?).map
        (· + numStepsDone)

/-- One element of `SampledSuffixArray::recover_range`. -/
def recoverOne (index : FmIndex) (i : ℕ) : Option ℕ :=
  index.recoverAux (index.totalTextLen + 1) i 0

/-- `FmIndex::locate_interval`:
`suffix_array.recover_range(start..end, self)` mapped through
`text_ids.backtransfrom_concatenated_text_index`. -/
def locateInterval (index : FmIndex) (interval : HalfOpenInterval) :
    Option (List Hit) :=
  (List.range' interval.start (interval.stop - interval.start)).mapM fun row => do
    let idx ← index.recoverOne row
    let p := index.textIds.backtransfromConcatenatedTextIndex idx
    pure { textId := p.1, position := p.2 }

/-- `FmIndex::locate`. -/
def locateQuery (index : FmIndex) (query : List ℕ) : Option (List Hit) := do
  let interval ← index.cursorForQuery query
  index.locateInterval interval

end FmIndex

/-! ### Lookup-table construction (src/lookup_table.rs) -/

/-- `fill_table`, restructured on the remaining recursion depth
`max_depth - curr_depth` (the source recurses on `curr_depth` up to
`max_depth`). The state is the data array plus the mutable query buffer.
The impossible lookup failure inside the partially built index (all keys
are searchable dense words) is embedded as the default interval. -/
def fillTableAux (index : FmIndex) (numSymbols : ℕ) :
    ℕ → ℕ → List (ℕ × ℕ) × List ℕ → List (ℕ × ℕ) × List ℕ
  | 0, currDepth, st =>
    (List.range numSymbols).foldl
      (fun st symbol =>
        let query := st.2.set (currDepth - 1) (symbol + 1)
        let interval :=
          (index.cursorForQueryWithoutAlphabetTranslation query).getD
            { start := 0, stop := 0 }
        let idx := index.lookupTables.computeLookupIdxWithoutAlphabetTransition query
        (st.1.set idx (interval.start, interval.stop), query))
      st
  | remaining + 1, currDepth, st =>
    (List.range numSymbols).foldl
      (fun st symbol =>
        let query := st.2.set (currDepth - 1) (symbol + 1)
        fillTableAux index numSymbols remaining (currDepth + 1) (st.1, query))
      st

/-- `LookupTable::new`. -/
def LookupTable.new (index : FmIndex) (depth numSymbols : ℕ) : LookupTable :=
  let numValues := numSymbols ^ depth
  let data := List.replicate numValues (0, 0)
  if depth > 0 then
    { data := (fillTableAux index numSymbols (depth - 1) 1
        (data, List.replicate depth 0)).1
      depth := depth }
  else
    { data := data.set 0 (0, index.totalTextLen), depth := depth }

/-- `fill_lookup_tables`: sets the searchable symbol count and the factor
array, then builds the tables of depths `0..=max_depth` iteratively, each
using the index with the smaller tables already attached. -/
def fillLookupTables (index : FmIndex) (maxDepth : ℕ) : FmIndex :=
  let numSymbols := index.alphabet.numSearchableDenseSymbols
  let index :=
    { index with
      lookupTables :=
        { numSymbols := numSymbols
          factors := (List.range (maxDepth + 1)).map fun exponent => numSymbols ^ exponent
          tables := [] } }
  (List.range (maxDepth + 1)).foldl
    (fun index depth =>
      { index with
        lookupTables :=
          { index.lookupTables with
            tables := index.lookupTables.tables ++ [LookupTable.new index depth numSymbols] } })
    index

/-! ### Index construction (src/construction/mod.rs, src/lib.rs) -/

structure FmIndexConfig where
  suffixArraySamplingRate : ℕ
  lookupTableDepth : ℕ
  performancePriority : PerformancePriority
deriving DecidableEq, Repr

/-- `FmIndexConfig::construct_index` / `FmIndex::new` /
`create_data_structures`, for the chosen rank-support variant and block
width. `outerChunkSize` is the even BWT outer chunk size that the source
derives from the rayon thread count. `none` models the construction
panics (a text byte outside the alphabet, or an empty text collection). -/
def constructIndex (variant : RankVariant) (W : ℕ) (config : FmIndexConfig)
    (outerChunkSize : ℕ) (texts : List (List ℕ)) (alphabet : Alphabet) :
    Option FmIndex := do
  let created ← createConcatenatedDenselyEncodedText texts alphabet
  let text := created.1
  let frequencyTable := created.2.1
  let sentinelIndices := created.2.2
  let textIds := TexdIdSearchTree.newFromSentinelIndices sentinelIndices
  let count := frequencyTableToCount frequencyTable alphabet.numDenseSymbols
  let suffixArr := suffixArray text
  let bwtRes := bwtFromSuffixArray outerChunkSize suffixArr text
    config.performancePriority alphabet
  let sampledSuffixArray := SampledSuffixArray.newUncompressed suffixArr
    config.suffixArraySamplingRate bwtRes.2.1
  let textWithRankSupport := TextWithRankSupport.construct variant
    bwtRes.2.2.2 W bwtRes.1 text.length alphabet.numDenseSymbols
  let index : FmIndex :=
    { alphabet := alphabet
      count := count
      textWithRankSupport := textWithRankSupport
      suffixArray := sampledSuffixArray
      textIds := textIds
      lookupTables := LookupTables.newEmpty }
  pure (fillLookupTables index config.lookupTableDepth)

/-! ### Specification-side predicates

These definitions follow the specification's mathematical vocabulary (the
lexicographic suffix order, occurrence counts, and the reference naive
search); they are used only to state and prove properties of the program
definitions above. -/

/-- The number of positions of `text` whose suffix is lexicographically
smaller than `w`. -/
def ltCount (text w : List ℕ) : ℕ :=
  ((Finset.range text.length).filter fun p => text.drop p < w).card

/-- The number of positions of `text` whose suffix starts with `w`. -/
def occCount (text w : List ℕ) : ℕ :=
  ((Finset.range text.length).filter fun p => w <+: text.drop p).card

/-- The number of positions of `text` whose suffix is smaller than `w` or
starts with `w`. -/
def leCount (text w : List ℕ) : ℕ :=
  ((Finset.range text.length).filter fun p =>
    text.drop p < w ∨ w <+: text.drop p).card

/-- Modelled from the spec: the reference naive search.
`naive_search(texts, P)` is the list of all pairs `(text_id, position)`
such that `texts[text_id][position..position+|P|] = P`. -/
def naiveSearch (texts : List (List ℕ)) (P : List ℕ) : List Hit :=
  (texts.enum.map fun tp =>
    (List.range (tp.2.length + 1 - P.length)).filterMap fun pos =>
      if (tp.2.drop pos).take P.length = P then
        some { textId := tp.1, position := pos }
      else none).flatten

/-- The backward-search correctness invariant: the interval either has
exactly the borders of the `w`-block of rows of the suffix array, or is an
empty interval while `w` does not occur in `text` at all. -/
def goodInterval (text w : List ℕ) (I : HalfOpenInterval) : Prop :=
  (I.start = ltCount text w ∧ I.stop = leCount text w) ∨
    (I.start = I.stop ∧ occCount text w = 0)

/-! ## Theorems -/

/-! ### C7: packed-mode selection policy -/

/-- C7, counterexample. The claim states that packing is used iff σ ≤ 16
(σ the number of dense symbols excluding the sentinel) and the priority is
not high-speed. For `u8_until(15)` (σ = 16 ≤ 16) with priority `Balanced`
the code nevertheless selects the raw mode, because
`should_not_use_slice_compression` compares the sentinel-including count
`num_dense_symbols() = 17` against 16. -/
theorem C7_counterexample :
    chosenSliceCompression PerformancePriority.balanced (u8Until 15) =
      SliceCompression.noSliceCompression ∧
    (u8Until 15).numDenseSymbols - 1 = 16 ∧
    PerformancePriority.balanced ≠ PerformancePriority.highSpeed := by
  refine ⟨rfl, rfl, by decide⟩

/-- C7, amended: index construction (both `bwt_from_suffix_array` and
`construct_text_with_rank_support_maybe_slice_compressed` branch on
`should_not_use_slice_compression`, embedded as `chosenSliceCompression`)
selects the packed-nibble mode iff σ ≤ 15 — equivalently, iff the dense
symbol count including the sentinel is at most 16 — and the configured
performance priority is not high-speed. -/
theorem C7_packed_mode_selection (priority : PerformancePriority)
    (alphabet : Alphabet) :
    chosenSliceCompression priority alphabet =
        SliceCompression.halfBytesCompression ↔
      (alphabet.denseToIoRepresentationTable.length ≤ 15 ∧
        priority ≠ PerformancePriority.highSpeed) := by
  unfold chosenSliceCompression shouldNotUseSliceCompression
  simp only [decide_eq_true_eq, Alphabet.numDenseSymbols]
  by_cases hp : priority = PerformancePriority.highSpeed <;>
    by_cases hl : alphabet.denseToIoRepresentationTable.length ≤ 15
  · rw [if_pos (Or.inl hp)]
    exact iff_of_false (by decide) fun h => h.2 hp
  · rw [if_pos (Or.inl hp)]
    exact iff_of_false (by decide) fun h => h.2 hp
  · rw [if_neg (by push_neg; exact ⟨hp, by omega⟩)]
    exact iff_of_true rfl ⟨hl, hp⟩
  · rw [if_pos (Or.inr (by omega))]
    exact iff_of_false (by decide) fun h => hl h.1

/-! ### C8: packed-nibble layout -/

theorem getD_map_range {α : Type} {f : ℕ → α} {m k : ℕ} (h : k < m) (d : α) :
    ((List.range m).map f).getD k d = f k := by
  have hlen : k < ((List.range m).map f).length := by simpa using h
  rw [List.getD_eq_getElem _ d hlen, List.getElem_map, List.getElem_range]

theorem getD_mem_of_lt {l : List ℕ} {k : ℕ} (h : k < l.length) (d : ℕ) :
    l.getD k d ∈ l := by
  rw [List.getD_eq_getElem l d h]
  exact l.getElem_mem h

/-- The byte written by `half_byte_compress_text` at position `k`: the
even-index symbol lands in the high nibble, the odd-index symbol in the
low nibble. -/
theorem halfByteCompressText_getD (text : List ℕ)
    (htext : ∀ b ∈ text, b < 16) (k : ℕ) (hk : k < text.length / 2) :
    (halfByteCompressText text).getD k 0 =
      16 * text.getD (k * 2) 0 + text.getD (k * 2 + 1) 0 := by
  have h2k : k * 2 < text.length := by omega
  have h2k1 : k * 2 + 1 < text.length := by omega
  have hv : text.getD (k * 2) 0 < 16 := htext _ (getD_mem_of_lt h2k 0)
  have hv1 : text.getD (k * 2 + 1) 0 < 16 := htext _ (getD_mem_of_lt h2k1 0)
  unfold halfByteCompressText
  rw [List.getD_append _ _ _ _ (by simpa using hk), getD_map_range hk]
  unfold packIntoLeftHalfOfByte packIntoRightHalfOfByte
  omega

/-- C8, counterexample. The claim places the even-index symbol in the low
nibble. Packing the text `[1, 2]` stores the byte `18 = 0x12` (the buffer
tail keeps the old contents): the even-index symbol 1 sits in the high
nibble (`18 / 16 = 1`), the low nibble holds the odd-index symbol
(`18 % 16 = 2`), and `get 0` reads the high nibble. -/
theorem C8_counterexample :
    halfByteCompressText [1, 2] = [18, 2] ∧
    SliceCompression.halfBytesCompression.get 0 (halfByteCompressText [1, 2]) = 1 ∧
    (18 : ℕ) % 16 = 2 := by
  refine ⟨by decide, by decide, by decide⟩

/-- C8, amended: in the packed-nibble representation the symbol at an even
logical index is stored in the HIGH nibble of byte `i / 2` and the symbol
at an odd index in the LOW nibble: packing a dense text stores
`text[2k]` in the sixteens place and `text[2k+1]` in the units place of
byte `k`, `get` recovers every symbol, and `set` writes the nibble of its
index while leaving the sibling nibble of the same byte unchanged. -/
theorem C8_packed_nibble_layout (text : List ℕ) (slice : List ℕ) (i v : ℕ)
    (htext : ∀ b ∈ text, b < 16) (hi : i < 2 * (text.length / 2))
    (hv : v < 16) (hslice : i / 2 < slice.length) :
    (halfByteCompressText text).getD (i / 2) 0 =
        16 * text.getD (2 * (i / 2)) 0 + text.getD (2 * (i / 2) + 1) 0 ∧
    SliceCompression.halfBytesCompression.get i (halfByteCompressText text) =
        text.getD i 0 ∧
    SliceCompression.halfBytesCompression.get i
        (SliceCompression.halfBytesCompression.set i slice v) = v ∧
    SliceCompression.halfBytesCompression.get (if i % 2 = 0 then i + 1 else i - 1)
        (SliceCompression.halfBytesCompression.set i slice v) =
      SliceCompression.halfBytesCompression.get (if i % 2 = 0 then i + 1 else i - 1)
        slice := by
  have hk : i / 2 < text.length / 2 := by omega
  have hbyte := halfByteCompressText_getD text htext (i / 2) hk
  have h2k : i / 2 * 2 < text.length := by omega
  have h2k1 : i / 2 * 2 + 1 < text.length := by omega
  have hv : text.getD (i / 2 * 2) 0 < 16 := htext _ (getD_mem_of_lt h2k 0)
  have hv1 : text.getD (i / 2 * 2 + 1) 0 < 16 := htext _ (getD_mem_of_lt h2k1 0)
  have hsetD : ∀ x, (slice.set (i / 2) x).getD (i / 2) 0 = x := by
    intro x
    rw [List.getD_eq_getElem _ 0 (by simpa using hslice)]
    exact List.getElem_set_self (by simpa using hslice)
  have hsliceD : ∀ x, (slice.set (i / 2) x).getD (i / 2) 0 = x := hsetD
  refine ⟨by rw [hbyte]; ring_nf, ?_, ?_, ?_⟩
  · -- get recovers the packed symbol
    simp only [SliceCompression.get, unpackFromLeftHalfOfByte,
      unpackFromRightHalfOfByte]
    rcases Nat.even_or_odd i with hpar | hpar
    · have hi2 : i % 2 = 0 := Nat.even_iff.mp hpar
      rw [show i / 2 * 2 = i from by omega] at hbyte hv hv1
      rw [if_pos hi2, hbyte]
      omega
    · have hi2 : i % 2 = 1 := Nat.odd_iff.mp hpar
      rw [show i / 2 * 2 + 1 = i from by omega] at hbyte hv1
      rw [if_neg (by omega), hbyte]
      omega
  · -- set/get round trip on the same index
    simp only [SliceCompression.get, SliceCompression.set,
      unpackFromLeftHalfOfByte, unpackFromRightHalfOfByte,
      packIntoLeftHalfOfByte, packIntoRightHalfOfByte]
    rcases Nat.even_or_odd i with hpar | hpar
    · have hi2 : i % 2 = 0 := Nat.even_iff.mp hpar
      rw [if_pos hi2, if_pos hi2, hsetD]
      omega
    · have hi2 : i % 2 = 1 := Nat.odd_iff.mp hpar
      rw [if_neg (by omega), if_neg (by omega), hsetD]
      omega
  · -- set leaves the sibling nibble of the same byte unchanged
    simp only [SliceCompression.get, SliceCompression.set,
      unpackFromLeftHalfOfByte, unpackFromRightHalfOfByte,
      packIntoLeftHalfOfByte, packIntoRightHalfOfByte]
    rcases Nat.even_or_odd i with hpar | hpar
    · have hi2 : i % 2 = 0 := Nat.even_iff.mp hpar
      have hsibdiv : (i + 1) / 2 = i / 2 := by omega
      rw [if_pos hi2, if_pos hi2, if_neg (by omega : ¬ (i + 1) % 2 = 0),
        if_neg (by omega : ¬ (i + 1) % 2 = 0), hsibdiv, hsetD]
      omega
    · have hi2 : i % 2 = 1 := Nat.odd_iff.mp hpar
      have hsibdiv : (i - 1) / 2 = i / 2 := by omega
      rw [if_neg (by omega : ¬ i % 2 = 0), if_neg (by omega : ¬ i % 2 = 0),
        if_pos (by omega : (i - 1) % 2 = 0),
        if_pos (by omega : (i - 1) % 2 = 0), hsibdiv, hsetD]
      omega

/-! ### Bit-level infrastructure -/

theorem popcount_succ (n : ℕ) (h : 0 < n) :
    popcount n = n % 2 + popcount (n / 2) := by
  cases n with
  | zero => omega
  | succ m => rw [popcount]

theorem popcount_two_mul_add (y b : ℕ) (hb : b < 2) :
    popcount (2 * y + b) = popcount y + b := by
  by_cases h : 2 * y + b = 0
  · have hy : y = 0 := by omega
    have hb0 : b = 0 := by omega
    simp [hy, hb0, popcount]
  · rw [popcount_succ _ (by omega)]
    have h2 : (2 * y + b) % 2 = b := by omega
    have h3 : (2 * y + b) / 2 = y := by omega
    rw [h2, h3]
    omega

/-- Popcount of `x % 2 ^ m` counts the set bits of `x` below `m`. -/
theorem popcount_mod_two_pow (m : ℕ) : ∀ x : ℕ,
    popcount (x % 2 ^ m) = ∑ j ∈ Finset.range m, (x.testBit j).toNat := by
  induction m with
  | zero =>
    intro x
    rw [pow_zero, Nat.mod_one]
    simp [popcount]
  | succ m ih =>
    intro x
    have hsplit : x % 2 ^ (m + 1) = 2 * (x / 2 % 2 ^ m) + x % 2 := by
      rw [pow_succ, Nat.mul_comm, Nat.mod_mul]
      omega
    rw [hsplit, popcount_two_mul_add _ _ (by omega), ih (x / 2),
      Finset.sum_range_succ']
    congr 1
    · exact Finset.sum_congr rfl fun j _ => by rw [Nat.testBit_add_one]
    · rw [Nat.testBit_zero]
      by_cases hx : x % 2 = 1 <;> simp [hx] <;> omega

/-! ### Chunking infrastructure -/

theorem chunksOf_nil {α : Type} (k : ℕ) : chunksOf k ([] : List α) = [] := by
  rw [chunksOf]

theorem chunksOf_cons {α : Type} (k : ℕ) (hk : 0 < k) (l : List α) (hl : l ≠ []) :
    chunksOf k l = l.take k :: chunksOf k (l.drop k) := by
  match l with
  | [] => exact absurd rfl hl
  | a :: t =>
    rw [chunksOf]
    simp only [dif_neg (by omega : ¬ k = 0)]

theorem divCeil_zero (k : ℕ) : divCeil 0 k = 0 := by
  match k with
  | 0 => rfl
  | k + 1 =>
    unfold divCeil
    exact Nat.div_eq_of_lt (by omega)

theorem divCeil_succ_sub (k n : ℕ) (hk : 0 < k) (hn : 0 < n) :
    divCeil n k = divCeil (n - k) k + 1 := by
  unfold divCeil
  rcases le_or_lt k n with h | h
  · have : n + k - 1 = (n - k + k - 1) + k := by omega
    rw [this, Nat.add_div_right _ hk]
  · have h1 : n - k = 0 := by omega
    rw [h1]
    have h2 : (n + k - 1) / k = 1 := by
      apply Nat.div_eq_of_lt_le <;> omega
    have h3 : (0 + k - 1) / k = 0 := Nat.div_eq_of_lt (by omega)
    omega

theorem chunksOf_length {α : Type} (k : ℕ) (hk : 0 < k) (l : List α) :
    (chunksOf k l).length = divCeil l.length k := by
  suffices h : ∀ (n : ℕ) (l : List α), l.length ≤ n →
      (chunksOf k l).length = divCeil l.length k from h l.length l le_rfl
  intro n
  induction n with
  | zero =>
    intro l hl
    have : l = [] := List.eq_nil_of_length_eq_zero (by omega)
    simp [this, chunksOf_nil, divCeil_zero]
  | succ n ih =>
    intro l hl
    match l with
    | [] => simp [chunksOf_nil, divCeil_zero]
    | a :: t =>
      rw [chunksOf_cons k hk _ (by simp), List.length_cons,
        ih ((a :: t).drop k) (by simp only [List.length_drop, List.length_cons] at hl ⊢; omega), List.length_drop,
        divCeil_succ_sub k (a :: t).length hk (by simp)]

theorem chunksOf_flatten {α : Type} (k : ℕ) (hk : 0 < k) (l : List α) :
    (chunksOf k l).flatten = l := by
  suffices h : ∀ (n : ℕ) (l : List α), l.length ≤ n →
      (chunksOf k l).flatten = l from h l.length l le_rfl
  intro n
  induction n with
  | zero =>
    intro l hl
    have : l = [] := List.eq_nil_of_length_eq_zero (by omega)
    simp [this, chunksOf_nil]
  | succ n ih =>
    intro l hl
    match l with
    | [] => simp [chunksOf_nil]
    | a :: t =>
      rw [chunksOf_cons k hk _ (by simp), List.flatten_cons,
        ih ((a :: t).drop k) (by simp only [List.length_drop, List.length_cons] at hl ⊢; omega), List.take_append_drop]

theorem chunksOf_getD {α : Type} (k : ℕ) (hk : 0 < k) (l : List α) (i : ℕ) :
    (chunksOf k l).getD i [] = (l.drop (i * k)).take k := by
  suffices h : ∀ (n : ℕ) (l : List α) (i : ℕ), l.length ≤ n →
      (chunksOf k l).getD i [] = (l.drop (i * k)).take k from h l.length l i le_rfl
  intro n
  induction n with
  | zero =>
    intro l i hl
    have : l = [] := List.eq_nil_of_length_eq_zero (by omega)
    simp [this, chunksOf_nil]
  | succ n ih =>
    intro l i hl
    match l with
    | [] => simp [chunksOf_nil]
    | a :: t =>
      rw [chunksOf_cons k hk _ (by simp)]
      match i with
      | 0 => simp
      | i + 1 =>
        have hdd : (a :: t).drop ((i + 1) * k) = ((a :: t).drop k).drop (i * k) := by
          rw [List.drop_drop]
          congr 1
          ring
        rw [hdd, List.getD_cons_succ, ih ((a :: t).drop k) i (by simp only [List.length_drop, List.length_cons] at hl ⊢; omega)]

theorem chunksOf_length_le {α : Type} (k : ℕ) (hk : 0 < k) (l : List α) (i : ℕ)
    (hi : i < (chunksOf k l).length) :
    ((chunksOf k l).getD i []).length = min k (l.length - i * k) := by
  rw [chunksOf_getD k hk]
  rw [chunksOf_length k hk] at hi
  simp only [List.length_take, List.length_drop]

/-- The generic flatten-of-chunk-shaped-lists access: if every piece of
`ms` has the length of the corresponding chunk of a length-`N` allocation
chunked by `P`, then the flattening is accessed chunk-wise. -/
theorem flatten_getD_chunkShaped {P : ℕ} (hP : 0 < P) :
    ∀ (ms : List (List ℕ)) (N : ℕ), ms.length = divCeil N P →
    (∀ i, i < ms.length → (ms.getD i []).length = min P (N - i * P)) →
    ∀ g, g < N → ∀ d, ms.flatten.getD g d = (ms.getD (g / P) []).getD (g % P) d := by
  intro ms
  induction ms with
  | nil =>
    intro N hlen _ g hg d
    simp only [List.length_nil, divCeil] at hlen
    have h1 : 1 ≤ (N + P - 1) / P := (Nat.le_div_iff_mul_le hP).mpr (by omega)
    omega
  | cons m rest ih =>
    intro N hlen hchunk g hg d
    have hm : m.length = min P N := by simpa using hchunk 0 (by simp)
    rw [List.flatten_cons]
    rcases Nat.lt_or_ge g P with hgP | hgP
    · have hdiv : g / P = 0 := Nat.div_eq_of_lt hgP
      have hmod : g % P = g := Nat.mod_eq_of_lt hgP
      rw [List.getD_append _ _ _ _ (by omega), hdiv, hmod]
      simp
    · have hNP : P ≤ N := by omega
      have hdiv : g / P = (g - P) / P + 1 := by
        have h := Nat.add_div_right (g - P) hP
        rw [show g - P + P = g from by omega] at h
        omega
      have hmod : g % P = (g - P) % P := by
        have h := Nat.add_mod_right (g - P) P
        rw [show g - P + P = g from by omega] at h
        omega
      have hmlen : m.length = P := by omega
      rw [List.getD_append_right _ _ _ _ (by omega), hmlen, hdiv, hmod]
      have hrest : rest.length = divCeil (N - P) P := by
        have h1 : divCeil N P = divCeil (N - P) P + 1 :=
          divCeil_succ_sub P N hP (by omega)
        simp only [List.length_cons] at hlen
        omega
      rw [ih (N - P) hrest ?_ (g - P) (by omega) d]
      · simp
      · intro i hi
        have := hchunk (i + 1) (by simp; omega)
        simp only [List.getD_cons_succ] at this
        rw [this]
        have : (i + 1) * P = i * P + P := by ring
        omega

/-! ### Slice-compression iteration lemmas -/

theorem iter_length (S : SliceCompression) (l : List ℕ) :
    (S.iter l).length = S.transformedSliceLen l := by
  cases S with
  | noSliceCompression => rfl
  | halfBytesCompression =>
    simp only [SliceCompression.iter, SliceCompression.transformedSliceLen]
    induction l with
    | nil => rfl
    | cons a t ih =>
      rw [List.flatMap_cons, List.length_append, ih]
      simp only [List.length_cons, List.length_nil]
      omega

theorem iter_take_halfBytes (l : List ℕ) (m : ℕ) :
    SliceCompression.halfBytesCompression.iter (l.take m) =
      (SliceCompression.halfBytesCompression.iter l).take (2 * m) := by
  induction l generalizing m with
  | nil => simp [SliceCompression.iter]
  | cons a t ih =>
    match m with
    | 0 => simp [SliceCompression.iter]
    | m + 1 =>
      simp only [List.take_cons_succ, SliceCompression.iter, List.flatMap_cons] at ih ⊢
      rw [show 2 * (m + 1) = (2 * m) + 1 + 1 from by ring]
      simp [ih]

theorem iter_drop_halfBytes (l : List ℕ) (m : ℕ) :
    SliceCompression.halfBytesCompression.iter (l.drop m) =
      (SliceCompression.halfBytesCompression.iter l).drop (2 * m) := by
  induction l generalizing m with
  | nil => simp [SliceCompression.iter]
  | cons a t ih =>
    match m with
    | 0 => simp
    | m + 1 =>
      simp only [List.drop_succ_cons, SliceCompression.iter, List.flatMap_cons] at ih ⊢
      rw [show 2 * (m + 1) = (2 * m) + 1 + 1 from by ring]
      simp [ih]

theorem iter_nil_iff (S : SliceCompression) (l : List ℕ) :
    S.iter l = [] ↔ l = [] := by
  cases S with
  | noSliceCompression => simp [SliceCompression.iter]
  | halfBytesCompression =>
    cases l with
    | nil => simp [SliceCompression.iter]
    | cons a t => simp [SliceCompression.iter]

/-- The chunk-exchange law: iterating the stored chunks of size
`transform_chunk_size k` yields the logical chunks of size `k` (for the
packed mode, `k` must be even, which holds for every chunk size the
library uses). -/
theorem map_iter_chunksOf (S : SliceCompression) (k : ℕ) (hk : 0 < k)
    (hke : k % 2 = 0) (l : List ℕ) :
    (chunksOf (S.transformChunkSize k) l).map S.iter = chunksOf k (S.iter l) := by
  cases S with
  | noSliceCompression =>
    simp only [SliceCompression.transformChunkSize]
    have : SliceCompression.noSliceCompression.iter = id := rfl
    rw [this, List.map_id]
    rfl
  | halfBytesCompression =>
    suffices h : ∀ (n : ℕ) (l : List ℕ), l.length ≤ n →
        (chunksOf (k / 2) l).map SliceCompression.halfBytesCompression.iter =
          chunksOf k (SliceCompression.halfBytesCompression.iter l) from
      h l.length l le_rfl
    intro n
    induction n with
    | zero =>
      intro l hl
      have : l = [] := List.eq_nil_of_length_eq_zero (by omega)
      simp [this, chunksOf_nil, SliceCompression.iter]
    | succ n ih =>
      intro l hl
      match l with
      | [] => simp [chunksOf_nil, SliceCompression.iter]
      | a :: t =>
        rw [chunksOf_cons (k / 2) (by omega) _ (by simp),
          chunksOf_cons k hk _ (by rw [ne_eq, iter_nil_iff]; simp),
          List.map_cons]
        congr 1
        · rw [iter_take_halfBytes, show 2 * (k / 2) = k from by omega]
        · rw [ih ((a :: t).drop (k / 2))
            (by simp only [List.length_drop, List.length_cons] at hl ⊢; omega),
            iter_drop_halfBytes, show 2 * (k / 2) = k from by omega]

theorem iter_sub16_halfBytes (l : List ℕ) :
    ∀ s ∈ SliceCompression.halfBytesCompression.iter l, s < 16 := by
  intro s hs
  simp only [SliceCompression.iter, List.mem_flatMap] at hs
  obtain ⟨b, _, hb⟩ := hs
  have h1 : unpackFromLeftHalfOfByte b < 16 := by
    unfold unpackFromLeftHalfOfByte; omega
  have h2 : unpackFromRightHalfOfByte b < 16 := by
    unfold unpackFromRightHalfOfByte; omega
  simp only [List.mem_cons, List.mem_singleton, List.not_mem_nil] at hb
  rcases hb with h | h | h
  · exact h ▸ h1
  · exact h ▸ h2
  · exact h.elim

/-! ### getD/set helpers -/

theorem getD_set_self (l : List ℕ) (i x : ℕ) (h : i < l.length) :
    (l.set i x).getD i 0 = x := by
  rw [List.getD_eq_getElem _ 0 (by simpa using h)]
  exact List.getElem_set_self (by simpa using h)

theorem getD_set_ne (l : List ℕ) (i j x : ℕ) (h : i ≠ j) :
    (l.set i x).getD j 0 = l.getD j 0 := by
  rw [List.getD_eq_getElem?_getD, List.getD_eq_getElem?_getD,
    List.getElem?_set_ne h]

theorem getD_set (l : List ℕ) (i j x : ℕ) :
    (l.set i x).getD j 0 =
      if i = j ∧ i < l.length then x else l.getD j 0 := by
  by_cases hij : i = j
  · subst hij
    by_cases hlen : i < l.length
    · rw [getD_set_self l i x hlen, if_pos ⟨rfl, hlen⟩]
    · rw [List.set_eq_of_length_le (by omega), if_neg (by omega)]
  · rw [getD_set_ne l i j x hij, if_neg (by tauto)]

/-! ### The condensed fill folds -/

/-- The bit-plane update loop of `fillBlockStep`: each plane `b < nb` gets
bit `b` of the symbol at position `indexInBlock`; length and other
indices are untouched. -/
theorem fillBlock_planes_getD (nb indexInBlock symbol : ℕ) (bl : List ℕ)
    (hbl : bl.length = nb) (b : ℕ) :
    ((List.range nb).foldl
      (fun bl b =>
        bl.set b (Block.setBitAssumingZero (bl.getD b 0) indexInBlock
          (symbol >>> b &&& 1)))
      bl).getD b 0 =
    if b < nb then
      Block.setBitAssumingZero (bl.getD b 0) indexInBlock (symbol >>> b &&& 1)
    else bl.getD b 0 := by
  suffices h : ∀ m, m ≤ nb → ∀ b,
      ((List.range m).foldl
        (fun bl b =>
          bl.set b (Block.setBitAssumingZero (bl.getD b 0) indexInBlock
            (symbol >>> b &&& 1)))
        bl).getD b 0 =
      if b < m then
        Block.setBitAssumingZero (bl.getD b 0) indexInBlock (symbol >>> b &&& 1)
      else bl.getD b 0 by
    have := h nb le_rfl b
    simpa using this
  intro m
  induction m with
  | zero => intro _ b; simp
  | succ m ih =>
    intro hm b
    rw [List.range_succ, List.foldl_append, List.foldl_cons, List.foldl_nil]
    have hlen : ∀ (l0 : List ℕ),
        ((List.range m).foldl
          (fun bl b =>
            bl.set b (Block.setBitAssumingZero (bl.getD b 0) indexInBlock
              (symbol >>> b &&& 1)))
          l0).length = l0.length := by
      intro l0
      induction (List.range m) generalizing l0 with
      | nil => rfl
      | cons x rest ihr => rw [List.foldl_cons, ihr, List.length_set]
    rw [getD_set]
    by_cases hbm : b = m
    · subst hbm
      rw [if_pos ⟨rfl, by rw [hlen]; omega⟩, ih (by omega) b, if_neg (by omega),
        if_pos (by omega)]
    · rw [if_neg (by tauto)]
      by_cases hblt : b < m
      · rw [ih (by omega) b, if_pos hblt, if_pos (by omega)]
      · rw [ih (by omega) b, if_neg hblt, if_neg (by omega)]

theorem fillBlock_planes_length (nb indexInBlock symbol : ℕ) (bl : List ℕ) :
    ((List.range nb).foldl
      (fun bl b =>
        bl.set b (Block.setBitAssumingZero (bl.getD b 0) indexInBlock
          (symbol >>> b &&& 1)))
      bl).length = bl.length := by
  induction (List.range nb) generalizing bl with
  | nil => rfl
  | cons x rest ihr => rw [List.foldl_cons, ihr, List.length_set]

/-- Setting one bit: the observable bits of `set_bit_assuming_zero`. -/
theorem testBit_setBitAssumingZero (data idx y b j : ℕ) :
    (Block.setBitAssumingZero data idx (y >>> b &&& 1)).testBit j = true ↔
      (data.testBit j = true ∨ (j = idx ∧ y.testBit b = true)) := by
  unfold Block.setBitAssumingZero
  rw [Nat.testBit_lor, Nat.testBit_shiftLeft]
  have hb : y >>> b &&& 1 = (y / 2 ^ b) % 2 := by
    rw [Nat.and_one_is_mod, Nat.shiftRight_eq_div_pow]
  have htb : y.testBit b = decide (y / 2 ^ b % 2 = 1) := Nat.testBit_to_div_mod
  rcases Nat.lt_trichotomy j idx with h | h | h
  · rw [show decide (j ≥ idx) = false from by
      simp only [decide_eq_false_iff_not]; omega]
    simp only [Bool.false_and, Bool.or_false]
    constructor
    · exact fun hx => Or.inl hx
    · rintro (hx | ⟨hx, _⟩)
      · exact hx
      · omega
  · subst h
    rw [show decide (j ≥ j) = true from by simp]
    simp only [Bool.true_and, Nat.sub_self]
    rw [hb, htb]
    have hmod : y / 2 ^ b % 2 < 2 := Nat.mod_lt _ (by omega)
    have hbit0 : (y / 2 ^ b % 2).testBit 0 = decide (y / 2 ^ b % 2 = 1) := by
      rcases Nat.mod_two_eq_zero_or_one (y / 2 ^ b) with h0 | h0 <;> rw [h0] <;> rfl
    rw [hbit0]
    by_cases hy : y / 2 ^ b % 2 = 1 <;> simp [hy]
  · rw [show decide (j ≥ idx) = true from by
      simp only [decide_eq_true_eq]; omega]
    simp only [Bool.true_and]
    have hzero : (y >>> b &&& 1).testBit (j - idx) = false := by
      rw [hb]
      have hlt : y / 2 ^ b % 2 < 2 ^ (j - idx) := by
        have h2 : (2 : ℕ) ≤ 2 ^ (j - idx) := by
          have : (2 : ℕ) = 2 ^ 1 := rfl
          rw [this]
          exact Nat.pow_le_pow_right (by omega) (by omega)
        have := Nat.mod_lt (y / 2 ^ b) (show 0 < 2 from by omega)
        omega
      exact Nat.testBit_lt_two_pow hlt
    rw [hzero]
    simp only [Bool.or_false]
    constructor
    · exact fun hx => Or.inl hx
    · rintro (hx | ⟨hx, _⟩)
      · exact hx
      · omega

/-- Characterisation of the inner symbol loop of the condensed
`fill_superblock`: symbol counts are added to the superblock counter and
the (u16, hence mod-65536) block-offset sums, and plane `b` of the current
block collects bit `b` of each symbol at its position. -/
theorem fillBlockStep_fold (nb σa : ℕ) (syms : List ℕ)
    (hs : ∀ s ∈ syms, s < σa) (so bos blocks : List ℕ)
    (hso : so.length = σa) (hbos : bos.length = σa) (hbl : blocks.length = nb)
    (hbosM : ∀ c, bos.getD c 0 < 65536) :
    (((syms.enum).foldl (CondensedTextWithRankSupport.fillBlockStep nb)
        (so, bos, blocks)).1.length = σa ∧
      ((syms.enum).foldl (CondensedTextWithRankSupport.fillBlockStep nb)
        (so, bos, blocks)).2.1.length = σa ∧
      ((syms.enum).foldl (CondensedTextWithRankSupport.fillBlockStep nb)
        (so, bos, blocks)).2.2.length = nb) ∧
    (∀ c, ((syms.enum).foldl (CondensedTextWithRankSupport.fillBlockStep nb)
        (so, bos, blocks)).1.getD c 0 = so.getD c 0 + syms.count c) ∧
    (∀ c, ((syms.enum).foldl (CondensedTextWithRankSupport.fillBlockStep nb)
        (so, bos, blocks)).2.1.getD c 0 = (bos.getD c 0 + syms.count c) % 65536) ∧
    (∀ b j, b < nb →
      ((((syms.enum).foldl (CondensedTextWithRankSupport.fillBlockStep nb)
          (so, bos, blocks)).2.2.getD b 0).testBit j = true ↔
        ((blocks.getD b 0).testBit j = true ∨
          (j < syms.length ∧ (syms.getD j 0).testBit b = true)))) := by
  induction syms using List.reverseRecOn with
  | nil =>
    refine ⟨⟨hso, hbos, hbl⟩, ?_, ?_, ?_⟩
    · intro c; simp
    · intro c
      simp only [List.enum_nil, List.foldl_nil, List.count_nil, Nat.add_zero]
      have := hbosM c
      omega
    · intro b j _
      simp
  | append_singleton ys y ihy =>
    have hys : ∀ s ∈ ys, s < σa := fun s hsy => hs s (by simp [hsy])
    have hy : y < σa := hs y (by simp)
    obtain ⟨⟨ihl1, ihl2, ihl3⟩, ihso, ihbos, ihbl⟩ := ihy hys
    rw [List.enum_append, List.foldl_append]
    set mid := ((ys.enum).foldl (CondensedTextWithRankSupport.fillBlockStep nb)
      (so, bos, blocks)) with hmid
    have hstep : (List.enumFrom ys.length [y]).foldl
        (CondensedTextWithRankSupport.fillBlockStep nb) mid =
        CondensedTextWithRankSupport.fillBlockStep nb mid (ys.length, y) := by
      rfl
    rw [hstep]
    unfold CondensedTextWithRankSupport.fillBlockStep
    simp only
    refine ⟨⟨?_, ?_, ?_⟩, ?_, ?_, ?_⟩
    · rw [List.length_set, ihl1]
    · rw [List.length_set, ihl2]
    · rw [fillBlock_planes_length, ihl3]
    · intro c
      rw [getD_set, List.count_append]
      by_cases hcy : y = c
      · subst hcy
        rw [if_pos ⟨rfl, by omega⟩, ihso y, List.count_singleton_self]
        omega
      · rw [if_neg (by tauto), ihso c]
        have hc0 : List.count c [y] = 0 := by
          simp only [List.count_singleton]
          rw [if_neg (by simp [hcy])]
        omega
    · intro c
      rw [getD_set, List.count_append]
      by_cases hcy : y = c
      · subst hcy
        rw [if_pos ⟨rfl, by omega⟩, ihbos y, List.count_singleton_self]
        omega
      · rw [if_neg (by tauto), ihbos c]
        have hc0 : List.count c [y] = 0 := by
          simp only [List.count_singleton]
          rw [if_neg (by simp [hcy])]
        omega
    · intro b j hb
      rw [fillBlock_planes_getD nb ys.length y _ ihl3 b, if_pos hb]
      rw [testBit_setBitAssumingZero]
      rw [ihbl b j hb]
      simp only [List.length_append, List.length_cons, List.length_nil]
      constructor
      · rintro ((hx | ⟨hjy, hx⟩) | ⟨hj, hx⟩)
        · exact Or.inl hx
        · refine Or.inr ⟨by omega, ?_⟩
          rw [List.getD_append _ _ _ _ (by omega)]
          exact hx
        · subst hj
          refine Or.inr ⟨by omega, ?_⟩
          rw [List.getD_append_right _ _ _ _ (by omega), Nat.sub_self]
          exact hx
      · rintro (hx | ⟨hj, hx⟩)
        · exact Or.inl (Or.inl hx)
        · by_cases hjy : j < ys.length
          · refine Or.inl (Or.inr ⟨hjy, ?_⟩)
            rw [List.getD_append _ _ _ _ (by omega)] at hx
            exact hx
          · have hjeq : j = ys.length := by omega
            subst hjeq
            refine Or.inr ⟨rfl, ?_⟩
            rw [List.getD_append_right _ _ _ _ (by omega), Nat.sub_self] at hx
            exact hx

theorem chunksOf_eq_nil_iff {α : Type} (k : ℕ) (hk : 0 < k) (l : List α) :
    chunksOf k l = [] ↔ l = [] := by
  constructor
  · intro h
    by_contra hl
    rw [chunksOf_cons k hk l hl] at h
    exact List.cons_ne_nil _ _ h
  · intro h
    simp [h, chunksOf_nil]

theorem getD_drop (l : List ℕ) (a j : ℕ) :
    (l.drop a).getD j 0 = l.getD (a + j) 0 := by
  rw [List.getD_eq_getElem?_getD, List.getD_eq_getElem?_getD, List.getElem?_drop]

theorem getD_take (l : List ℕ) (m j : ℕ) (h : j < m) :
    (l.take m).getD j 0 = l.getD j 0 := by
  rw [List.getD_eq_getElem?_getD, List.getD_eq_getElem?_getD,
    List.getElem?_take_of_lt h]

theorem count_take_split (l : List ℕ) (a b c : ℕ) (h : a ≤ b) :
    (l.take b).count c =
      (l.take a).count c + ((l.drop a).take (b - a)).count c := by
  rw [← List.count_append, ← List.take_add,
    show a + (b - a) = b from by omega]

theorem fillSuperblockStep_eq (S : SliceCompression) (nb : ℕ)
    (st : List ℕ × List ℕ × List ℕ × List ℕ) (tb : List ℕ) :
    CondensedTextWithRankSupport.fillSuperblockStep S nb st tb =
      ((((S.iter tb).enum).foldl (CondensedTextWithRankSupport.fillBlockStep nb)
          (st.1, st.2.1, List.replicate nb 0)).1,
        (((S.iter tb).enum).foldl (CondensedTextWithRankSupport.fillBlockStep nb)
          (st.1, st.2.1, List.replicate nb 0)).2.1,
        st.2.2.1 ++ st.2.1,
        st.2.2.2 ++ (((S.iter tb).enum).foldl
          (CondensedTextWithRankSupport.fillBlockStep nb)
          (st.1, st.2.1, List.replicate nb 0)).2.2) := rfl

/-- Characterisation of the condensed `fill_superblock` text-block fold:
counts accumulate, each block contributes one block-offset record (the
running sums before the block) and `nb` bit-plane blocks. -/
theorem fillSuperblockStep_fold (S : SliceCompression) (nb σa W : ℕ)
    (hW : 0 < W) (textBlocks : List (List ℕ)) (Lsb : List ℕ)
    (hiter : textBlocks.map S.iter = chunksOf W Lsb)
    (hs : ∀ s ∈ Lsb, s < σa) (so bos boAcc blocksAcc : List ℕ)
    (hso : so.length = σa) (hbos : bos.length = σa)
    (hbosM : ∀ c, bos.getD c 0 < 65536) :
    ∃ soOut bosOut newBo newBlocks,
      textBlocks.foldl (CondensedTextWithRankSupport.fillSuperblockStep S nb)
          (so, bos, boAcc, blocksAcc) =
        (soOut, bosOut, boAcc ++ newBo, blocksAcc ++ newBlocks) ∧
      soOut.length = σa ∧ (∀ c, soOut.getD c 0 = so.getD c 0 + Lsb.count c) ∧
      bosOut.length = σa ∧
      (∀ c, bosOut.getD c 0 = (bos.getD c 0 + Lsb.count c) % 65536) ∧
      newBo.length = (chunksOf W Lsb).length * σa ∧
      (∀ u c, u < (chunksOf W Lsb).length → c < σa →
        newBo.getD (u * σa + c) 0 =
          (bos.getD c 0 + (Lsb.take (u * W)).count c) % 65536) ∧
      newBlocks.length = (chunksOf W Lsb).length * nb ∧
      (∀ u b j, u < (chunksOf W Lsb).length → b < nb →
        ((newBlocks.getD (u * nb + b) 0).testBit j = true ↔
          (j < W ∧ u * W + j < Lsb.length ∧
            (Lsb.getD (u * W + j) 0).testBit b = true))) := by
  induction textBlocks generalizing Lsb so bos boAcc blocksAcc with
  | nil =>
    have hLsb : Lsb = [] := by
      rw [List.map_nil] at hiter
      exact (chunksOf_eq_nil_iff W hW Lsb).mp hiter.symm
    subst hLsb
    refine ⟨so, bos, [], [], ?_, hso, ?_, hbos, ?_, ?_, ?_, ?_, ?_⟩
    · simp
    · intro c; simp
    · intro c
      simp only [List.count_nil, Nat.add_zero]
      have := hbosM c
      omega
    · simp [chunksOf_nil]
    · intro u c hu _
      rw [chunksOf_nil] at hu
      simp at hu
    · simp [chunksOf_nil]
    · intro u b j hu _
      rw [chunksOf_nil] at hu
      simp at hu
  | cons tb rest ih =>
    have hLsbne : Lsb ≠ [] := by
      intro h
      subst h
      rw [chunksOf_nil] at hiter
      simp at hiter
    rw [chunksOf_cons W hW Lsb hLsbne] at hiter
    rw [List.map_cons] at hiter
    have htb : S.iter tb = Lsb.take W := (List.cons.injEq _ _ _ _).mp hiter |>.1
    have hrest : rest.map S.iter = chunksOf W (Lsb.drop W) :=
      (List.cons.injEq _ _ _ _).mp hiter |>.2
    rw [List.foldl_cons, fillSuperblockStep_eq]
    simp only
    have hsyms : ∀ s ∈ S.iter tb, s < σa := by
      intro s hsx
      rw [htb] at hsx
      exact hs s (List.mem_of_mem_take hsx)
    obtain ⟨⟨hl1, hl2, hl3⟩, hfso, hfbos, hfbl⟩ :=
      fillBlockStep_fold nb σa (S.iter tb) hsyms so bos (List.replicate nb 0)
        hso hbos (by simp) hbosM
    set mid := ((S.iter tb).enum).foldl
      (CondensedTextWithRankSupport.fillBlockStep nb)
      (so, bos, List.replicate nb 0) with hmiddef
    have hmidM : ∀ c, mid.2.1.getD c 0 < 65536 := by
      intro c
      rw [hfbos c]
      omega
    obtain ⟨soOut, bosOut, newBo, newBlocks, hfold, hsoL, hsoV, hbosL, hbosV,
      hboL, hboV, hblL, hblV⟩ :=
      ih (Lsb.drop W) hrest (fun s hsx => hs s (List.mem_of_mem_drop hsx))
        mid.1 mid.2.1 (boAcc ++ bos) (blocksAcc ++ mid.2.2) hl1 hl2 hmidM
    have hchunklen : (chunksOf W Lsb).length = (chunksOf W (Lsb.drop W)).length + 1 := by
      rw [chunksOf_cons W hW Lsb hLsbne]
      simp
    refine ⟨soOut, bosOut, bos ++ newBo, mid.2.2 ++ newBlocks, ?_, hsoL, ?_,
      hbosL, ?_, ?_, ?_, ?_, ?_⟩
    · rw [hfold]
      simp [List.append_assoc]
    · -- superblock counts
      intro c
      have hcount : Lsb.count c = (Lsb.take W).count c + (Lsb.drop W).count c := by
        conv_lhs => rw [← List.take_append_drop W Lsb]
        rw [List.count_append]
      rw [hsoV c, hfso c, htb]
      omega
    · -- running block-offset sums
      intro c
      have hcount : Lsb.count c = (Lsb.take W).count c + (Lsb.drop W).count c := by
        conv_lhs => rw [← List.take_append_drop W Lsb]
        rw [List.count_append]
      rw [hbosV c, hfbos c, htb]
      omega
    · -- block-offset record count
      rw [List.length_append, hboL, hbos, hchunklen]
      ring
    · -- block-offset record values
      intro u c hu hc
      match u with
      | 0 =>
        rw [Nat.zero_mul, Nat.zero_add,
          List.getD_append _ _ _ _ (by omega), Nat.zero_mul, List.take_zero,
          List.count_nil]
        have := hbosM c
        omega
      | u + 1 =>
        have hu' : u < (chunksOf W (Lsb.drop W)).length := by omega
        have hidx : (u + 1) * σa + c = σa + (u * σa + c) := by ring
        rw [hidx, List.getD_append_right _ _ _ _ (by omega), hbos,
          show σa + (u * σa + c) - σa = u * σa + c from by omega,
          hboV u c hu' hc, hfbos c, htb]
        have hsplit : (Lsb.take ((u + 1) * W)).count c =
            (Lsb.take W).count c + ((Lsb.drop W).take ((u + 1) * W - W)).count c :=
          count_take_split Lsb W ((u + 1) * W) c (by
            have : (u + 1) * W = u * W + W := by ring
            omega)
        have hW2 : (u + 1) * W - W = u * W := by
          have : (u + 1) * W = u * W + W := by ring
          omega
        rw [hW2] at hsplit
        omega
    · -- block count
      rw [List.length_append, hblL, hl3, hchunklen]
      ring
    · -- block bit planes
      intro u b j hu hb
      match u with
      | 0 =>
        rw [Nat.zero_mul, Nat.zero_add, List.getD_append _ _ _ _ (by omega)]
        rw [hfbl b j hb]
        have hrep : (List.replicate nb (0 : ℕ)).getD b 0 = 0 := by
          rw [List.getD_eq_getElem _ 0 (by simpa using hb)]
          simp
        rw [hrep]
        simp only [Nat.zero_testBit, Bool.false_eq_true, false_or]
        rw [htb]
        constructor
        · rintro ⟨hj, hx⟩
          rw [List.length_take] at hj
          refine ⟨by omega, by omega, ?_⟩
          rw [getD_take _ _ _ (by omega)] at hx
          simpa using hx
        · rintro ⟨hjW, hjL, hx⟩
          refine ⟨by simp only [List.length_take]; omega, ?_⟩
          rw [getD_take _ _ _ (by omega)]
          simpa using hx
      | u + 1 =>
        have hu' : u < (chunksOf W (Lsb.drop W)).length := by omega
        have hdropne : Lsb.drop W ≠ [] := by
          intro h
          rw [(chunksOf_eq_nil_iff W hW _).mpr h] at hu'
          simp at hu'
        have hWlt : W < Lsb.length := by
          by_contra h
          exact hdropne (List.drop_eq_nil_of_le (by omega))
        have hidx : (u + 1) * nb + b = nb + (u * nb + b) := by ring
        rw [hidx, List.getD_append_right _ _ _ _ (by omega), hl3,
          show nb + (u * nb + b) - nb = u * nb + b from by omega,
          hblV u b j hu' hb]
        rw [getD_drop, List.length_drop,
          show W + (u * W + j) = (u + 1) * W + j from by ring]
        have e1 : (u + 1) * W = u * W + W := by ring
        constructor
        · rintro ⟨h1, h2, h3⟩
          exact ⟨h1, by omega, h3⟩
        · rintro ⟨h1, h2, h3⟩
          exact ⟨h1, by omega, h3⟩

theorem getD_replicate_zero (n i : ℕ) : (List.replicate n (0 : ℕ)).getD i 0 = 0 := by
  rcases Nat.lt_or_ge i n with h | h
  · rw [List.getD_eq_getElem _ _ (by simpa using h)]
    simp
  · rw [List.getD_eq_default _ _ (by simpa using h)]

theorem zip_map_add_getD (xs ys : List ℕ) (c : ℕ)
    (h1 : c < xs.length) (h2 : c < ys.length) :
    ((xs.zip ys).map fun p => p.1 + p.2).getD c 0 = xs.getD c 0 + ys.getD c 0 := by
  have hz : c < ((xs.zip ys).map fun p => p.1 + p.2).length := by
    simp only [List.length_map, List.length_zip]
    omega
  rw [List.getD_eq_getElem _ _ hz, List.getD_eq_getElem _ _ (by simpa using h1),
    List.getD_eq_getElem _ _ (by simpa using h2)]
  simp [List.getElem_zip]

/-- Chunking is a left inverse of flattening uniform-length records. -/
theorem chunksOf_flatten_uniform (k : ℕ) (hk : 0 < k) :
    ∀ records : List (List ℕ), (∀ r ∈ records, r.length = k) →
    chunksOf k records.flatten = records := by
  intro records
  induction records with
  | nil =>
    intro _
    simp [chunksOf_nil]
  | cons r rest ih =>
    intro h
    have hr : r.length = k := h r (by simp)
    have hrne : r ≠ [] := by
      intro hx
      rw [hx] at hr
      simp at hr
      omega
    have h1 : (r ++ rest.flatten).take k = r := by
      rw [← hr]
      exact List.take_left _ _
    have h2 : (r ++ rest.flatten).drop k = rest.flatten := by
      rw [← hr]
      exact List.drop_left _ _
    rw [List.flatten_cons,
      chunksOf_cons k hk _ (fun hx => hrne (List.append_eq_nil.mp hx).1),
      h1, h2, ih (fun x hx => h x (by simp [hx]))]

/-- The exclusive-prefix-sum fold of `accumulate superblocks`. -/
theorem accumulate_fold (σa : ℕ) :
    ∀ (records : List (List ℕ)), (∀ r ∈ records, r.length = σa) →
    ∀ acc run : List ℕ, run.length = σa →
    ∃ out fin,
      records.foldl
        (fun st record => (st.1 ++ st.2, (st.2.zip record).map fun p => p.1 + p.2))
        (acc, run) = (acc ++ out, fin) ∧
      out.length = records.length * σa ∧
      (∀ q c, q < records.length → c < σa →
        out.getD (q * σa + c) 0 =
          run.getD c 0 + ∑ p ∈ Finset.range q, (records.getD p []).getD c 0) ∧
      fin.length = σa ∧
      (∀ c, c < σa → fin.getD c 0 =
        run.getD c 0 +
          ∑ p ∈ Finset.range records.length, (records.getD p []).getD c 0) := by
  intro records
  induction records with
  | nil =>
    intro _ acc run hrun
    refine ⟨[], run, by simp, by simp, ?_, hrun, ?_⟩
    · intro q c hq
      simp at hq
    · intro c _
      simp
  | cons r rest ih =>
    intro hrec acc run hrun
    have hr : r.length = σa := hrec r (by simp)
    rw [List.foldl_cons]
    simp only
    have hnewlen : ((run.zip r).map fun p => p.1 + p.2).length = σa := by
      simp only [List.length_map, List.length_zip]
      omega
    obtain ⟨out, fin, hfold, houtL, houtV, hfinL, hfinV⟩ :=
      ih (fun x hx => hrec x (by simp [hx])) (acc ++ run)
        ((run.zip r).map fun p => p.1 + p.2) hnewlen
    refine ⟨run ++ out, fin, ?_, ?_, ?_, hfinL, ?_⟩
    · rw [hfold, List.append_assoc]
    · simp only [List.length_append, List.length_cons, houtL, hrun]
      ring
    · intro q c hq hc
      match q with
      | 0 =>
        rw [List.getD_append _ _ _ _ (by omega : 0 * σa + c < run.length)]
        simp
      | q + 1 =>
        have hq' : q < rest.length := by
          simp only [List.length_cons] at hq
          omega
        have hmul : (q + 1) * σa = σa + q * σa := by ring
        rw [List.getD_append_right _ _ _ _ (by omega),
          show (q + 1) * σa + c - run.length = q * σa + c from by omega,
          houtV q c hq' hc,
          zip_map_add_getD run r c (by omega) (by omega),
          Finset.sum_range_succ']
        simp only [List.getD_cons_succ, List.getD_cons_zero]
        omega
    · intro c hc
      rw [hfinV c hc, zip_map_add_getD run r c (by omega) (by omega)]
      simp only [List.length_cons]
      rw [Finset.sum_range_succ']
      simp only [List.getD_cons_succ, List.getD_cons_zero]
      omega

/-- The superblock offsets array holds, at record `q` and symbol `c`, the
sum of the per-superblock counts of the records before `q`. -/
theorem accumulateSuperblockOffsets_spec (σa : ℕ) (hσ : 0 < σa)
    (records : List (List ℕ)) (hrec : ∀ r ∈ records, r.length = σa) :
    (CondensedTextWithRankSupport.accumulateSuperblockOffsets σa
        records.flatten).length = records.length * σa ∧
    ∀ q c, q < records.length → c < σa →
      (CondensedTextWithRankSupport.accumulateSuperblockOffsets σa
          records.flatten).getD (q * σa + c) 0 =
        ∑ p ∈ Finset.range q, (records.getD p []).getD c 0 := by
  unfold CondensedTextWithRankSupport.accumulateSuperblockOffsets
  rw [chunksOf_flatten_uniform σa hσ records hrec]
  obtain ⟨out, fin, hfold, houtL, houtV, _, _⟩ :=
    accumulate_fold σa records hrec [] (List.replicate σa 0) (by simp)
  rw [hfold]
  simp only [List.nil_append]
  refine ⟨houtL, ?_⟩
  intro q c hq hc
  rw [houtV q c hq hc, getD_replicate_zero]
  omega

theorem divCeil_mul_self (m k : ℕ) (hk : 0 < k) : divCeil (m * k) k = m := by
  unfold divCeil
  rw [show m * k + k - 1 = (k - 1) + m * k from by
      have : 1 * k ≤ m * k + k := by omega
      omega,
    Nat.add_mul_div_right _ _ hk, Nat.div_eq_of_lt (by omega)]
  omega

theorem le_divCeil_mul (a k : ℕ) (hk : 0 < k) : a ≤ divCeil a k * k := by
  unfold divCeil
  have h := Nat.div_add_mod (a + k - 1) k
  have hm : (a + k - 1) % k < k := Nat.mod_lt _ hk
  have hcomm : k * ((a + k - 1) / k) = (a + k - 1) / k * k := by ring
  omega

/-- The condensed `fill_superblock` on zero-initialised slices: the
superblock counts, the per-block offset records (including the overshoot
patch that records the final sums for a trailing block without text) and
the block bit-planes. `m` is the number of block positions allocated to
this superblock, which exceeds the number of text blocks by at most one. -/
theorem fillSuperblock_spec (S : SliceCompression) (W σa nb m : ℕ)
    (hW : 0 < W) (hnb : ilog2CeilForNonzero σa = nb) (hnb0 : 0 < nb)
    (hσ0 : 0 < σa)
    (textChunk Lsbq : List ℕ)
    (hiter : (chunksOf (S.transformChunkSize W) textChunk).map S.iter =
      chunksOf W Lsbq)
    (hs : ∀ s ∈ Lsbq, s < σa)
    (ht : divCeil Lsbq.length W ≤ m)
    (hm : m ≤ divCeil Lsbq.length W + 1) :
    ∃ so bo blocks,
      CondensedTextWithRankSupport.fillSuperblock S W σa textChunk
          (List.replicate σa 0) (List.replicate (m * σa) 0)
          (List.replicate (m * nb) 0) = (so, bo, blocks) ∧
      so.length = σa ∧ (∀ c, so.getD c 0 = Lsbq.count c) ∧
      bo.length = m * σa ∧
      (∀ u c, u < m → c < σa →
        bo.getD (u * σa + c) 0 = ((Lsbq.take (u * W)).count c) % 65536) ∧
      blocks.length = m * nb ∧
      (∀ u b j, u < m → b < nb →
        ((blocks.getD (u * nb + b) 0).testBit j = true ↔
          (j < W ∧ u * W + j < Lsbq.length ∧
            (Lsbq.getD (u * W + j) 0).testBit b = true))) := by
  have htlen : (chunksOf (S.transformChunkSize W) textChunk).length =
      (chunksOf W Lsbq).length := by
    rw [← hiter, List.length_map]
  have htval : (chunksOf W Lsbq).length = divCeil Lsbq.length W :=
    chunksOf_length W hW Lsbq
  set t := (chunksOf W Lsbq).length with htdef
  obtain ⟨soOut, bosOut, newBo, newBlocks, hfold, hsoL, hsoV, hbosL, hbosV,
      hboL, hboV, hblL, hblV⟩ :=
    fillSuperblockStep_fold S nb σa W hW
      (chunksOf (S.transformChunkSize W) textChunk) Lsbq hiter hs
      (List.replicate σa 0) (List.replicate σa 0) [] []
      (by simp) (by simp) (fun c => by rw [getD_replicate_zero]; omega)
  rw [List.nil_append, List.nil_append] at hfold
  simp only [← htdef] at hboL hboV hblL hblV
  have hLlen : Lsbq.length ≤ t * W := by
    rw [htval]
    exact le_divCeil_mul _ _ hW
  have hover : divCeil (List.replicate (m * nb) (0 : ℕ)).length nb = m := by
    rw [List.length_replicate]
    exact divCeil_mul_self m nb hnb0
  rcases Nat.lt_or_ge t m with hcase | hcase
  · -- overshoot: m = t + 1
    have hmeq : m = t + 1 := by omega
    subst hmeq
    refine ⟨soOut,
      newBo ++ bosOut,
      newBlocks ++ List.replicate nb 0, ?_, hsoL, ?_, ?_, ?_, ?_, ?_⟩
    · simp only [CondensedTextWithRankSupport.fillSuperblock, hnb]
      rw [hfold]
      simp only
      rw [if_pos (by rw [hover, htlen]; omega)]
      have hdropbo : (List.replicate ((t + 1) * σa) (0 : ℕ)).drop newBo.length =
          List.replicate σa 0 := by
        rw [List.drop_replicate, hboL]
        congr 1
        have : (t + 1) * σa = t * σa + σa := by ring
        omega
      have hdropbl : (List.replicate ((t + 1) * nb) (0 : ℕ)).drop newBlocks.length =
          List.replicate nb 0 := by
        rw [List.drop_replicate, hblL]
        congr 1
        have : (t + 1) * nb = t * nb + nb := by ring
        omega
      rw [hdropbo, hdropbl]
      have htake : (newBo ++ List.replicate σa (0 : ℕ)).take
          ((List.replicate ((t + 1) * σa) (0 : ℕ)).length - σa) = newBo := by
        rw [List.length_replicate,
          show (t + 1) * σa - σa = newBo.length from by
            rw [hboL]
            have : (t + 1) * σa = t * σa + σa := by ring
            omega]
        exact List.take_left _ _
      rw [htake]
    · intro c
      rw [hsoV c, getD_replicate_zero]
      omega
    · rw [List.length_append, hboL, hbosL]
      ring
    · intro u c hu hc
      rcases Nat.lt_or_ge u t with hut | hut
      · rw [List.getD_append _ _ _ _ (by
          rw [hboL]
          have h1 : u * σa + σa ≤ t * σa := by
            have : (u + 1) * σa ≤ t * σa := Nat.mul_le_mul_right σa (by omega)
            have : (u + 1) * σa = u * σa + σa := by ring
            omega
          omega)]
        rw [hboV u c hut hc, getD_replicate_zero]
        omega
      · have hut' : u = t := by omega
        subst hut'
        rw [List.getD_append_right _ _ _ _ (by rw [hboL]; omega), hboL,
          show t * σa + c - t * σa = c from by omega,
          hbosV c, getD_replicate_zero,
          List.take_of_length_le (by omega)]
        omega
    · rw [List.length_append, hblL, List.length_replicate]
      ring
    · intro u b j hu hb
      rcases Nat.lt_or_ge u t with hut | hut
      · rw [List.getD_append _ _ _ _ (by
          rw [hblL]
          have h1 : (u + 1) * nb ≤ t * nb := Nat.mul_le_mul_right nb (by omega)
          have h2 : (u + 1) * nb = u * nb + nb := by ring
          omega)]
        exact hblV u b j hut hb
      · have hut' : u = t := by omega
        subst hut'
        rw [List.getD_append_right _ _ _ _ (by rw [hblL]; omega),
          getD_replicate_zero]
        simp only [Nat.zero_testBit]
        constructor
        · intro h
          exact absurd h (by simp)
        · rintro ⟨_, h2, _⟩
          omega
  · -- no overshoot: m = t
    have hmeq : m = t := by omega
    subst hmeq
    refine ⟨soOut, newBo, newBlocks, ?_, hsoL, ?_, ?_, ?_, ?_, ?_⟩
    · simp only [CondensedTextWithRankSupport.fillSuperblock, hnb]
      rw [hfold]
      simp only
      rw [if_neg (by rw [hover, htlen]; omega)]
      have hdropbo : (List.replicate (t * σa) (0 : ℕ)).drop newBo.length =
          [] := by
        rw [List.drop_replicate, hboL, Nat.sub_self]
        rfl
      have hdropbl : (List.replicate (t * nb) (0 : ℕ)).drop newBlocks.length =
          [] := by
        rw [List.drop_replicate, hblL, Nat.sub_self]
        rfl
      rw [hdropbo, hdropbl, List.append_nil, List.append_nil]
    · intro c
      rw [hsoV c, getD_replicate_zero]
      omega
    · exact hboL
    · intro u c hu hc
      rw [hboV u c hu hc, getD_replicate_zero]
      omega
    · exact hblL
    · intro u b j hu hb
      exact hblV u b j hu hb

theorem divCeil_le_iff (n k m : ℕ) (hk : 0 < k) : divCeil n k ≤ m ↔ n ≤ m * k := by
  unfold divCeil
  rw [Nat.div_le_iff_le_mul_add_pred hk]
  have hc : k * m = m * k := by ring
  omega

theorem divCeil_mono (a b k : ℕ) (h : a ≤ b) : divCeil a k ≤ divCeil b k := by
  unfold divCeil
  exact Nat.div_le_div_right (by omega)

theorem divCeil_add_mul (a k b : ℕ) (hb : 0 < b) :
    divCeil (a + k * b) b = divCeil a b + k := by
  unfold divCeil
  rw [show a + k * b + b - 1 = (a + b - 1) + k * b from by omega,
    Nat.add_mul_div_right _ _ hb]

theorem divCeil_divCeil (n a b : ℕ) (ha : 0 < a) (hb : 0 < b) :
    divCeil (divCeil n a) b = divCeil n (a * b) := by
  have hab : 0 < a * b := Nat.mul_pos ha hb
  apply Nat.le_antisymm
  · rw [divCeil_le_iff _ _ _ hb, divCeil_le_iff _ _ _ ha]
    have h1 : divCeil n (a * b) * b * a = divCeil n (a * b) * (a * b) := by ring
    rw [h1]
    exact le_divCeil_mul n (a * b) hab
  · rw [divCeil_le_iff _ _ _ hab]
    have h1 : divCeil n a * a ≤ divCeil (divCeil n a) b * b * a :=
      Nat.mul_le_mul_right a (le_divCeil_mul (divCeil n a) b hb)
    have h2 : divCeil (divCeil n a) b * b * a = divCeil (divCeil n a) b * (a * b) := by
      ring
    have h3 := le_divCeil_mul n a ha
    omega

theorem mul_min_right (a b k : ℕ) : min a b * k = min (a * k) (b * k) := by
  rcases le_total a b with h | h
  · rw [Nat.min_eq_left h, Nat.min_eq_left (Nat.mul_le_mul_right k h)]
  · rw [Nat.min_eq_right h, Nat.min_eq_right (Nat.mul_le_mul_right k h)]

theorem chunksOf_replicate (k m : ℕ) (hk : 0 < k) (a : ℕ) :
    chunksOf k (List.replicate (m * k) a) =
      List.replicate m (List.replicate k a) := by
  have hflat : (List.replicate m (List.replicate k a)).flatten =
      List.replicate (m * k) a := by
    induction m with
    | zero => simp
    | succ m ih =>
      rw [List.replicate_succ, List.flatten_cons, ih,
        show (m + 1) * k = k + m * k from by ring, List.replicate_add]
  rw [← hflat, chunksOf_flatten_uniform k hk _
    (by intro r hr; rw [List.eq_of_mem_replicate hr]; simp)]

theorem getD_drop_poly {α : Type} (l : List α) (d : α) (a j : ℕ) :
    (l.drop a).getD j d = l.getD (a + j) d := by
  rw [List.getD_eq_getElem?_getD, List.getD_eq_getElem?_getD, List.getElem?_drop]

/-- Telescoping the per-superblock window counts into a prefix count. -/
theorem sum_window_counts (SBk : ℕ) (l : List ℕ) (c : ℕ) : ∀ q,
    ∑ p ∈ Finset.range q, ((l.drop (p * SBk)).take SBk).count c =
      (l.take (q * SBk)).count c := by
  intro q
  induction q with
  | zero => simp
  | succ q ih =>
    rw [Finset.sum_range_succ, ih,
      count_take_split l (q * SBk) ((q + 1) * SBk) c
        (by
          have h9 : (q + 1) * SBk = q * SBk + SBk := by ring
          omega),
      show (q + 1) * SBk - q * SBk = SBk from by
        have : (q + 1) * SBk = q * SBk + SBk := by ring
        omega]

theorem divCeil_mul_mul_right (a b k : ℕ) (hb : 0 < b) (hk : 0 < k) :
    divCeil (a * k) (b * k) = divCeil a b := by
  have hbk : 0 < b * k := Nat.mul_pos hb hk
  apply Nat.le_antisymm
  · rw [divCeil_le_iff _ _ _ hbk]
    have h1 := le_divCeil_mul a b hb
    have h2 : divCeil a b * b * k = divCeil a b * (b * k) := by ring
    have h3 : a * k ≤ divCeil a b * b * k := Nat.mul_le_mul_right k h1
    omega
  · rw [divCeil_le_iff _ _ _ hb]
    have h1 := le_divCeil_mul (a * k) (b * k) hbk
    have h2 : divCeil (a * k) (b * k) * (b * k) = divCeil (a * k) (b * k) * b * k := by
      ring
    by_contra hcon
    have h4 : divCeil (a * k) (b * k) * b + 1 ≤ a := by omega
    have h5 : (divCeil (a * k) (b * k) * b + 1) * k ≤ a * k :=
      Nat.mul_le_mul_right k h4
    have h6 : (divCeil (a * k) (b * k) * b + 1) * k =
        divCeil (a * k) (b * k) * b * k + k := by ring
    omega

/-- The condensed `fill_superblock` at superblock `q` of a construction
with `P` total block positions: zero-initialised inputs sized by the
blocks this superblock owns, outputs phrased in global text terms. -/
theorem fillSuperblock_chunk_spec (S : SliceCompression) (W σa nb sbW P q : ℕ)
    (hW : 0 < W) (hWe : W % 2 = 0) (hSB : SUPERBLOCK_SIZE = W * sbW)
    (hnb : ilog2CeilForNonzero σa = nb) (hnb0 : 0 < nb) (hσ0 : 0 < σa)
    (Lsb : List ℕ) (hs : ∀ s ∈ Lsb, s < σa)
    (hP : P = divCeil (Lsb.length + 1) W)
    (hq : q < divCeil Lsb.length SUPERBLOCK_SIZE)
    (tc : List ℕ)
    (htc : S.iter tc = (Lsb.drop (q * SUPERBLOCK_SIZE)).take SUPERBLOCK_SIZE) :
    ∃ so bo blocks,
      CondensedTextWithRankSupport.fillSuperblock S W σa tc
          (List.replicate σa 0)
          (List.replicate (min sbW (P - q * sbW) * σa) 0)
          (List.replicate (min sbW (P - q * sbW) * nb) 0) = (so, bo, blocks) ∧
      so.length = σa ∧
      (∀ c, so.getD c 0 =
        ((Lsb.drop (q * SUPERBLOCK_SIZE)).take SUPERBLOCK_SIZE).count c) ∧
      bo.length = min sbW (P - q * sbW) * σa ∧
      (∀ r c, r < min sbW (P - q * sbW) → c < σa →
        bo.getD (r * σa + c) 0 =
          (((Lsb.drop (q * SUPERBLOCK_SIZE)).take (r * W)).count c) % 65536) ∧
      blocks.length = min sbW (P - q * sbW) * nb ∧
      (∀ r b j, r < min sbW (P - q * sbW) → b < nb →
        ((blocks.getD (r * nb + b) 0).testBit j = true ↔
          (j < W ∧ (q * sbW + r) * W + j < Lsb.length ∧
            (Lsb.getD ((q * sbW + r) * W + j) 0).testBit b = true))) := by
  have hsbW0 : 0 < sbW := by
    rcases Nat.eq_zero_or_pos sbW with h | h
    · rw [h, Nat.mul_zero] at hSB
      exact absurd hSB (by unfold SUPERBLOCK_SIZE; omega)
    · exact h
  have hSB0 : 0 < SUPERBLOCK_SIZE := by unfold SUPERBLOCK_SIZE; omega
  have hqSB : q * SUPERBLOCK_SIZE < Lsb.length := by
    by_contra hcon
    have h1 : divCeil Lsb.length SUPERBLOCK_SIZE ≤
        divCeil (q * SUPERBLOCK_SIZE) SUPERBLOCK_SIZE :=
      divCeil_mono _ _ _ (by omega)
    rw [divCeil_mul_self q SUPERBLOCK_SIZE hSB0] at h1
    omega
  have hLq : ((Lsb.drop (q * SUPERBLOCK_SIZE)).take SUPERBLOCK_SIZE).length =
      min SUPERBLOCK_SIZE (Lsb.length - q * SUPERBLOCK_SIZE) := by
    simp [List.length_take, List.length_drop]
  have hiter : (chunksOf (S.transformChunkSize W) tc).map S.iter =
      chunksOf W ((Lsb.drop (q * SUPERBLOCK_SIZE)).take SUPERBLOCK_SIZE) := by
    rw [map_iter_chunksOf S W hW hWe tc, htc]
  have hsq : ∀ s ∈ (Lsb.drop (q * SUPERBLOCK_SIZE)).take SUPERBLOCK_SIZE,
      s < σa := fun s hsx => hs s (List.mem_of_mem_drop (List.mem_of_mem_take hsx))
  -- the block-count arithmetic: the text blocks of this superblock fit its
  -- allocated positions, short by at most one
  have hdivSB : divCeil SUPERBLOCK_SIZE W = sbW := by
    rw [hSB, show W * sbW = sbW * W from by ring, divCeil_mul_self sbW W hW]
  have hsum : min SUPERBLOCK_SIZE (Lsb.length - q * SUPERBLOCK_SIZE) +
      q * SUPERBLOCK_SIZE ≤ Lsb.length := by omega
  have ht : divCeil ((Lsb.drop (q * SUPERBLOCK_SIZE)).take SUPERBLOCK_SIZE).length W ≤
      min sbW (P - q * sbW) := by
    rw [hLq]
    have h1 : divCeil (min SUPERBLOCK_SIZE (Lsb.length - q * SUPERBLOCK_SIZE)) W ≤
        sbW := by
      rw [← hdivSB]
      exact divCeil_mono _ _ _ (by omega)
    have h2 : divCeil (min SUPERBLOCK_SIZE (Lsb.length - q * SUPERBLOCK_SIZE)) W +
        q * sbW ≤ P := by
      have h3 : divCeil (min SUPERBLOCK_SIZE (Lsb.length - q * SUPERBLOCK_SIZE) +
          q * sbW * W) W =
          divCeil (min SUPERBLOCK_SIZE (Lsb.length - q * SUPERBLOCK_SIZE)) W +
            q * sbW :=
        divCeil_add_mul _ _ _ hW
      have h4 : q * sbW * W = q * SUPERBLOCK_SIZE := by
        rw [hSB]; ring
      rw [h4] at h3
      rw [← h3, hP]
      exact divCeil_mono _ _ _ (by omega)
    omega
  have hm : min sbW (P - q * sbW) ≤
      divCeil ((Lsb.drop (q * SUPERBLOCK_SIZE)).take SUPERBLOCK_SIZE).length W + 1 := by
    rw [hLq]
    rcases le_total SUPERBLOCK_SIZE (Lsb.length - q * SUPERBLOCK_SIZE) with hc | hc
    · rw [Nat.min_eq_left hc, hdivSB]
      omega
    · rw [Nat.min_eq_right hc]
      have h1 : P ≤ divCeil (Lsb.length - q * SUPERBLOCK_SIZE) W + 1 + q * sbW := by
        have h2 : Lsb.length + 1 =
            (Lsb.length - q * SUPERBLOCK_SIZE + 1) + q * sbW * W := by
          rw [show q * sbW * W = q * SUPERBLOCK_SIZE from by rw [hSB]; ring]
          omega
        have h3 : divCeil ((Lsb.length - q * SUPERBLOCK_SIZE + 1) + q * sbW * W) W =
            divCeil (Lsb.length - q * SUPERBLOCK_SIZE + 1) W + q * sbW :=
          divCeil_add_mul _ _ _ hW
        have h4 : divCeil (Lsb.length - q * SUPERBLOCK_SIZE + 1) W ≤
            divCeil (Lsb.length - q * SUPERBLOCK_SIZE) W + 1 := by
          have h5 : divCeil (Lsb.length - q * SUPERBLOCK_SIZE + 1 * W) W =
              divCeil (Lsb.length - q * SUPERBLOCK_SIZE) W + 1 :=
            divCeil_add_mul _ _ _ hW
          have h6 : divCeil (Lsb.length - q * SUPERBLOCK_SIZE + 1) W ≤
              divCeil (Lsb.length - q * SUPERBLOCK_SIZE + 1 * W) W :=
            divCeil_mono _ _ _ (by omega)
          omega
        rw [hP, h2, h3]
        omega
      omega
  obtain ⟨so, bo, blocks, hmain, hsoL, hsoV, hboL, hboV, hblL, hblV⟩ :=
    fillSuperblock_spec S W σa nb (min sbW (P - q * sbW)) hW hnb hnb0 hσ0 tc
      ((Lsb.drop (q * SUPERBLOCK_SIZE)).take SUPERBLOCK_SIZE) hiter hsq ht hm
  refine ⟨so, bo, blocks, hmain, hsoL, hsoV, hboL, ?_, hblL, ?_⟩
  · intro r c hr hc
    rw [hboV r c hr hc, List.take_take,
      Nat.min_eq_left (by
        have h1 : (r + 1) * W ≤ sbW * W := Nat.mul_le_mul_right W (by omega)
        have h2 : (r + 1) * W = r * W + W := by ring
        rw [hSB]
        have h3 : W * sbW = sbW * W := by ring
        omega)]
  · intro r b j hr hb
    rw [hblV r b j hr hb, hLq]
    have hrW : r * W + W ≤ SUPERBLOCK_SIZE := by
      have h1 : (r + 1) * W ≤ sbW * W := Nat.mul_le_mul_right W (by omega)
      have h2 : (r + 1) * W = r * W + W := by ring
      rw [hSB]
      have h3 : W * sbW = sbW * W := by ring
      omega
    have hglobal : (q * sbW + r) * W = q * SUPERBLOCK_SIZE + r * W := by
      rw [hSB]; ring
    constructor
    · rintro ⟨h1, h2, h3⟩
      refine ⟨h1, by omega, ?_⟩
      rw [getD_take _ _ _ (by omega), getD_drop] at h3
      rw [hglobal]
      rw [show q * SUPERBLOCK_SIZE + (r * W + j) =
        q * SUPERBLOCK_SIZE + r * W + j from by ring] at h3
      exact h3
    · rintro ⟨h1, h2, h3⟩
      rw [hglobal] at h2 h3
      refine ⟨h1, by omega, ?_⟩
      rw [getD_take _ _ _ (by omega), getD_drop,
        show q * SUPERBLOCK_SIZE + (r * W + j) =
          q * SUPERBLOCK_SIZE + r * W + j from by ring]
      exact h3

/-- Chunk-shaped pieces flatten to the allocation length. -/
theorem flatten_length_chunkShaped {P : ℕ} (hP : 0 < P) :
    ∀ (ms : List (List ℕ)) (N : ℕ), ms.length = divCeil N P →
    (∀ i, i < ms.length → (ms.getD i []).length = min P (N - i * P)) →
    ms.flatten.length = N := by
  intro ms
  induction ms with
  | nil =>
    intro N hlen _
    simp only [List.length_nil] at hlen
    have h2 := le_divCeil_mul N P hP
    rw [← hlen, Nat.zero_mul] at h2
    simp only [List.flatten_nil, List.length_nil]
    omega
  | cons m rest ih =>
    intro N hlen hchunk
    have hm : m.length = min P N := by simpa using hchunk 0 (by simp)
    have hN0 : 0 < N := by
      by_contra hcon
      have hN : N = 0 := by omega
      rw [hN, divCeil_zero] at hlen
      simp at hlen
    have hrest : rest.length = divCeil (N - P) P := by
      have h1 : divCeil N P = divCeil (N - P) P + 1 :=
        divCeil_succ_sub P N hP hN0
      simp only [List.length_cons] at hlen
      omega
    rw [List.flatten_cons, List.length_append,
      ih (N - P) hrest ?_, hm]
    · omega
    · intro i hi
      have := hchunk (i + 1) (by simp only [List.length_cons]; omega)
      simp only [List.getD_cons_succ] at this
      rw [this]
      have h2 : (i + 1) * P = i * P + P := by ring
      omega

/-- The assembled arrays of the condensed construction, phrased through
the `filled` zip-map of `construct`: lengths and element access of the
superblock offsets, the block offsets and the bit-plane blocks. -/
theorem condensed_construct_parts (S : SliceCompression) (W σa nb sbW : ℕ)
    (text Lsb : List ℕ)
    (hW : 0 < W) (hWe : W % 2 = 0) (hSB : SUPERBLOCK_SIZE = W * sbW)
    (hnb : ilog2CeilForNonzero σa = nb) (hnb0 : 0 < nb) (hσ0 : 0 < σa)
    (hLsb : S.iter text = Lsb) (hs : ∀ s ∈ Lsb, s < σa)
    (filled : List (List ℕ × List ℕ × List ℕ))
    (hfilled : filled =
      ((chunksOf (S.transformChunkSize SUPERBLOCK_SIZE) text).zip
        ((chunksOf σa (List.replicate
            (divCeil (Lsb.length + 1) SUPERBLOCK_SIZE * σa) 0)).zip
          ((chunksOf (sbW * σa) (List.replicate
              (divCeil (Lsb.length + 1) W * σa) 0)).zip
            (chunksOf (sbW * nb) (List.replicate
              (divCeil (Lsb.length + 1) W * nb) 0))))).map
        fun tc => CondensedTextWithRankSupport.fillSuperblock S W σa
          tc.1 tc.2.1 tc.2.2.1 tc.2.2.2) :
    ((CondensedTextWithRankSupport.accumulateSuperblockOffsets σa
        ((filled.map fun f : List ℕ × List ℕ × List ℕ => f.1).flatten ++
          ((chunksOf σa (List.replicate
              (divCeil (Lsb.length + 1) SUPERBLOCK_SIZE * σa) 0)).drop
            filled.length).flatten)).length =
      divCeil (Lsb.length + 1) SUPERBLOCK_SIZE * σa ∧
     ∀ q c, q < divCeil (Lsb.length + 1) SUPERBLOCK_SIZE → c < σa →
      (CondensedTextWithRankSupport.accumulateSuperblockOffsets σa
        ((filled.map fun f : List ℕ × List ℕ × List ℕ => f.1).flatten ++
          ((chunksOf σa (List.replicate
              (divCeil (Lsb.length + 1) SUPERBLOCK_SIZE * σa) 0)).drop
            filled.length).flatten)).getD (q * σa + c) 0 =
        (Lsb.take (q * SUPERBLOCK_SIZE)).count c) ∧
    (((filled.map fun f : List ℕ × List ℕ × List ℕ => f.2.1).flatten ++
        ((chunksOf (sbW * σa) (List.replicate
            (divCeil (Lsb.length + 1) W * σa) 0)).drop filled.length).flatten).length =
      divCeil (Lsb.length + 1) W * σa ∧
     ∀ u c, u < divCeil (Lsb.length + 1) W → c < σa →
      ((filled.map fun f : List ℕ × List ℕ × List ℕ => f.2.1).flatten ++
        ((chunksOf (sbW * σa) (List.replicate
            (divCeil (Lsb.length + 1) W * σa) 0)).drop filled.length).flatten).getD
          (u * σa + c) 0 =
        (((Lsb.drop (u / sbW * SUPERBLOCK_SIZE)).take (u % sbW * W)).count c) %
          65536) ∧
    (((filled.map fun f : List ℕ × List ℕ × List ℕ => f.2.2).flatten ++
        ((chunksOf (sbW * nb) (List.replicate
            (divCeil (Lsb.length + 1) W * nb) 0)).drop filled.length).flatten).length =
      divCeil (Lsb.length + 1) W * nb ∧
     ∀ u b j, u < divCeil (Lsb.length + 1) W → b < nb →
      ((((filled.map fun f : List ℕ × List ℕ × List ℕ => f.2.2).flatten ++
          ((chunksOf (sbW * nb) (List.replicate
              (divCeil (Lsb.length + 1) W * nb) 0)).drop filled.length).flatten).getD
            (u * nb + b) 0).testBit j = true ↔
        (j < W ∧ u * W + j < Lsb.length ∧
          (Lsb.getD (u * W + j) 0).testBit b = true))) := by
  have hSB0 : 0 < SUPERBLOCK_SIZE := by unfold SUPERBLOCK_SIZE; omega
  have hSBe : SUPERBLOCK_SIZE % 2 = 0 := by unfold SUPERBLOCK_SIZE; omega
  have hsbW0 : 0 < sbW := by
    rcases Nat.eq_zero_or_pos sbW with h | h
    · rw [h, Nat.mul_zero] at hSB
      exact absurd hSB (by unfold SUPERBLOCK_SIZE; omega)
    · exact h
  set T := divCeil Lsb.length SUPERBLOCK_SIZE with hTdef
  set Q := divCeil (Lsb.length + 1) SUPERBLOCK_SIZE with hQdef
  set P := divCeil (Lsb.length + 1) W with hPdef
  have hTQ : T ≤ Q := divCeil_mono _ _ _ (by omega)
  have hTC : (chunksOf (S.transformChunkSize SUPERBLOCK_SIZE) text).map S.iter =
      chunksOf SUPERBLOCK_SIZE Lsb := by
    rw [map_iter_chunksOf S SUPERBLOCK_SIZE hSB0 hSBe text, hLsb]
  have hTClen : (chunksOf (S.transformChunkSize SUPERBLOCK_SIZE) text).length = T := by
    have h := congrArg List.length hTC
    rw [List.length_map, chunksOf_length SUPERBLOCK_SIZE hSB0] at h
    exact h
  have hSOC : chunksOf σa (List.replicate (Q * σa) 0) =
      List.replicate Q (List.replicate σa 0) := chunksOf_replicate σa Q hσ0 0
  have hBOCbase : 0 < sbW * σa := Nat.mul_pos hsbW0 hσ0
  have hBLCbase : 0 < sbW * nb := Nat.mul_pos hsbW0 hnb0
  have hQP : divCeil P sbW = Q := by
    rw [hPdef, hQdef, divCeil_divCeil _ _ _ hW hsbW0, ← hSB]
  have hBOClen : (chunksOf (sbW * σa) (List.replicate (P * σa) 0)).length = Q := by
    rw [chunksOf_length _ hBOCbase, List.length_replicate,
      divCeil_mul_mul_right P sbW σa hsbW0 hσ0, hQP]
  have hBLClen : (chunksOf (sbW * nb) (List.replicate (P * nb) 0)).length = Q := by
    rw [chunksOf_length _ hBLCbase, List.length_replicate,
      divCeil_mul_mul_right P sbW nb hsbW0 hnb0, hQP]
  have hSOClen : (chunksOf σa (List.replicate (Q * σa) 0)).length = Q := by
    rw [hSOC, List.length_replicate]
  have hflen : filled.length = T := by
    rw [hfilled, List.length_map, List.length_zip, List.length_zip, List.length_zip,
      hTClen, hSOClen, hBOClen, hBLClen]
    omega
  have hLT : Lsb.length ≤ T * SUPERBLOCK_SIZE := le_divCeil_mul _ _ hSB0
  have hPQsb : P ≤ Q * sbW := by
    have h1 := le_divCeil_mul P sbW hsbW0
    rw [hQP] at h1
    exact h1
  -- the per-superblock pieces
  have hpiece : ∀ q, q < T →
      (filled.getD q ([], [], [])).1.length = σa ∧
      (∀ c, (filled.getD q ([], [], [])).1.getD c 0 =
        ((Lsb.drop (q * SUPERBLOCK_SIZE)).take SUPERBLOCK_SIZE).count c) ∧
      (filled.getD q ([], [], [])).2.1.length = min sbW (P - q * sbW) * σa ∧
      (∀ r c, r < min sbW (P - q * sbW) → c < σa →
        (filled.getD q ([], [], [])).2.1.getD (r * σa + c) 0 =
          (((Lsb.drop (q * SUPERBLOCK_SIZE)).take (r * W)).count c) % 65536) ∧
      (filled.getD q ([], [], [])).2.2.length = min sbW (P - q * sbW) * nb ∧
      (∀ r b j, r < min sbW (P - q * sbW) → b < nb →
        (((filled.getD q ([], [], [])).2.2.getD (r * nb + b) 0).testBit j = true ↔
          (j < W ∧ (q * sbW + r) * W + j < Lsb.length ∧
            (Lsb.getD ((q * sbW + r) * W + j) 0).testBit b = true))) := by
    intro q hq
    have hq1 : q < (chunksOf (S.transformChunkSize SUPERBLOCK_SIZE) text).length := by
      rw [hTClen]
      exact hq
    have hq2 : q < (chunksOf σa (List.replicate (Q * σa) 0)).length := by
      rw [hSOClen]
      omega
    have hq3 : q < (chunksOf (sbW * σa) (List.replicate (P * σa) 0)).length := by
      rw [hBOClen]
      omega
    have hq4 : q < (chunksOf (sbW * nb) (List.replicate (P * nb) 0)).length := by
      rw [hBLClen]
      omega
    have hqz : q < ((chunksOf (S.transformChunkSize SUPERBLOCK_SIZE) text).zip
        ((chunksOf σa (List.replicate (Q * σa) 0)).zip
          ((chunksOf (sbW * σa) (List.replicate (P * σa) 0)).zip
            (chunksOf (sbW * nb) (List.replicate (P * nb) 0))))).length := by
      simp only [List.length_zip]
      omega
    have hSOCgetD : (chunksOf σa (List.replicate (Q * σa) 0)).getD q [] =
        List.replicate σa 0 := by
      rw [hSOC, List.getD_eq_getElem _ _ (by rw [List.length_replicate]; omega),
        List.getElem_replicate]
    have hBOCgetD : (chunksOf (sbW * σa) (List.replicate (P * σa) 0)).getD q [] =
        List.replicate (min sbW (P - q * sbW) * σa) 0 := by
      have harith : min (sbW * σa) (P * σa - q * (sbW * σa)) =
          min sbW (P - q * sbW) * σa := by
        rw [mul_min_right, Nat.sub_mul,
          show q * sbW * σa = q * (sbW * σa) from by ring]
      rw [chunksOf_getD _ hBOCbase, List.drop_replicate, List.take_replicate,
        harith]
    have hBLCgetD : (chunksOf (sbW * nb) (List.replicate (P * nb) 0)).getD q [] =
        List.replicate (min sbW (P - q * sbW) * nb) 0 := by
      have harith : min (sbW * nb) (P * nb - q * (sbW * nb)) =
          min sbW (P - q * sbW) * nb := by
        rw [mul_min_right, Nat.sub_mul,
          show q * sbW * nb = q * (sbW * nb) from by ring]
      rw [chunksOf_getD _ hBLCbase, List.drop_replicate, List.take_replicate,
        harith]
    have htcq : S.iter
        ((chunksOf (S.transformChunkSize SUPERBLOCK_SIZE) text).getD q []) =
        (Lsb.drop (q * SUPERBLOCK_SIZE)).take SUPERBLOCK_SIZE := by
      have h1 : S.iter
          ((chunksOf (S.transformChunkSize SUPERBLOCK_SIZE) text).getD q []) =
          ((chunksOf (S.transformChunkSize SUPERBLOCK_SIZE) text).map S.iter).getD
            q [] := by
        rw [List.getD_eq_getElem _ _ hq1,
          List.getD_eq_getElem _ _ (by rw [List.length_map]; exact hq1),
          List.getElem_map]
      rw [h1, hTC, chunksOf_getD _ hSB0]
    have hget : filled.getD q ([], [], []) =
        CondensedTextWithRankSupport.fillSuperblock S W σa
          ((chunksOf (S.transformChunkSize SUPERBLOCK_SIZE) text).getD q [])
          (List.replicate σa 0)
          (List.replicate (min sbW (P - q * sbW) * σa) 0)
          (List.replicate (min sbW (P - q * sbW) * nb) 0) := by
      rw [hfilled,
        List.getD_eq_getElem _ _ (by rw [List.length_map]; exact hqz)]
      simp only [List.getElem_map, List.getElem_zip]
      rw [← List.getD_eq_getElem
          (chunksOf (S.transformChunkSize SUPERBLOCK_SIZE) text) [] hq1,
        ← List.getD_eq_getElem (chunksOf σa (List.replicate (Q * σa) 0)) [] hq2,
        ← List.getD_eq_getElem
          (chunksOf (sbW * σa) (List.replicate (P * σa) 0)) [] hq3,
        ← List.getD_eq_getElem
          (chunksOf (sbW * nb) (List.replicate (P * nb) 0)) [] hq4,
        hSOCgetD, hBOCgetD, hBLCgetD]
    obtain ⟨so, bo, blocks, hmain, p1, p2, p3, p4, p5, p6⟩ :=
      fillSuperblock_chunk_spec S W σa nb sbW P q hW hWe hSB hnb hnb0 hσ0 Lsb hs
        hPdef hq
        ((chunksOf (S.transformChunkSize SUPERBLOCK_SIZE) text).getD q []) htcq
    rw [hget, hmain]
    exact ⟨p1, p2, p3, p4, p5, p6⟩
  -- the superblock offsets
  have hrec : ∀ r ∈ (filled.map fun f : List ℕ × List ℕ × List ℕ => f.1) ++
      ((chunksOf σa (List.replicate (Q * σa) 0)).drop filled.length),
      r.length = σa := by
    intro r hr
    rcases List.mem_append.mp hr with h | h
    · obtain ⟨f, hf, hfr⟩ := List.mem_map.mp h
      obtain ⟨i, hi, hif⟩ := List.getElem_of_mem hf
      have hi' : i < T := by omega
      have hgi : filled.getD i ([], [], []) = f := by
        rw [List.getD_eq_getElem _ _ hi, hif]
      rw [← hfr, ← hgi]
      exact (hpiece i hi').1
    · have h2 := List.mem_of_mem_drop h
      rw [hSOC] at h2
      rw [List.eq_of_mem_replicate h2, List.length_replicate]
  have hreclen : ((filled.map fun f : List ℕ × List ℕ × List ℕ => f.1) ++
      ((chunksOf σa (List.replicate (Q * σa) 0)).drop filled.length)).length = Q := by
    rw [List.length_append, List.length_map, List.length_drop, hSOClen, hflen]
    omega
  obtain ⟨haccL, haccV⟩ := accumulateSuperblockOffsets_spec σa hσ0 _ hrec
  have hrecval : ∀ p c, p < Q →
      ((((filled.map fun f : List ℕ × List ℕ × List ℕ => f.1) ++
        ((chunksOf σa (List.replicate (Q * σa) 0)).drop filled.length)).getD p
          []).getD c 0) =
      ((Lsb.drop (p * SUPERBLOCK_SIZE)).take SUPERBLOCK_SIZE).count c := by
    intro p c hp
    rcases Nat.lt_or_ge p T with hpT | hpT
    · rw [List.getD_append _ _ _ _ (by rw [List.length_map]; omega)]
      have hmapgetD : (filled.map fun f : List ℕ × List ℕ × List ℕ => f.1).getD p [] =
          (filled.getD p ([], [], [])).1 := by
        rw [List.getD_eq_getElem _ _ (by rw [List.length_map]; omega),
          List.getD_eq_getElem _ _ (by omega), List.getElem_map]
      rw [hmapgetD]
      exact (hpiece p hpT).2.1 c
    · rw [List.getD_append_right _ _ _ _ (by rw [List.length_map]; omega),
        List.length_map, hflen, hSOC, List.drop_replicate]
      have houter : (List.replicate (Q - T) (List.replicate σa (0 : ℕ))).getD
          (p - T) [] = List.replicate σa 0 := by
        rw [List.getD_eq_getElem _ _ (by rw [List.length_replicate]; omega)]
        simp
      rw [houter, getD_replicate_zero]
      have hdrop : Lsb.drop (p * SUPERBLOCK_SIZE) = [] := by
        apply List.drop_eq_nil_of_le
        calc Lsb.length ≤ T * SUPERBLOCK_SIZE := hLT
        _ ≤ p * SUPERBLOCK_SIZE := Nat.mul_le_mul_right _ (by omega)
      rw [hdrop]
      simp
  -- the block offsets: chunk shape
  have hmslenBO : ((filled.map fun f : List ℕ × List ℕ × List ℕ => f.2.1) ++
      ((chunksOf (sbW * σa) (List.replicate (P * σa) 0)).drop filled.length)).length =
      divCeil (P * σa) (sbW * σa) := by
    rw [List.length_append, List.length_map, List.length_drop, hBOClen, hflen,
      divCeil_mul_mul_right P sbW σa hsbW0 hσ0, hQP]
    omega
  have hchunkBO : ∀ i, i < ((filled.map fun f : List ℕ × List ℕ × List ℕ => f.2.1) ++
      ((chunksOf (sbW * σa) (List.replicate (P * σa) 0)).drop
        filled.length)).length →
      ((((filled.map fun f : List ℕ × List ℕ × List ℕ => f.2.1) ++
        ((chunksOf (sbW * σa) (List.replicate (P * σa) 0)).drop
          filled.length)).getD i []).length) =
      min (sbW * σa) (P * σa - i * (sbW * σa)) := by
    intro i hi
    rw [hmslenBO, divCeil_mul_mul_right P sbW σa hsbW0 hσ0, hQP] at hi
    rcases Nat.lt_or_ge i T with hiT | hiT
    · rw [List.getD_append _ _ _ _ (by rw [List.length_map]; omega)]
      have hmapgetD : (filled.map fun f : List ℕ × List ℕ × List ℕ => f.2.1).getD i [] =
          (filled.getD i ([], [], [])).2.1 := by
        rw [List.getD_eq_getElem _ _ (by rw [List.length_map]; omega),
          List.getD_eq_getElem _ _ (by omega), List.getElem_map]
      rw [hmapgetD, (hpiece i hiT).2.2.1, mul_min_right, Nat.sub_mul,
        show i * sbW * σa = i * (sbW * σa) from by ring]
    · rw [List.getD_append_right _ _ _ _ (by rw [List.length_map]; omega),
        List.length_map, getD_drop_poly,
        show filled.length + (i - filled.length) = i from by omega,
        chunksOf_length_le _ hBOCbase _ i (by rw [hBOClen]; omega),
        List.length_replicate]
  -- the blocks: chunk shape
  have hmslenBL : ((filled.map fun f : List ℕ × List ℕ × List ℕ => f.2.2) ++
      ((chunksOf (sbW * nb) (List.replicate (P * nb) 0)).drop filled.length)).length =
      divCeil (P * nb) (sbW * nb) := by
    rw [List.length_append, List.length_map, List.length_drop, hBLClen, hflen,
      divCeil_mul_mul_right P sbW nb hsbW0 hnb0, hQP]
    omega
  have hchunkBL : ∀ i, i < ((filled.map fun f : List ℕ × List ℕ × List ℕ => f.2.2) ++
      ((chunksOf (sbW * nb) (List.replicate (P * nb) 0)).drop
        filled.length)).length →
      ((((filled.map fun f : List ℕ × List ℕ × List ℕ => f.2.2) ++
        ((chunksOf (sbW * nb) (List.replicate (P * nb) 0)).drop
          filled.length)).getD i []).length) =
      min (sbW * nb) (P * nb - i * (sbW * nb)) := by
    intro i hi
    rw [hmslenBL, divCeil_mul_mul_right P sbW nb hsbW0 hnb0, hQP] at hi
    rcases Nat.lt_or_ge i T with hiT | hiT
    · rw [List.getD_append _ _ _ _ (by rw [List.length_map]; omega)]
      have hmapgetD : (filled.map fun f : List ℕ × List ℕ × List ℕ => f.2.2).getD i [] =
          (filled.getD i ([], [], [])).2.2 := by
        rw [List.getD_eq_getElem _ _ (by rw [List.length_map]; omega),
          List.getD_eq_getElem _ _ (by omega), List.getElem_map]
      rw [hmapgetD, (hpiece i hiT).2.2.2.2.1, mul_min_right, Nat.sub_mul,
        show i * sbW * nb = i * (sbW * nb) from by ring]
    · rw [List.getD_append_right _ _ _ _ (by rw [List.length_map]; omega),
        List.length_map, getD_drop_poly,
        show filled.length + (i - filled.length) = i from by omega,
        chunksOf_length_le _ hBLCbase _ i (by rw [hBLClen]; omega),
        List.length_replicate]
  refine ⟨⟨?_, ?_⟩, ⟨?_, ?_⟩, ⟨?_, ?_⟩⟩
  · rw [← List.flatten_append, haccL, hreclen]
  · intro q c hq hc
    rw [← List.flatten_append, haccV q c (by rw [hreclen]; exact hq) hc]
    have hsum : ∑ p ∈ Finset.range q,
        ((((filled.map fun f : List ℕ × List ℕ × List ℕ => f.1) ++
          ((chunksOf σa (List.replicate (Q * σa) 0)).drop filled.length)).getD p
            []).getD c 0) =
        ∑ p ∈ Finset.range q,
          ((Lsb.drop (p * SUPERBLOCK_SIZE)).take SUPERBLOCK_SIZE).count c :=
      Finset.sum_congr rfl fun p hp =>
        hrecval p c (Nat.lt_trans (Finset.mem_range.mp hp) hq)
    rw [hsum, sum_window_counts SUPERBLOCK_SIZE Lsb c q]
  · rw [← List.flatten_append]
    exact flatten_length_chunkShaped hBOCbase _ _ hmslenBO hchunkBO
  · intro u c hu hc
    have hgP : u * σa + c < P * σa := by
      have h1 : (u + 1) * σa ≤ P * σa := Nat.mul_le_mul_right σa (by omega)
      have h2 : (u + 1) * σa = u * σa + σa := by ring
      omega
    rw [← List.flatten_append,
      flatten_getD_chunkShaped hBOCbase _ (P * σa) hmslenBO hchunkBO
        (u * σa + c) hgP 0]
    have hqr := Nat.div_add_mod u sbW
    have hrlt : u % sbW < sbW := Nat.mod_lt _ hsbW0
    have hglt : u % sbW * σa + c < sbW * σa := by
      have h1 : (u % sbW + 1) * σa ≤ sbW * σa := Nat.mul_le_mul_right σa (by omega)
      have h2 : (u % sbW + 1) * σa = u % sbW * σa + σa := by ring
      omega
    have hsplit : u * σa + c = (u % sbW * σa + c) + (sbW * σa) * (u / sbW) := by
      have h1 : u * σa = (sbW * (u / sbW) + u % sbW) * σa := by rw [hqr]
      have h2 : (sbW * (u / sbW) + u % sbW) * σa =
          (sbW * σa) * (u / sbW) + u % sbW * σa := by ring
      omega
    have hgoal_div : (u * σa + c) / (sbW * σa) = u / sbW := by
      rw [hsplit, Nat.add_mul_div_left _ _ hBOCbase, Nat.div_eq_of_lt hglt]
      omega
    have hgoal_mod : (u * σa + c) % (sbW * σa) = u % sbW * σa + c := by
      rw [hsplit, Nat.add_mul_mod_self_left, Nat.mod_eq_of_lt hglt]
    rw [hgoal_div, hgoal_mod]
    have huQ : u / sbW < Q := by
      rw [Nat.div_lt_iff_lt_mul hsbW0]
      omega
    rcases Nat.lt_or_ge (u / sbW) T with hqT | hqT
    · rw [List.getD_append _ _ _ _ (by rw [List.length_map]; omega)]
      have hmapgetD : (filled.map fun f : List ℕ × List ℕ × List ℕ => f.2.1).getD (u / sbW) [] =
          (filled.getD (u / sbW) ([], [], [])).2.1 := by
        rw [List.getD_eq_getElem _ _ (by rw [List.length_map]; omega),
          List.getD_eq_getElem _ _ (by omega), List.getElem_map]
      rw [hmapgetD]
      refine (hpiece (u / sbW) hqT).2.2.2.1 (u % sbW) c (Nat.lt_min.mpr ⟨hrlt, ?_⟩) hc
      have h1 : u / sbW * sbW = sbW * (u / sbW) := by ring
      omega
    · rw [List.getD_append_right _ _ _ _ (by rw [List.length_map]; omega),
        List.length_map, getD_drop_poly,
        show filled.length + (u / sbW - filled.length) = u / sbW from by omega,
        chunksOf_getD _ hBOCbase, List.drop_replicate, List.take_replicate,
        getD_replicate_zero]
      have hdrop : Lsb.drop (u / sbW * SUPERBLOCK_SIZE) = [] := by
        apply List.drop_eq_nil_of_le
        have h1 : T * SUPERBLOCK_SIZE ≤ u / sbW * SUPERBLOCK_SIZE :=
          Nat.mul_le_mul_right _ (by omega)
        omega
      rw [hdrop]
      simp
  · rw [← List.flatten_append]
    exact flatten_length_chunkShaped hBLCbase _ _ hmslenBL hchunkBL
  · intro u b j hu hb
    have hgP : u * nb + b < P * nb := by
      have h1 : (u + 1) * nb ≤ P * nb := Nat.mul_le_mul_right nb (by omega)
      have h2 : (u + 1) * nb = u * nb + nb := by ring
      omega
    rw [← List.flatten_append,
      flatten_getD_chunkShaped hBLCbase _ (P * nb) hmslenBL hchunkBL
        (u * nb + b) hgP 0]
    have hqr := Nat.div_add_mod u sbW
    have hrlt : u % sbW < sbW := Nat.mod_lt _ hsbW0
    have hglt : u % sbW * nb + b < sbW * nb := by
      have h1 : (u % sbW + 1) * nb ≤ sbW * nb := Nat.mul_le_mul_right nb (by omega)
      have h2 : (u % sbW + 1) * nb = u % sbW * nb + nb := by ring
      omega
    have hsplit : u * nb + b = (u % sbW * nb + b) + (sbW * nb) * (u / sbW) := by
      have h1 : u * nb = (sbW * (u / sbW) + u % sbW) * nb := by rw [hqr]
      have h2 : (sbW * (u / sbW) + u % sbW) * nb =
          (sbW * nb) * (u / sbW) + u % sbW * nb := by ring
      omega
    have hgoal_div : (u * nb + b) / (sbW * nb) = u / sbW := by
      rw [hsplit, Nat.add_mul_div_left _ _ hBLCbase, Nat.div_eq_of_lt hglt]
      omega
    have hgoal_mod : (u * nb + b) % (sbW * nb) = u % sbW * nb + b := by
      rw [hsplit, Nat.add_mul_mod_self_left, Nat.mod_eq_of_lt hglt]
    rw [hgoal_div, hgoal_mod]
    have huQ : u / sbW < Q := by
      rw [Nat.div_lt_iff_lt_mul hsbW0]
      omega
    rcases Nat.lt_or_ge (u / sbW) T with hqT | hqT
    · rw [List.getD_append _ _ _ _ (by rw [List.length_map]; omega)]
      have hmapgetD : (filled.map fun f : List ℕ × List ℕ × List ℕ => f.2.2).getD (u / sbW) [] =
          (filled.getD (u / sbW) ([], [], [])).2.2 := by
        rw [List.getD_eq_getElem _ _ (by rw [List.length_map]; omega),
          List.getD_eq_getElem _ _ (by omega), List.getElem_map]
      rw [hmapgetD]
      have h := (hpiece (u / sbW) hqT).2.2.2.2.2 (u % sbW) b j
        (Nat.lt_min.mpr ⟨hrlt, by
          have h1 : u / sbW * sbW = sbW * (u / sbW) := by ring
          omega⟩) hb
      have hqr' : (u / sbW * sbW + u % sbW) = u := by
        have h1 : u / sbW * sbW = sbW * (u / sbW) := by ring
        omega
      rw [hqr'] at h
      exact h
    · rw [List.getD_append_right _ _ _ _ (by rw [List.length_map]; omega),
        List.length_map, getD_drop_poly,
        show filled.length + (u / sbW - filled.length) = u / sbW from by omega,
        chunksOf_getD _ hBLCbase, List.drop_replicate, List.take_replicate,
        getD_replicate_zero]
      simp only [Nat.zero_testBit]
      constructor
      · intro h
        exact absurd h (by simp)
      · rintro ⟨_, h2, _⟩
        have h1 : T * sbW ≤ u / sbW * sbW := Nat.mul_le_mul_right _ (by omega)
        have h2' : u / sbW * sbW = sbW * (u / sbW) := by ring
        have h3 : u * W ≥ T * SUPERBLOCK_SIZE := by
          have h4 : T * sbW * W ≤ u * W := Nat.mul_le_mul_right W (by omega)
          have h5 : T * SUPERBLOCK_SIZE = T * sbW * W := by rw [hSB]; ring
          omega
        omega

/-- Field-level characterisation of the condensed
`construct_from_maybe_slice_compressed_text`. -/
theorem condensed_construct_spec (S : SliceCompression) (W σa nb sbW : ℕ)
    (text Lsb : List ℕ) (n : ℕ)
    (hW : 0 < W) (hWe : W % 2 = 0) (hSB : SUPERBLOCK_SIZE = W * sbW)
    (hnb : ilog2CeilForNonzero σa = nb) (hnb0 : 0 < nb) (hσ0 : 0 < σa)
    (hLsb : S.iter text = Lsb) (hs : ∀ s ∈ Lsb, s < σa) :
    (CondensedTextWithRankSupport.construct S W text n σa).textLen = n ∧
    (CondensedTextWithRankSupport.construct S W text n σa).alphabetSize = σa ∧
    ((CondensedTextWithRankSupport.construct S W text n
        σa).interleavedSuperblockOffsets.length =
      divCeil (Lsb.length + 1) SUPERBLOCK_SIZE * σa ∧
     ∀ q c, q < divCeil (Lsb.length + 1) SUPERBLOCK_SIZE → c < σa →
      (CondensedTextWithRankSupport.construct S W text n
          σa).interleavedSuperblockOffsets.getD (q * σa + c) 0 =
        (Lsb.take (q * SUPERBLOCK_SIZE)).count c) ∧
    ((CondensedTextWithRankSupport.construct S W text n
        σa).interleavedBlockOffsets.length = divCeil (Lsb.length + 1) W * σa ∧
     ∀ u c, u < divCeil (Lsb.length + 1) W → c < σa →
      (CondensedTextWithRankSupport.construct S W text n
          σa).interleavedBlockOffsets.getD (u * σa + c) 0 =
        (((Lsb.drop (u / sbW * SUPERBLOCK_SIZE)).take (u % sbW * W)).count c) %
          65536) ∧
    ((CondensedTextWithRankSupport.construct S W text n
        σa).interleavedBlocks.length = divCeil (Lsb.length + 1) W * nb ∧
     ∀ u b j, u < divCeil (Lsb.length + 1) W → b < nb →
      (((CondensedTextWithRankSupport.construct S W text n
          σa).interleavedBlocks.getD (u * nb + b) 0).testBit j = true ↔
        (j < W ∧ u * W + j < Lsb.length ∧
          (Lsb.getD (u * W + j) 0).testBit b = true))) := by
  have hlen' : S.transformedSliceLen text = Lsb.length := by
    rw [← iter_length, hLsb]
  have hsbWdiv : SUPERBLOCK_SIZE / W = sbW := by
    rw [hSB]
    exact Nat.mul_div_cancel_left _ hW
  obtain ⟨⟨hsoL, hsoV⟩, ⟨hboL, hboV⟩, ⟨hblL, hblV⟩⟩ :=
    condensed_construct_parts S W σa nb sbW text Lsb hW hWe hSB hnb hnb0 hσ0
      hLsb hs _ rfl
  refine ⟨rfl, rfl, ⟨?_, ?_⟩, ⟨?_, ?_⟩, ⟨?_, ?_⟩⟩
  · simp only [CondensedTextWithRankSupport.construct, hlen', hsbWdiv, hnb]
    exact hsoL
  · simp only [CondensedTextWithRankSupport.construct, hlen', hsbWdiv, hnb]
    exact hsoV
  · simp only [CondensedTextWithRankSupport.construct, hlen', hsbWdiv, hnb]
    exact hboL
  · simp only [CondensedTextWithRankSupport.construct, hlen', hsbWdiv, hnb]
    exact hboV
  · simp only [CondensedTextWithRankSupport.construct, hlen', hsbWdiv, hnb]
    exact hblL
  · simp only [CondensedTextWithRankSupport.construct, hlen', hsbWdiv, hnb]
    exact hblV

theorem negate_testBit (W b j : ℕ) (hj : j < W) :
    (Block.negate W b).testBit j = !(b.testBit j) := by
  unfold Block.negate
  rw [Nat.testBit_xor, Nat.testBit_two_pow_sub_one,
    show decide (j < W) = true from by simpa using hj, Bool.xor_true]

/-- The plane-combination loop of the condensed rank: a bit survives iff
it agrees with the symbol on every remaining plane (plane `k` of the list
is compared against bit `k + 1` of the symbol). -/
theorem combinePlanes_testBit (W : ℕ) : ∀ (planes : List ℕ) (symbol acc j : ℕ),
    j < W →
    ((CondensedTextWithRankSupport.combinePlanes W symbol acc planes).testBit j = true ↔
      (acc.testBit j = true ∧ ∀ k, k < planes.length →
        ((planes.getD k 0).testBit j = symbol.testBit (k + 1)))) := by
  intro planes
  induction planes with
  | nil =>
    intro symbol acc j _
    simp [CondensedTextWithRankSupport.combinePlanes]
  | cons b rest ih =>
    intro symbol acc j hj
    rw [CondensedTextWithRankSupport.combinePlanes]
    rw [ih (symbol >>> 1) _ j hj]
    have hshift : ∀ k : ℕ, (symbol >>> 1).testBit (k + 1) = symbol.testBit (k + 2) := by
      intro k
      rw [Nat.testBit_shiftRight, show 1 + (k + 1) = k + 2 from by omega]
    have hbit1 : (symbol >>> 1 &&& 1 = 0) ↔ symbol.testBit 1 = false := by
      rw [Nat.and_one_is_mod, Nat.shiftRight_eq_div_pow, pow_one,
        show symbol.testBit 1 = decide (symbol / 2 ^ 1 % 2 = 1) from
          Nat.testBit_to_div_mod, pow_one]
      rcases Nat.mod_two_eq_zero_or_one (symbol / 2) with h0 | h0 <;> simp [h0]
    constructor
    · rintro ⟨hacc, hrest⟩
      simp only [Block.setToSelfAnd] at hacc
      rw [Nat.testBit_and, Bool.and_eq_true] at hacc
      obtain ⟨hacc1, hb'⟩ := hacc
      refine ⟨hacc1, ?_⟩
      intro k hk
      match k with
      | 0 =>
        simp only [List.getD_cons_zero]
        by_cases hc : symbol >>> 1 &&& 1 = 0
        · rw [if_pos hc, negate_testBit W b j hj] at hb'
          rw [hbit1.mp hc]
          simpa using hb'
        · rw [if_neg hc] at hb'
          rw [hb', show symbol.testBit 1 = true from by
            rcases Bool.eq_false_or_eq_true (symbol.testBit 1) with h1 | h1
            · exact h1
            · exact absurd (hbit1.mpr h1) hc]
      | k + 1 =>
        simp only [List.getD_cons_succ]
        rw [hrest k (by simpa using hk), hshift k]
    · rintro ⟨hacc, hall⟩
      have hb0 := hall 0 (by simp)
      simp only [List.getD_cons_zero] at hb0
      constructor
      · simp only [Block.setToSelfAnd]
        rw [Nat.testBit_and, hacc, Bool.true_and]
        by_cases hc : symbol >>> 1 &&& 1 = 0
        · rw [if_pos hc, negate_testBit W b j hj, hb0, hbit1.mp hc]
          rfl
        · rw [if_neg hc, hb0]
          rcases Bool.eq_false_or_eq_true (symbol.testBit 1) with h1 | h1
          · exact h1
          · exact absurd (hbit1.mpr h1) hc
      · intro k hk
        have := hall (k + 1) (by simp only [List.length_cons]; omega)
        simp only [List.getD_cons_succ] at this
        rw [this, hshift k]

/-- Numbers below `2 ^ nb` agree iff they agree on the low `nb` bits. -/
theorem eq_iff_testBit_lt (nb x y : ℕ) (hx : x < 2 ^ nb) (hy : y < 2 ^ nb) :
    x = y ↔ ∀ k, k < nb → x.testBit k = y.testBit k := by
  constructor
  · intro h _ _
    rw [h]
  · intro h
    apply Nat.eq_of_testBit_eq
    intro k
    rcases Nat.lt_or_ge k nb with hk | hk
    · exact h k hk
    · have h2 : (2 : ℕ) ^ nb ≤ 2 ^ k := Nat.pow_le_pow_right (by omega) hk
      rw [Nat.testBit_lt_two_pow (by omega), Nat.testBit_lt_two_pow (by omega)]

/-- Counting a symbol in a window as an indicator sum over positions. -/
theorem count_window_sum (l : List ℕ) (c : ℕ) :
    ∀ (m a : ℕ), a + m ≤ l.length →
    ((l.drop a).take m).count c =
      ∑ j ∈ Finset.range m, if l.getD (a + j) 0 = c then 1 else 0 := by
  intro m
  induction m with
  | zero =>
    intro a _
    simp
  | succ m ih =>
    intro a ha
    have hlt : a + m < l.length := by omega
    have hdl : m < (l.drop a).length := by
      rw [List.length_drop]
      omega
    rw [List.take_succ, List.count_append, ih a (by omega),
      Finset.sum_range_succ]
    congr 1
    rw [List.getElem?_drop, List.getElem?_eq_getElem (by omega)]
    simp only [Option.toList_some]
    rw [List.getD_eq_getElem _ _ (by omega)]
    by_cases hx : l[a + m] = c
    · rw [if_pos hx]
      simp [hx]
    · rw [if_neg hx]
      simp [List.count_singleton, hx, Ne.symm hx]

theorem le_two_pow_ilog2Ceil (v : ℕ) (hv : 0 < v) :
    v ≤ 2 ^ ilog2CeilForNonzero v := by
  unfold ilog2CeilForNonzero
  rw [if_neg (by omega)]
  by_cases hp : 2 ^ Nat.log2 v = v
  · rw [if_pos hp, Nat.add_sub_cancel, hp]
  · rw [if_neg hp, Nat.sub_zero, Nat.log2_eq_log_two]
    exact Nat.le_of_lt (Nat.lt_pow_succ_log_self (by omega) v)

theorem ilog2Ceil_pos (v : ℕ) (hv : 2 ≤ v) : 0 < ilog2CeilForNonzero v := by
  unfold ilog2CeilForNonzero
  rw [if_neg (by omega)]
  have hlog : 0 < Nat.log2 v := by
    rw [Nat.log2_eq_log_two]
    exact Nat.log_pos (by omega) hv
  by_cases hp : 2 ^ Nat.log2 v = v <;> simp [hp] <;> omega

/-- The in-block part of the condensed rank: combining the bit-planes
selects exactly the positions holding the queried symbol. -/
theorem condensed_block_count (W nb c : ℕ) (hc : c < 2 ^ nb)
    (first : ℕ) (rest : List ℕ) (hlen : rest.length + 1 = nb)
    (vals : ℕ → ℕ) (m : ℕ) (hm : m ≤ W)
    (hplane : ∀ k j, k < nb → j < m →
      (((first :: rest).getD k 0).testBit j = true ↔ (vals j).testBit k = true))
    (hvals : ∀ j, j < m → vals j < 2 ^ nb) :
    Block.countOnesBefore
      (CondensedTextWithRankSupport.combinePlanes W c
        (if c &&& 1 = 0 then Block.negate W first else first) rest) m =
    ∑ j ∈ Finset.range m, if vals j = c then 1 else 0 := by
  unfold Block.countOnesBefore
  rw [popcount_mod_two_pow]
  apply Finset.sum_congr rfl
  intro j hj
  have hjm : j < m := Finset.mem_range.mp hj
  have hjW : j < W := by omega
  have hcomb := combinePlanes_testBit W rest c
    (if c &&& 1 = 0 then Block.negate W first else first) j hjW
  have hc0 : (c &&& 1 = 0) ↔ c.testBit 0 = false := by
    rw [Nat.and_one_is_mod,
      show c.testBit 0 = decide (c / 2 ^ 0 % 2 = 1) from Nat.testBit_to_div_mod,
      pow_zero, Nat.div_one]
    rcases Nat.mod_two_eq_zero_or_one c with h0 | h0 <;> simp [h0]
  have hfirst0 :
      ((if c &&& 1 = 0 then Block.negate W first else first).testBit j = true) ↔
        (first.testBit j = c.testBit 0) := by
    by_cases hcc : c &&& 1 = 0
    · rw [if_pos hcc, negate_testBit W first j hjW, hc0.mp hcc]
      rcases Bool.eq_false_or_eq_true (first.testBit j) with h1 | h1 <;> simp [h1]
    · rw [if_neg hcc]
      have hct : c.testBit 0 = true := by
        rcases Bool.eq_false_or_eq_true (c.testBit 0) with h1 | h1
        · exact h1
        · exact absurd (hc0.mpr h1) hcc
      rw [hct]
  have hall : (CondensedTextWithRankSupport.combinePlanes W c
      (if c &&& 1 = 0 then Block.negate W first else first) rest).testBit j = true ↔
      (∀ k, k < nb → ((first :: rest).getD k 0).testBit j = c.testBit k) := by
    rw [hcomb]
    constructor
    · rintro ⟨h1, h2⟩ k hk
      match k with
      | 0 =>
        simp only [List.getD_cons_zero]
        exact hfirst0.mp h1
      | k + 1 =>
        simp only [List.getD_cons_succ]
        exact h2 k (by omega)
    · intro h
      constructor
      · apply hfirst0.mpr
        have h0 := h 0 (by omega)
        simpa using h0
      · intro k hk
        have hk1 := h (k + 1) (by omega)
        simpa using hk1
  have hpk : ∀ k, k < nb →
      ((first :: rest).getD k 0).testBit j = (vals j).testBit k := by
    intro k hk
    rcases Bool.eq_false_or_eq_true (((first :: rest).getD k 0).testBit j)
      with h1 | h1 <;>
      rcases Bool.eq_false_or_eq_true ((vals j).testBit k) with h2 | h2
    · rw [h1, h2]
    · exact absurd ((hplane k j hk hjm).mp h1) (by rw [h2]; simp)
    · exact absurd ((hplane k j hk hjm).mpr h2) (by rw [h1]; simp)
    · rw [h1, h2]
  have hiff : (CondensedTextWithRankSupport.combinePlanes W c
      (if c &&& 1 = 0 then Block.negate W first else first) rest).testBit j = true ↔
      vals j = c := by
    rw [hall, eq_iff_testBit_lt nb (vals j) c (hvals j hjm) hc]
    constructor
    · intro h k hk
      rw [← hpk k hk]
      exact h k hk
    · intro h k hk
      rw [hpk k hk]
      exact h k hk
  by_cases hv : vals j = c
  · rw [if_pos hv, hiff.mpr hv]
    rfl
  · rw [if_neg hv]
    have hfalse : (CondensedTextWithRankSupport.combinePlanes W c
        (if c &&& 1 = 0 then Block.negate W first else first) rest).testBit j =
        false := by
      rcases Bool.eq_false_or_eq_true ((CondensedTextWithRankSupport.combinePlanes
          W c (if c &&& 1 = 0 then Block.negate W first else first)
          rest).testBit j) with h1 | h1
      · exact absurd (hiff.mp h1) hv
      · exact h1
    rw [hfalse]
    rfl

/-- Rank soundness of the condensed structure: for every stored text (in
any slice-compression mode), symbol below the alphabet size and index at
most the text length, `rank_unchecked` counts the occurrences before the
index. -/
theorem condensed_rank_correct (S : SliceCompression) (W σa nb sbW : ℕ)
    (text Lsb : List ℕ) (n : ℕ)
    (hW : 0 < W) (hWe : W % 2 = 0) (hSB : SUPERBLOCK_SIZE = W * sbW)
    (hnb : ilog2CeilForNonzero σa = nb) (hσ2 : 2 ≤ σa)
    (hLsb : S.iter text = Lsb) (hs : ∀ s ∈ Lsb, s < σa)
    (c i : ℕ) (hc : c < σa) (hi : i ≤ Lsb.length) :
    CondensedTextWithRankSupport.rankUnchecked W
      (CondensedTextWithRankSupport.construct S W text n σa) c i =
    (Lsb.take i).count c := by
  have hσ0 : 0 < σa := by omega
  have hnb0 : 0 < nb := by
    rw [← hnb]
    exact ilog2Ceil_pos σa hσ2
  have hσpow : σa ≤ 2 ^ nb := by
    rw [← hnb]
    exact le_two_pow_ilog2Ceil σa hσ0
  have hSB0 : 0 < SUPERBLOCK_SIZE := by unfold SUPERBLOCK_SIZE; omega
  have hSBval : SUPERBLOCK_SIZE = 65536 := rfl
  have hsbW0 : 0 < sbW := by
    rcases Nat.eq_zero_or_pos sbW with h | h
    · rw [h, Nat.mul_zero] at hSB
      exact absurd hSB (by unfold SUPERBLOCK_SIZE; omega)
    · exact h
  obtain ⟨htl, hal, ⟨hsoL, hsoV⟩, ⟨hboL, hboV⟩, ⟨hblL, hblV⟩⟩ :=
    condensed_construct_spec S W σa nb sbW text Lsb n hW hWe hSB hnb hnb0 hσ0
      hLsb hs
  set r := CondensedTextWithRankSupport.construct S W text n σa with hrdef
  have hu : i / W < divCeil (Lsb.length + 1) W := by
    rw [Nat.div_lt_iff_lt_mul hW]
    have := le_divCeil_mul (Lsb.length + 1) W hW
    omega
  have hq : i / SUPERBLOCK_SIZE < divCeil (Lsb.length + 1) SUPERBLOCK_SIZE := by
    rw [Nat.div_lt_iff_lt_mul hSB0]
    have := le_divCeil_mul (Lsb.length + 1) SUPERBLOCK_SIZE hSB0
    omega
  simp only [CondensedTextWithRankSupport.rankUnchecked, hal, hnb]
  have hwlen : ((r.interleavedBlocks.drop (i / W * nb)).take nb).length = nb := by
    rw [List.length_take, List.length_drop, hblL]
    have h1 : (i / W + 1) * nb ≤ divCeil (Lsb.length + 1) W * nb :=
      Nat.mul_le_mul_right nb (by omega)
    have h2 : (i / W + 1) * nb = i / W * nb + nb := by ring
    omega
  rcases hwin : (r.interleavedBlocks.drop (i / W * nb)).take nb with _ | ⟨first, rest⟩
  · rw [hwin] at hwlen
    simp at hwlen
    omega
  · simp only
    have hrestlen : rest.length + 1 = nb := by
      rw [hwin] at hwlen
      simpa using hwlen
    have hwelem : ∀ k, k < nb →
        (first :: rest).getD k 0 = r.interleavedBlocks.getD (i / W * nb + k) 0 := by
      intro k hk
      rw [← hwin, getD_take _ _ _ hk, getD_drop]
    have himW : i % W < W := Nat.mod_lt _ hW
    have hdm := Nat.div_add_mod i W
    have hplane : ∀ k j, k < nb → j < i % W →
        (((first :: rest).getD k 0).testBit j = true ↔
          (Lsb.getD (i / W * W + j) 0).testBit k = true) := by
      intro k j hk hj
      rw [hwelem k hk, hblV (i / W) k j hu hk]
      have hcomm : i / W * W = W * (i / W) := by ring
      constructor
      · rintro ⟨_, _, h3⟩
        exact h3
      · intro h
        exact ⟨by omega, by omega, h⟩
    have hvals : ∀ j, j < i % W → Lsb.getD (i / W * W + j) 0 < 2 ^ nb := by
      intro j hj
      have hcomm : i / W * W = W * (i / W) := by ring
      have hmem : Lsb.getD (i / W * W + j) 0 ∈ Lsb :=
        getD_mem_of_lt (by omega) 0
      exact lt_of_lt_of_le (hs _ hmem) hσpow
    have hsum := condensed_block_count W nb c (by omega) first rest hrestlen
      (fun j => Lsb.getD (i / W * W + j) 0) (i % W) (le_of_lt himW)
      hplane hvals
    rw [hsum]
    have hwinsum : ∑ j ∈ Finset.range (i % W),
        (if Lsb.getD (i / W * W + j) 0 = c then 1 else 0) =
        ((Lsb.drop (i / W * W)).take (i % W)).count c := by
      rw [count_window_sum Lsb c (i % W) (i / W * W) (by
        have hcomm : i / W * W = W * (i / W) := by ring
        omega)]
    rw [hwinsum, hsoV (i / SUPERBLOCK_SIZE) c hq hc, hboV (i / W) c hu hc]
    have hdd : i / W / sbW = i / SUPERBLOCK_SIZE := by
      rw [Nat.div_div_eq_div_mul, ← hSB]
    rw [hdd]
    -- the block offset is below the u16 modulus
    have hmm := Nat.div_add_mod (i / W) sbW
    have hmlt : i / W % sbW < sbW := Nat.mod_lt _ hsbW0
    have hB0 : ((Lsb.drop (i / SUPERBLOCK_SIZE * SUPERBLOCK_SIZE)).take
        (i / W % sbW * W)).count c < 65536 := by
      have h1 := List.count_le_length c ((Lsb.drop
        (i / SUPERBLOCK_SIZE * SUPERBLOCK_SIZE)).take (i / W % sbW * W))
      have h2 : ((Lsb.drop (i / SUPERBLOCK_SIZE * SUPERBLOCK_SIZE)).take
          (i / W % sbW * W)).length ≤ i / W % sbW * W := by
        rw [List.length_take]
        exact Nat.min_le_left _ _
      have h3 : (i / W % sbW + 1) * W ≤ sbW * W := Nat.mul_le_mul_right W (by omega)
      have h4 : (i / W % sbW + 1) * W = i / W % sbW * W + W := by ring
      have h5 : sbW * W = SUPERBLOCK_SIZE := by rw [hSB]; ring
      omega
    rw [Nat.mod_eq_of_lt hB0]
    -- telescoping
    have hsplit1 : i / W * W = i / SUPERBLOCK_SIZE * SUPERBLOCK_SIZE +
        i / W % sbW * W := by
      have h1 : i / W * W = (sbW * (i / W / sbW) + i / W % sbW) * W := by
        rw [hmm]
      have h2 : (sbW * (i / W / sbW) + i / W % sbW) * W =
          i / W / sbW * (W * sbW) + i / W % sbW * W := by ring
      rw [h1, h2, ← hSB, hdd]
    have htele1 := count_take_split Lsb
      (i / SUPERBLOCK_SIZE * SUPERBLOCK_SIZE) (i / W * W) c (by omega)
    rw [show i / W * W - i / SUPERBLOCK_SIZE * SUPERBLOCK_SIZE =
      i / W % sbW * W from by omega] at htele1
    have htele2 := count_take_split Lsb (i / W * W) i c (by
      have hcomm : i / W * W = W * (i / W) := by ring
      omega)
    rw [show i - i / W * W = i % W from by
      have hcomm : i / W * W = W * (i / W) := by ring
      omega] at htele2
    omega

/-- The bit-reassembly fold of the condensed `symbol_at`. -/
theorem symbolAt_fold (j : ℕ) : ∀ (planes : List ℕ) (s acc k : ℕ),
    (((List.enumFrom s planes).foldl
      (fun symbol ib => symbol ||| Block.getBit ib.2 j <<< ib.1) acc).testBit k =
        true) ↔
    (acc.testBit k = true ∨ (s ≤ k ∧ k - s < planes.length ∧
      ((planes.getD (k - s) 0).testBit j = true))) := by
  intro planes
  induction planes with
  | nil =>
    intro s acc k
    simp only [List.enumFrom, List.foldl_nil, List.length_nil]
    constructor
    · exact fun h => Or.inl h
    · rintro (h | ⟨_, h2, _⟩)
      · exact h
      · omega
  | cons p rest ih =>
    intro s acc k
    rw [show List.enumFrom s (p :: rest) = (s, p) :: List.enumFrom (s + 1) rest
        from rfl,
      List.foldl_cons,
      show acc ||| Block.getBit (s, p).2 j <<< (s, p).1 =
        Block.setBitAssumingZero acc s (p >>> j &&& 1) from rfl,
      ih (s + 1) _ k, testBit_setBitAssumingZero acc s p j k]
    constructor
    · rintro ((h | ⟨hks, hp⟩) | ⟨h1, h2, h3⟩)
      · exact Or.inl h
      · refine Or.inr ⟨by omega, by simp only [List.length_cons]; omega, ?_⟩
        rw [show k - s = 0 from by omega]
        simpa using hp
      · refine Or.inr ⟨by omega, by simp only [List.length_cons]; omega, ?_⟩
        rw [show k - s = (k - (s + 1)) + 1 from by omega, List.getD_cons_succ]
        exact h3
    · rintro (h | ⟨h1, h2, h3⟩)
      · exact Or.inl (Or.inl h)
      · rcases Nat.eq_or_lt_of_le h1 with heq | hlt
        · refine Or.inl (Or.inr ⟨heq.symm, ?_⟩)
          rw [show k - s = 0 from by omega] at h3
          simpa using h3
        · refine Or.inr ⟨by omega, by simp only [List.length_cons] at h2; omega, ?_⟩
          rw [show k - s = (k - (s + 1)) + 1 from by omega,
            List.getD_cons_succ] at h3
          exact h3

/-- `symbol_at` of the condensed structure recovers the stored symbol. -/
theorem condensed_symbolAt_correct (S : SliceCompression) (W σa nb sbW : ℕ)
    (text Lsb : List ℕ) (n : ℕ)
    (hW : 0 < W) (hWe : W % 2 = 0) (hSB : SUPERBLOCK_SIZE = W * sbW)
    (hnb : ilog2CeilForNonzero σa = nb) (hσ2 : 2 ≤ σa)
    (hLsb : S.iter text = Lsb) (hs : ∀ s ∈ Lsb, s < σa)
    (idx : ℕ) (hidx : idx < Lsb.length) :
    CondensedTextWithRankSupport.symbolAt W
      (CondensedTextWithRankSupport.construct S W text n σa) idx =
    Lsb.getD idx 0 := by
  have hσ0 : 0 < σa := by omega
  have hnb0 : 0 < nb := by
    rw [← hnb]
    exact ilog2Ceil_pos σa hσ2
  have hσpow : σa ≤ 2 ^ nb := by
    rw [← hnb]
    exact le_two_pow_ilog2Ceil σa hσ0
  obtain ⟨htl, hal, _, _, ⟨hblL, hblV⟩⟩ :=
    condensed_construct_spec S W σa nb sbW text Lsb n hW hWe hSB hnb hnb0 hσ0
      hLsb hs
  set r := CondensedTextWithRankSupport.construct S W text n σa with hrdef
  have hu : idx / W < divCeil (Lsb.length + 1) W := by
    rw [Nat.div_lt_iff_lt_mul hW]
    have := le_divCeil_mul (Lsb.length + 1) W hW
    omega
  have hwlen : ((r.interleavedBlocks.drop (idx / W * nb)).take nb).length = nb := by
    rw [List.length_take, List.length_drop, hblL]
    have h1 : (idx / W + 1) * nb ≤ divCeil (Lsb.length + 1) W * nb :=
      Nat.mul_le_mul_right nb (by omega)
    have h2 : (idx / W + 1) * nb = idx / W * nb + nb := by ring
    omega
  have hdm := Nat.div_add_mod idx W
  have hcomm : idx / W * W = W * (idx / W) := by ring
  have himW : idx % W < W := Nat.mod_lt _ hW
  simp only [CondensedTextWithRankSupport.symbolAt, hal, hnb]
  apply Nat.eq_of_testBit_eq
  intro k
  have hfold := symbolAt_fold (idx % W)
    ((r.interleavedBlocks.drop (idx / W * nb)).take nb) 0 0 k
  have henum : ((r.interleavedBlocks.drop (idx / W * nb)).take nb).enum =
      List.enumFrom 0 ((r.interleavedBlocks.drop (idx / W * nb)).take nb) := rfl
  rw [henum]
  have hvallt : Lsb.getD idx 0 < 2 ^ nb :=
    lt_of_lt_of_le (hs _ (getD_mem_of_lt hidx 0)) hσpow
  rcases Nat.lt_or_ge k nb with hk | hk
  · have hwelem : ((r.interleavedBlocks.drop (idx / W * nb)).take nb).getD (k - 0)
        0 = r.interleavedBlocks.getD (idx / W * nb + k) 0 := by
      rw [Nat.sub_zero, getD_take _ _ _ hk, getD_drop]
    rcases Bool.eq_false_or_eq_true ((Lsb.getD idx 0).testBit k) with hv | hv
    · rw [hv]
      rw [hfold, hwelem, hwlen]
      refine Or.inr ⟨by omega, by omega, ?_⟩
      rw [hblV (idx / W) k (idx % W) hu hk,
        show idx / W * W + idx % W = idx from by omega]
      exact ⟨himW, hidx, hv⟩
    · rw [hv]
      rcases Bool.eq_false_or_eq_true (((List.enumFrom 0
          ((r.interleavedBlocks.drop (idx / W * nb)).take nb)).foldl
          (fun symbol ib => symbol ||| Block.getBit ib.2 (idx % W) <<< ib.1)
          0).testBit k) with hres | hres
      swap
      · exact hres
      · exfalso
        rw [hfold, hwelem] at hres
        rcases hres with h | ⟨_, _, h3⟩
        · simp at h
        · rw [hblV (idx / W) k (idx % W) hu hk,
            show idx / W * W + idx % W = idx from by omega] at h3
          rw [h3.2.2] at hv
          simp at hv
  · have hlsbbit : (Lsb.getD idx 0).testBit k = false := by
      apply Nat.testBit_lt_two_pow
      have h2 : (2 : ℕ) ^ nb ≤ 2 ^ k := Nat.pow_le_pow_right (by omega) hk
      omega
    rw [hlsbbit]
    rcases Bool.eq_false_or_eq_true (((List.enumFrom 0
        ((r.interleavedBlocks.drop (idx / W * nb)).take nb)).foldl
        (fun symbol ib => symbol ||| Block.getBit ib.2 (idx % W) <<< ib.1)
        0).testBit k) with hres | hres
    swap
    · exact hres
    · exfalso
      rw [hfold, hwlen] at hres
      rcases hres with h | ⟨_, h2, _⟩
      · simp at h
      · omega

theorem testBit_setBit_one (data idx t : ℕ) :
    (Block.setBitAssumingZero data idx 1).testBit t = true ↔
      (data.testBit t = true ∨ t = idx) := by
  have h := testBit_setBitAssumingZero data idx 1 0 t
  have h2 : (1 : ℕ) >>> 0 &&& 1 = 1 := by decide
  rw [h2] at h
  rw [h]
  have h3 : Nat.testBit 1 0 = true := by decide
  constructor
  · rintro (hx | ⟨hx, _⟩)
    · exact Or.inl hx
    · exact Or.inr hx
  · rintro (hx | hx)
    · exact Or.inl hx
    · exact Or.inr ⟨hx, h3⟩

/-- Characterisation of the inner symbol loop of the flat
`fill_superblock`: counts as in the condensed case (with the `u64`
modulus), and the block of symbol `c` collects one indicator bit at
position `j + 16` for every position `j` holding `c`. -/
theorem flat_fillBlockStep_fold (σa : ℕ) (syms : List ℕ)
    (hs : ∀ s ∈ syms, s < σa) (so bos blocks : List ℕ)
    (hso : so.length = σa) (hbos : bos.length = σa) (hbl : blocks.length = σa)
    (hbosM : ∀ c, bos.getD c 0 < 2 ^ 64) :
    (((syms.enum).foldl FlatTextWithRankSupport.fillBlockStep
        (so, bos, blocks)).1.length = σa ∧
      ((syms.enum).foldl FlatTextWithRankSupport.fillBlockStep
        (so, bos, blocks)).2.1.length = σa ∧
      ((syms.enum).foldl FlatTextWithRankSupport.fillBlockStep
        (so, bos, blocks)).2.2.length = σa) ∧
    (∀ c, ((syms.enum).foldl FlatTextWithRankSupport.fillBlockStep
        (so, bos, blocks)).1.getD c 0 = so.getD c 0 + syms.count c) ∧
    (∀ c, ((syms.enum).foldl FlatTextWithRankSupport.fillBlockStep
        (so, bos, blocks)).2.1.getD c 0 =
      (bos.getD c 0 + syms.count c) % 2 ^ 64) ∧
    (∀ c t,
      ((((syms.enum).foldl FlatTextWithRankSupport.fillBlockStep
          (so, bos, blocks)).2.2.getD c 0).testBit t = true ↔
        ((blocks.getD c 0).testBit t = true ∨
          (16 ≤ t ∧ t - 16 < syms.length ∧ syms.getD (t - 16) 0 = c)))) := by
  induction syms using List.reverseRecOn with
  | nil =>
    refine ⟨⟨hso, hbos, hbl⟩, ?_, ?_, ?_⟩
    · intro c; simp
    · intro c
      simp only [List.enum_nil, List.foldl_nil, List.count_nil, Nat.add_zero]
      have := hbosM c
      omega
    · intro c t
      simp
  | append_singleton ys y ihy =>
    have hys : ∀ s ∈ ys, s < σa := fun s hsy => hs s (by simp [hsy])
    have hy : y < σa := hs y (by simp)
    obtain ⟨⟨ihl1, ihl2, ihl3⟩, ihso, ihbos, ihbl⟩ := ihy hys
    rw [List.enum_append, List.foldl_append]
    set mid := ((ys.enum).foldl FlatTextWithRankSupport.fillBlockStep
      (so, bos, blocks)) with hmid
    have hstep : (List.enumFrom ys.length [y]).foldl
        FlatTextWithRankSupport.fillBlockStep mid =
        FlatTextWithRankSupport.fillBlockStep mid (ys.length, y) := rfl
    rw [hstep]
    unfold FlatTextWithRankSupport.fillBlockStep
    simp only
    refine ⟨⟨?_, ?_, ?_⟩, ?_, ?_, ?_⟩
    · rw [List.length_set, ihl1]
    · rw [List.length_set, ihl2]
    · rw [List.length_set, ihl3]
    · intro c
      rw [getD_set, List.count_append]
      by_cases hcy : y = c
      · subst hcy
        rw [if_pos ⟨rfl, by omega⟩, ihso y, List.count_singleton_self]
        omega
      · rw [if_neg (by tauto), ihso c]
        have hc0 : List.count c [y] = 0 := by
          simp only [List.count_singleton]
          rw [if_neg (by simp [hcy])]
        omega
    · intro c
      rw [getD_set, List.count_append]
      by_cases hcy : y = c
      · subst hcy
        rw [if_pos ⟨rfl, by omega⟩, ihbos y, List.count_singleton_self]
        omega
      · rw [if_neg (by tauto), ihbos c]
        have hc0 : List.count c [y] = 0 := by
          simp only [List.count_singleton]
          rw [if_neg (by simp [hcy])]
        omega
    · intro c t
      rw [getD_set]
      by_cases hcy : y = c
      · subst hcy
        rw [if_pos ⟨rfl, by omega⟩, NUM_BLOCK_OFFSET_BITS,
          testBit_setBit_one, ihbl y t]
        simp only [List.length_append, List.length_cons, List.length_nil]
        constructor
        · rintro ((hx | ⟨h1, h2, h3⟩) | hx)
          · exact Or.inl hx
          · refine Or.inr ⟨h1, by omega, ?_⟩
            rw [List.getD_append _ _ _ _ (by omega)]
            exact h3
          · refine Or.inr ⟨by omega, by omega, ?_⟩
            rw [show t - 16 = ys.length from by omega,
              List.getD_append_right _ _ _ _ (by omega), Nat.sub_self]
            rfl
        · rintro (hx | ⟨h1, h2, h3⟩)
          · exact Or.inl (Or.inl hx)
          · by_cases hty : t - 16 < ys.length
            · refine Or.inl (Or.inr ⟨h1, hty, ?_⟩)
              rw [List.getD_append _ _ _ _ (by omega)] at h3
              exact h3
            · have hteq : t - 16 = ys.length := by omega
              refine Or.inr (by omega)
      · rw [if_neg (by tauto), ihbl c t]
        simp only [List.length_append, List.length_cons, List.length_nil]
        constructor
        · rintro (hx | ⟨h1, h2, h3⟩)
          · exact Or.inl hx
          · refine Or.inr ⟨h1, by omega, ?_⟩
            rw [List.getD_append _ _ _ _ (by omega)]
            exact h3
        · rintro (hx | ⟨h1, h2, h3⟩)
          · exact Or.inl hx
          · by_cases hty : t - 16 < ys.length
            · refine Or.inr ⟨h1, hty, ?_⟩
              rw [List.getD_append _ _ _ _ (by omega)] at h3
              exact h3
            · exfalso
              rw [show t - 16 = ys.length from by omega,
                List.getD_append_right _ _ _ _ (by omega), Nat.sub_self] at h3
              exact hcy h3

theorem flat_fillSuperblockStep_eq (S : SliceCompression) (σa : ℕ)
    (st : List ℕ × List ℕ × List ℕ) (tb : List ℕ) :
    FlatTextWithRankSupport.fillSuperblockStep S σa st tb =
      ((((S.iter tb).enum).foldl FlatTextWithRankSupport.fillBlockStep
          (st.1, st.2.1, st.2.1.map fun offset =>
            Block.integrateBlockOffsetAssumingZero 0 offset)).1,
        (((S.iter tb).enum).foldl FlatTextWithRankSupport.fillBlockStep
          (st.1, st.2.1, st.2.1.map fun offset =>
            Block.integrateBlockOffsetAssumingZero 0 offset)).2.1,
        st.2.2 ++ (((S.iter tb).enum).foldl FlatTextWithRankSupport.fillBlockStep
          (st.1, st.2.1, st.2.1.map fun offset =>
            Block.integrateBlockOffsetAssumingZero 0 offset)).2.2) := rfl

theorem map_integrate_getD (bos : List ℕ) (c : ℕ)
    (hb : ∀ c', bos.getD c' 0 < 2 ^ 64) :
    ((bos.map fun offset =>
      Block.integrateBlockOffsetAssumingZero 0 offset).getD c 0) =
    bos.getD c 0 := by
  rcases Nat.lt_or_ge c bos.length with h | h
  · rw [List.getD_eq_getElem _ _ (by rw [List.length_map]; omega),
      List.getD_eq_getElem _ _ h, List.getElem_map]
    unfold Block.integrateBlockOffsetAssumingZero
    rw [Nat.zero_or, Nat.mod_eq_of_lt]
    have := hb c
    rw [List.getD_eq_getElem _ _ h] at this
    exact this
  · rw [List.getD_eq_default _ _ (by rw [List.length_map]; omega),
      List.getD_eq_default _ _ h]

/-- Characterisation of the flat `fill_superblock` text-block fold:
counts accumulate without wrap (the superblock is shorter than `2 ^ 16`),
each block of symbol `c` embeds the running offset in its low 16 bits and
an indicator bit at `j + 16` for each position `j` holding `c`. -/
theorem flat_fillSuperblockStep_fold (S : SliceCompression) (σa uB : ℕ)
    (huB : 0 < uB) (textBlocks : List (List ℕ)) (Lsb : List ℕ)
    (hiter : textBlocks.map S.iter = chunksOf uB Lsb)
    (hs : ∀ s ∈ Lsb, s < σa) (so bos blocksAcc : List ℕ)
    (hso : so.length = σa) (hbos : bos.length = σa)
    (hbound : ∀ c, bos.getD c 0 + Lsb.length < 2 ^ 16) :
    ∃ soOut bosOut newBlocks,
      textBlocks.foldl (FlatTextWithRankSupport.fillSuperblockStep S σa)
          (so, bos, blocksAcc) =
        (soOut, bosOut, blocksAcc ++ newBlocks) ∧
      soOut.length = σa ∧ (∀ c, soOut.getD c 0 = so.getD c 0 + Lsb.count c) ∧
      bosOut.length = σa ∧
      (∀ c, bosOut.getD c 0 = bos.getD c 0 + Lsb.count c) ∧
      newBlocks.length = (chunksOf uB Lsb).length * σa ∧
      (∀ u c, u < (chunksOf uB Lsb).length → c < σa →
        (newBlocks.getD (u * σa + c) 0) % 2 ^ 16 =
          bos.getD c 0 + (Lsb.take (u * uB)).count c) ∧
      (∀ u c j, u < (chunksOf uB Lsb).length → c < σa →
        ((newBlocks.getD (u * σa + c) 0).testBit (j + 16) = true ↔
          (j < uB ∧ u * uB + j < Lsb.length ∧ Lsb.getD (u * uB + j) 0 = c))) := by
  induction textBlocks generalizing Lsb so bos blocksAcc with
  | nil =>
    have hLsb : Lsb = [] := by
      rw [List.map_nil] at hiter
      exact (chunksOf_eq_nil_iff uB huB Lsb).mp hiter.symm
    subst hLsb
    refine ⟨so, bos, [], ?_, hso, ?_, hbos, ?_, ?_, ?_, ?_⟩
    · simp
    · intro c; simp
    · intro c; simp
    · simp [chunksOf_nil]
    · intro u c hu _
      rw [chunksOf_nil] at hu
      simp at hu
    · intro u c j hu _
      rw [chunksOf_nil] at hu
      simp at hu
  | cons tb rest ih =>
    have hLsbne : Lsb ≠ [] := by
      intro h
      subst h
      rw [chunksOf_nil] at hiter
      simp at hiter
    rw [chunksOf_cons uB huB Lsb hLsbne] at hiter
    rw [List.map_cons] at hiter
    have htb : S.iter tb = Lsb.take uB := (List.cons.injEq _ _ _ _).mp hiter |>.1
    have hrest : rest.map S.iter = chunksOf uB (Lsb.drop uB) :=
      (List.cons.injEq _ _ _ _).mp hiter |>.2
    rw [List.foldl_cons, flat_fillSuperblockStep_eq]
    simp only
    have hsyms : ∀ s ∈ S.iter tb, s < σa := by
      intro s hsx
      rw [htb] at hsx
      exact hs s (List.mem_of_mem_take hsx)
    have hbos64 : ∀ c, bos.getD c 0 < 2 ^ 64 := by
      intro c
      have := hbound c
      omega
    obtain ⟨⟨hl1, hl2, hl3⟩, hfso, hfbos, hfbl⟩ :=
      flat_fillBlockStep_fold σa (S.iter tb) hsyms so bos
        (bos.map fun offset => Block.integrateBlockOffsetAssumingZero 0 offset)
        hso hbos (by rw [List.length_map, hbos]) hbos64
    set mid := ((S.iter tb).enum).foldl FlatTextWithRankSupport.fillBlockStep
      (so, bos,
        bos.map fun offset => Block.integrateBlockOffsetAssumingZero 0 offset)
      with hmiddef
    have hmidbos : ∀ c, mid.2.1.getD c 0 = bos.getD c 0 + (Lsb.take uB).count c := by
      intro c
      rw [hfbos c, htb, Nat.mod_eq_of_lt]
      have h1 := List.count_le_length c (Lsb.take uB)
      rw [List.length_take] at h1
      have h2 := hbound c
      have h3 : (2 : ℕ) ^ 16 < 2 ^ 64 := by norm_num
      omega
    have hmidbound : ∀ c, mid.2.1.getD c 0 + (Lsb.drop uB).length < 2 ^ 16 := by
      intro c
      rw [hmidbos c, List.length_drop]
      have h1 := List.count_le_length c (Lsb.take uB)
      rw [List.length_take] at h1
      have h2 := hbound c
      omega
    obtain ⟨soOut, bosOut, newBlocks, hfold, hsoL, hsoV, hbosL, hbosV,
      hblL, hbloV, hblbV⟩ :=
      ih (Lsb.drop uB) hrest (fun s hsx => hs s (List.mem_of_mem_drop hsx))
        mid.1 mid.2.1 (blocksAcc ++ mid.2.2) hl1 hl2 hmidbound
    have hchunklen : (chunksOf uB Lsb).length =
        (chunksOf uB (Lsb.drop uB)).length + 1 := by
      rw [chunksOf_cons uB huB Lsb hLsbne]
      simp
    have hcount : ∀ c, Lsb.count c = (Lsb.take uB).count c +
        (Lsb.drop uB).count c := by
      intro c
      conv_lhs => rw [← List.take_append_drop uB Lsb]
      rw [List.count_append]
    refine ⟨soOut, bosOut, mid.2.2 ++ newBlocks, ?_, hsoL, ?_, hbosL, ?_, ?_,
      ?_, ?_⟩
    · rw [hfold]
      simp [List.append_assoc]
    · intro c
      rw [hsoV c, hfso c, htb, hcount c]
      omega
    · intro c
      rw [hbosV c, hmidbos c, hcount c]
      omega
    · rw [List.length_append, hl3, hblL, hchunklen]
      ring
    · intro u c hu hc
      match u with
      | 0 =>
        rw [List.getD_append _ _ _ _ (by rw [hl3]; omega),
          show (0 : ℕ) * σa + c = c from by omega,
          show (0 : ℕ) * uB = 0 from by omega,
          List.take_zero, List.count_nil, Nat.add_zero]
        -- low 16 bits of the first block's entry
        have hmid16 : ∀ t, t < 16 →
            ((mid.2.2.getD c 0).testBit t = (bos.getD c 0).testBit t) := by
          intro t ht
          have hchar := hfbl c t
          rw [map_integrate_getD bos c hbos64] at hchar
          rcases Bool.eq_false_or_eq_true ((mid.2.2.getD c 0).testBit t)
            with h1 | h1 <;>
            rcases Bool.eq_false_or_eq_true ((bos.getD c 0).testBit t)
              with h2 | h2
          · rw [h1, h2]
          · rcases hchar.mp h1 with h3 | ⟨h3, _⟩
            · rw [h2] at h3
              simp at h3
            · omega
          · exact absurd (hchar.mpr (Or.inl h2)) (by rw [h1]; simp)
          · rw [h1, h2]
        apply Nat.eq_of_testBit_eq
        intro t
        rw [Nat.testBit_mod_two_pow]
        rcases Nat.lt_or_ge t 16 with ht | ht
        · rw [show decide (t < 16) = true from by simpa using ht,
            Bool.true_and, hmid16 t ht]
        · rw [show decide (t < 16) = false from by
            simp only [decide_eq_false_iff_not]; omega, Bool.false_and]
          have h2 := hbound c
          symm
          apply Nat.testBit_lt_two_pow
          calc bos.getD c 0 < 2 ^ 16 := by omega
          _ ≤ 2 ^ t := Nat.pow_le_pow_right (by omega) ht
      | u + 1 =>
        have hu' : u < (chunksOf uB (Lsb.drop uB)).length := by omega
        have hidx : (u + 1) * σa + c = σa + (u * σa + c) := by ring
        rw [hidx, List.getD_append_right _ _ _ _ (by rw [hl3]; omega), hl3,
          show σa + (u * σa + c) - σa = u * σa + c from by omega,
          hbloV u c hu' hc, hmidbos c]
        rw [count_take_split Lsb uB ((u + 1) * uB) c
            (by
              have h9 : (u + 1) * uB = u * uB + uB := by ring
              omega),
          show (u + 1) * uB - uB = u * uB from by
            have h9 : (u + 1) * uB = u * uB + uB := by ring
            omega]
        omega
    · intro u c j hu hc
      match u with
      | 0 =>
        rw [List.getD_append _ _ _ _ (by rw [hl3]; omega),
          show (0 : ℕ) * σa + c = c from by omega,
          show (0 : ℕ) * uB + j = j from by omega]
        have hchar := hfbl c (j + 16)
        rw [map_integrate_getD bos c hbos64] at hchar
        rw [hchar]
        have hboslow : (bos.getD c 0).testBit (j + 16) = false := by
          apply Nat.testBit_lt_two_pow
          have h2 := hbound c
          calc bos.getD c 0 < 2 ^ 16 := by omega
          _ ≤ 2 ^ (j + 16) := Nat.pow_le_pow_right (by omega) (by omega)
        rw [hboslow, htb]
        simp only [List.length_take, Nat.add_sub_cancel]
        constructor
        · rintro (h | ⟨_, h2, h3⟩)
          · simp at h
          · rw [getD_take _ _ _ (by omega)] at h3
            exact ⟨by omega, by omega, h3⟩
        · rintro ⟨h1, h2, h3⟩
          refine Or.inr ⟨by omega, by omega, ?_⟩
          rw [getD_take _ _ _ (by omega)]
          exact h3
      | u + 1 =>
        have hu' : u < (chunksOf uB (Lsb.drop uB)).length := by omega
        have hidx : (u + 1) * σa + c = σa + (u * σa + c) := by ring
        rw [hidx, List.getD_append_right _ _ _ _ (by rw [hl3]; omega), hl3,
          show σa + (u * σa + c) - σa = u * σa + c from by omega,
          hblbV u c j hu' hc]
        rw [getD_drop, List.length_drop,
          show uB + (u * uB + j) = (u + 1) * uB + j from by ring]
        have e1 : (u + 1) * uB = u * uB + uB := by ring
        constructor
        · rintro ⟨h1, h2, h3⟩
          exact ⟨h1, by omega, h3⟩
        · rintro ⟨h1, h2, h3⟩
          exact ⟨h1, by omega, h3⟩

/-- The flat `fill_superblock` on zero-initialised slices (with the
overshoot patch writing the final offsets into a trailing block without
text). -/
theorem flat_fillSuperblock_spec (S : SliceCompression) (W σa m : ℕ)
    (hW16 : 16 < W) (hσ0 : 0 < σa)
    (textChunk Lsbq : List ℕ)
    (hiter : (chunksOf (S.transformChunkSize (W - 16)) textChunk).map S.iter =
      chunksOf (W - 16) Lsbq)
    (hs : ∀ s ∈ Lsbq, s < σa)
    (hL16 : Lsbq.length < 2 ^ 16)
    (ht : divCeil Lsbq.length (W - 16) ≤ m)
    (hm : m ≤ divCeil Lsbq.length (W - 16) + 1) :
    ∃ so blocks,
      FlatTextWithRankSupport.fillSuperblock S W σa textChunk
          (List.replicate σa 0) (List.replicate (m * σa) 0) = (so, blocks) ∧
      so.length = σa ∧ (∀ c, so.getD c 0 = Lsbq.count c) ∧
      blocks.length = m * σa ∧
      (∀ u c, u < m → c < σa →
        (blocks.getD (u * σa + c) 0) % 2 ^ 16 =
          (Lsbq.take (u * (W - 16))).count c) ∧
      (∀ u c j, u < m → c < σa →
        ((blocks.getD (u * σa + c) 0).testBit (j + 16) = true ↔
          (j < W - 16 ∧ u * (W - 16) + j < Lsbq.length ∧
            Lsbq.getD (u * (W - 16) + j) 0 = c))) := by
  have huB : 0 < W - 16 := by omega
  have htlen : (chunksOf (S.transformChunkSize (W - 16)) textChunk).length =
      (chunksOf (W - 16) Lsbq).length := by
    rw [← hiter, List.length_map]
  have htval : (chunksOf (W - 16) Lsbq).length = divCeil Lsbq.length (W - 16) :=
    chunksOf_length (W - 16) huB Lsbq
  set t := (chunksOf (W - 16) Lsbq).length with htdef
  obtain ⟨soOut, bosOut, newBlocks, hfold, hsoL, hsoV, hbosL, hbosV,
      hblL, hbloV, hblbV⟩ :=
    flat_fillSuperblockStep_fold S σa (W - 16) huB
      (chunksOf (S.transformChunkSize (W - 16)) textChunk) Lsbq hiter hs
      (List.replicate σa 0) (List.replicate σa 0) []
      (by simp) (by simp)
      (fun c => by rw [getD_replicate_zero]; omega)
  rw [List.nil_append] at hfold
  simp only [← htdef] at hblL hbloV hblbV
  have hLlen : Lsbq.length ≤ t * (W - 16) := by
    rw [htval]
    exact le_divCeil_mul _ _ huB
  have hover : divCeil (List.replicate (m * σa) (0 : ℕ)).length σa = m := by
    rw [List.length_replicate]
    exact divCeil_mul_self m σa hσ0
  have hbosOutlt : ∀ c, bosOut.getD c 0 < 2 ^ 64 := by
    intro c
    rw [hbosV c, getD_replicate_zero]
    have h1 := List.count_le_length c Lsbq
    have h3 : (2 : ℕ) ^ 16 < 2 ^ 64 := by norm_num
    omega
  rcases Nat.lt_or_ge t m with hcase | hcase
  · -- overshoot: m = t + 1
    have hmeq : m = t + 1 := by omega
    subst hmeq
    refine ⟨soOut,
      newBlocks ++ (bosOut.map fun offset =>
        Block.integrateBlockOffsetAssumingZero 0 offset), ?_, hsoL, ?_, ?_,
      ?_, ?_⟩
    · simp only [FlatTextWithRankSupport.fillSuperblock, NUM_BLOCK_OFFSET_BITS]
      rw [hfold]
      simp only
      rw [if_pos (by rw [hover, htlen]; omega)]
      have hdropbl : (List.replicate ((t + 1) * σa) (0 : ℕ)).drop
          newBlocks.length = List.replicate σa 0 := by
        rw [List.drop_replicate, hblL]
        congr 1
        have : (t + 1) * σa = t * σa + σa := by ring
        omega
      rw [hdropbl]
      have htake : (newBlocks ++ List.replicate σa (0 : ℕ)).take
          ((List.replicate ((t + 1) * σa) (0 : ℕ)).length - σa) = newBlocks := by
        rw [List.length_replicate,
          show (t + 1) * σa - σa = newBlocks.length from by
            rw [hblL]
            have : (t + 1) * σa = t * σa + σa := by ring
            omega]
        exact List.take_left _ _
      rw [htake]
    · intro c
      rw [hsoV c, getD_replicate_zero]
      omega
    · rw [List.length_append, hblL, List.length_map, hbosL]
      ring
    · intro u c hu hc
      rcases Nat.lt_or_ge u t with hut | hut
      · rw [List.getD_append _ _ _ _ (by
          rw [hblL]
          have h1 : (u + 1) * σa ≤ t * σa := Nat.mul_le_mul_right σa (by omega)
          have h2 : (u + 1) * σa = u * σa + σa := by ring
          omega)]
        rw [hbloV u c hut hc, getD_replicate_zero]
        omega
      · have hut' : u = t := by omega
        subst hut'
        rw [List.getD_append_right _ _ _ _ (by rw [hblL]; omega), hblL,
          show t * σa + c - t * σa = c from by omega,
          map_integrate_getD bosOut c hbosOutlt, hbosV c, getD_replicate_zero,
          List.take_of_length_le (by omega)]
        rw [Nat.mod_eq_of_lt]
        · omega
        · have h1 := List.count_le_length c Lsbq
          omega
    · intro u c j hu hc
      rcases Nat.lt_or_ge u t with hut | hut
      · rw [List.getD_append _ _ _ _ (by
          rw [hblL]
          have h1 : (u + 1) * σa ≤ t * σa := Nat.mul_le_mul_right σa (by omega)
          have h2 : (u + 1) * σa = u * σa + σa := by ring
          omega)]
        exact hblbV u c j hut hc
      · have hut' : u = t := by omega
        subst hut'
        rw [List.getD_append_right _ _ _ _ (by rw [hblL]; omega), hblL,
          show t * σa + c - t * σa = c from by omega,
          map_integrate_getD bosOut c hbosOutlt, hbosV c, getD_replicate_zero]
        rw [show (0 : ℕ) + List.count c Lsbq = List.count c Lsbq from by omega]
        have hfalse : (List.count c Lsbq).testBit (j + 16) = false := by
          apply Nat.testBit_lt_two_pow
          have h1 := List.count_le_length c Lsbq
          calc List.count c Lsbq < 2 ^ 16 := by omega
          _ ≤ 2 ^ (j + 16) := Nat.pow_le_pow_right (by omega) (by omega)
        rw [hfalse]
        constructor
        · intro h
          exact absurd h (by simp)
        · rintro ⟨_, h2, _⟩
          omega
  · -- no overshoot: m = t
    have hmeq : m = t := by omega
    subst hmeq
    refine ⟨soOut, newBlocks, ?_, hsoL, ?_, hblL, ?_, ?_⟩
    · simp only [FlatTextWithRankSupport.fillSuperblock, NUM_BLOCK_OFFSET_BITS]
      rw [hfold]
      simp only
      rw [if_neg (by rw [hover, htlen]; omega)]
      have hdropbl : (List.replicate (t * σa) (0 : ℕ)).drop newBlocks.length =
          [] := by
        rw [List.drop_replicate, hblL, Nat.sub_self]
        rfl
      rw [hdropbl, List.append_nil]
    · intro c
      rw [hsoV c, getD_replicate_zero]
      omega
    · intro u c hu hc
      rw [hbloV u c hu hc, getD_replicate_zero]
      omega
    · intro u c j hu hc
      exact hblbV u c j hu hc

/-- Zeroizing the embedded block offset keeps exactly the bits from 16 up. -/
theorem extract_zeroize_testBit (x t : ℕ) :
    (x - x % 2 ^ 16).testBit t = (decide (16 ≤ t) && x.testBit t) := by
  have hx := Nat.div_add_mod x (2 ^ 16)
  have hmod : x % 2 ^ 16 < 2 ^ 16 := Nat.mod_lt _ (by norm_num)
  have hsub : x - x % 2 ^ 16 = 2 ^ 16 * (x / 2 ^ 16) := by omega
  have hxeq : x = 2 ^ 16 * (x / 2 ^ 16) + x % 2 ^ 16 := by omega
  rw [hsub, Nat.testBit_mul_pow_two]
  conv_rhs => rw [hxeq]
  rw [Nat.testBit_mul_pow_two_add _ hmod t]
  rcases Nat.lt_or_ge t 16 with ht | ht
  · simp [show ¬ (16 ≤ t) from by omega]
  · rw [if_neg (by omega)]

theorem getBit_eq_one_iff (b t : ℕ) : Block.getBit b t = 1 ↔ b.testBit t = true := by
  unfold Block.getBit
  rw [Nat.and_one_is_mod, Nat.shiftRight_eq_div_pow,
    show b.testBit t = decide (b / 2 ^ t % 2 = 1) from Nat.testBit_to_div_mod]
  rcases Nat.mod_two_eq_zero_or_one (b / 2 ^ t) with h0 | h0 <;> simp [h0]

theorem findIdx_eq_of (p : ℕ → Bool) :
    ∀ (l : List ℕ) (i : ℕ), i < l.length →
    p (l.getD i 0) = true → (∀ j, j < i → p (l.getD j 0) = false) →
    l.findIdx p = i := by
  intro l
  induction l with
  | nil =>
    intro i hi
    simp at hi
  | cons a t ih =>
    intro i hi hp hbefore
    match i with
    | 0 =>
      simp only [List.getD_cons_zero] at hp
      rw [List.findIdx_cons, hp]
      rfl
    | i + 1 =>
      have h0 := hbefore 0 (by omega)
      simp only [List.getD_cons_zero] at h0
      rw [List.findIdx_cons, h0]
      simp only [cond_false]
      rw [ih i (by simpa using hi) (by simpa using hp)
        (fun j hj => by
          have := hbefore (j + 1) (by omega)
          simpa using this)]

/-- The flat `fill_superblock` at superblock `q` of a construction with
`P` total block positions, outputs phrased in global text terms. -/
theorem flat_fillSuperblock_chunk_spec (S : SliceCompression)
    (W σa sbn sbs P q : ℕ)
    (hW16 : 16 < W) (hWe : W % 2 = 0)
    (hsbs : sbs = (W - 16) * sbn) (hsbn0 : 0 < sbn) (hsbslt : sbs < 2 ^ 16)
    (hσ0 : 0 < σa)
    (Lsb : List ℕ) (hs : ∀ s ∈ Lsb, s < σa)
    (hP : P = divCeil (Lsb.length + 1) (W - 16))
    (hq : q < divCeil Lsb.length sbs)
    (tc : List ℕ)
    (htc : S.iter tc = (Lsb.drop (q * sbs)).take sbs) :
    ∃ so blocks,
      FlatTextWithRankSupport.fillSuperblock S W σa tc
          (List.replicate σa 0)
          (List.replicate (min sbn (P - q * sbn) * σa) 0) = (so, blocks) ∧
      so.length = σa ∧
      (∀ c, so.getD c 0 = ((Lsb.drop (q * sbs)).take sbs).count c) ∧
      blocks.length = min sbn (P - q * sbn) * σa ∧
      (∀ r c, r < min sbn (P - q * sbn) → c < σa →
        (blocks.getD (r * σa + c) 0) % 2 ^ 16 =
          ((Lsb.drop (q * sbs)).take (r * (W - 16))).count c) ∧
      (∀ r c j, r < min sbn (P - q * sbn) → c < σa →
        ((blocks.getD (r * σa + c) 0).testBit (j + 16) = true ↔
          (j < W - 16 ∧ (q * sbn + r) * (W - 16) + j < Lsb.length ∧
            Lsb.getD ((q * sbn + r) * (W - 16) + j) 0 = c))) := by
  have huB : 0 < W - 16 := by omega
  have huBe : (W - 16) % 2 = 0 := by omega
  have hsbs0 : 0 < sbs := by
    rw [hsbs]
    exact Nat.mul_pos huB hsbn0
  have hqSB : q * sbs < Lsb.length := by
    by_contra hcon
    have h1 : divCeil Lsb.length sbs ≤ divCeil (q * sbs) sbs :=
      divCeil_mono _ _ _ (by omega)
    rw [divCeil_mul_self q sbs hsbs0] at h1
    omega
  have hLq : ((Lsb.drop (q * sbs)).take sbs).length =
      min sbs (Lsb.length - q * sbs) := by
    simp [List.length_take, List.length_drop]
  have hiter : (chunksOf (S.transformChunkSize (W - 16)) tc).map S.iter =
      chunksOf (W - 16) ((Lsb.drop (q * sbs)).take sbs) := by
    rw [map_iter_chunksOf S (W - 16) huB huBe tc, htc]
  have hsq : ∀ s ∈ (Lsb.drop (q * sbs)).take sbs, s < σa :=
    fun s hsx => hs s (List.mem_of_mem_drop (List.mem_of_mem_take hsx))
  have hL16 : ((Lsb.drop (q * sbs)).take sbs).length < 2 ^ 16 := by
    rw [hLq]
    omega
  have hdivSB : divCeil sbs (W - 16) = sbn := by
    rw [hsbs, show (W - 16) * sbn = sbn * (W - 16) from by ring,
      divCeil_mul_self sbn (W - 16) huB]
  have ht : divCeil ((Lsb.drop (q * sbs)).take sbs).length (W - 16) ≤
      min sbn (P - q * sbn) := by
    rw [hLq]
    have h1 : divCeil (min sbs (Lsb.length - q * sbs)) (W - 16) ≤ sbn := by
      rw [← hdivSB]
      exact divCeil_mono _ _ _ (by omega)
    have h2 : divCeil (min sbs (Lsb.length - q * sbs)) (W - 16) + q * sbn ≤
        P := by
      have h3 : divCeil (min sbs (Lsb.length - q * sbs) +
          q * sbn * (W - 16)) (W - 16) =
          divCeil (min sbs (Lsb.length - q * sbs)) (W - 16) + q * sbn :=
        divCeil_add_mul _ _ _ huB
      have h4 : q * sbn * (W - 16) = q * sbs := by
        rw [hsbs]; ring
      rw [h4] at h3
      rw [← h3, hP]
      exact divCeil_mono _ _ _ (by omega)
    omega
  have hm : min sbn (P - q * sbn) ≤
      divCeil ((Lsb.drop (q * sbs)).take sbs).length (W - 16) + 1 := by
    rw [hLq]
    rcases le_total sbs (Lsb.length - q * sbs) with hc | hc
    · rw [Nat.min_eq_left hc, hdivSB]
      omega
    · rw [Nat.min_eq_right hc]
      have h1 : P ≤ divCeil (Lsb.length - q * sbs) (W - 16) + 1 + q * sbn := by
        have h2 : Lsb.length + 1 =
            (Lsb.length - q * sbs + 1) + q * sbn * (W - 16) := by
          rw [show q * sbn * (W - 16) = q * sbs from by rw [hsbs]; ring]
          omega
        have h3 : divCeil ((Lsb.length - q * sbs + 1) +
            q * sbn * (W - 16)) (W - 16) =
            divCeil (Lsb.length - q * sbs + 1) (W - 16) + q * sbn :=
          divCeil_add_mul _ _ _ huB
        have h4 : divCeil (Lsb.length - q * sbs + 1) (W - 16) ≤
            divCeil (Lsb.length - q * sbs) (W - 16) + 1 := by
          have h5 : divCeil (Lsb.length - q * sbs + 1 * (W - 16)) (W - 16) =
              divCeil (Lsb.length - q * sbs) (W - 16) + 1 :=
            divCeil_add_mul _ _ _ huB
          have h6 : divCeil (Lsb.length - q * sbs + 1) (W - 16) ≤
              divCeil (Lsb.length - q * sbs + 1 * (W - 16)) (W - 16) :=
            divCeil_mono _ _ _ (by omega)
          omega
        rw [hP, h2, h3]
        omega
      omega
  obtain ⟨so, blocks, hmain, hsoL, hsoV, hblL, hbloV, hblbV⟩ :=
    flat_fillSuperblock_spec S W σa (min sbn (P - q * sbn)) hW16 hσ0 tc
      ((Lsb.drop (q * sbs)).take sbs) hiter hsq hL16 ht hm
  refine ⟨so, blocks, hmain, hsoL, hsoV, hblL, ?_, ?_⟩
  · intro r c hr hc
    rw [hbloV r c hr hc, List.take_take,
      Nat.min_eq_left (by
        have h1 : (r + 1) * (W - 16) ≤ sbn * (W - 16) :=
          Nat.mul_le_mul_right _ (by omega)
        have h2 : (r + 1) * (W - 16) = r * (W - 16) + (W - 16) := by ring
        rw [hsbs]
        have h3 : (W - 16) * sbn = sbn * (W - 16) := by ring
        omega)]
  · intro r c j hr hc
    rw [hblbV r c j hr hc, hLq]
    have hrW : r * (W - 16) + (W - 16) ≤ sbs := by
      have h1 : (r + 1) * (W - 16) ≤ sbn * (W - 16) :=
        Nat.mul_le_mul_right _ (by omega)
      have h2 : (r + 1) * (W - 16) = r * (W - 16) + (W - 16) := by ring
      rw [hsbs]
      have h3 : (W - 16) * sbn = sbn * (W - 16) := by ring
      omega
    have hglobal : (q * sbn + r) * (W - 16) = q * sbs + r * (W - 16) := by
      rw [hsbs]; ring
    constructor
    · rintro ⟨h1, h2, h3⟩
      refine ⟨h1, by omega, ?_⟩
      rw [getD_take _ _ _ (by omega), getD_drop] at h3
      rw [hglobal]
      rw [show q * sbs + (r * (W - 16) + j) =
        q * sbs + r * (W - 16) + j from by ring] at h3
      exact h3
    · rintro ⟨h1, h2, h3⟩
      rw [hglobal] at h2 h3
      refine ⟨h1, by omega, ?_⟩
      rw [getD_take _ _ _ (by omega), getD_drop,
        show q * sbs + (r * (W - 16) + j) =
          q * sbs + r * (W - 16) + j from by ring]
      exact h3

/-- The assembled arrays of the flat construction, phrased through the
`filled` zip-map of the flat `construct`. -/
theorem flat_construct_parts (S : SliceCompression) (W σa sbn sbs : ℕ)
    (text Lsb : List ℕ)
    (hW16 : 16 < W) (hWe : W % 2 = 0)
    (hsbs : sbs = (W - 16) * sbn) (hsbn0 : 0 < sbn) (hsbslt : sbs < 2 ^ 16)
    (hσ0 : 0 < σa)
    (hLsb : S.iter text = Lsb) (hs : ∀ s ∈ Lsb, s < σa)
    (filled : List (List ℕ × List ℕ))
    (hfilled : filled =
      ((chunksOf (S.transformChunkSize sbs) text).zip
        ((chunksOf σa (List.replicate
            (divCeil (Lsb.length + 1) sbs * σa) 0)).zip
          (chunksOf (sbn * σa) (List.replicate
            (divCeil (Lsb.length + 1) (W - 16) * σa) 0)))).map
        fun tc => FlatTextWithRankSupport.fillSuperblock S W σa
          tc.1 tc.2.1 tc.2.2) :
    ((CondensedTextWithRankSupport.accumulateSuperblockOffsets σa
        ((filled.map fun f : List ℕ × List ℕ => f.1).flatten ++
          ((chunksOf σa (List.replicate
              (divCeil (Lsb.length + 1) sbs * σa) 0)).drop
            filled.length).flatten)).length =
      divCeil (Lsb.length + 1) sbs * σa ∧
     ∀ q c, q < divCeil (Lsb.length + 1) sbs → c < σa →
      (CondensedTextWithRankSupport.accumulateSuperblockOffsets σa
        ((filled.map fun f : List ℕ × List ℕ => f.1).flatten ++
          ((chunksOf σa (List.replicate
              (divCeil (Lsb.length + 1) sbs * σa) 0)).drop
            filled.length).flatten)).getD (q * σa + c) 0 =
        (Lsb.take (q * sbs)).count c) ∧
    (((filled.map fun f : List ℕ × List ℕ => f.2).flatten ++
        ((chunksOf (sbn * σa) (List.replicate
            (divCeil (Lsb.length + 1) (W - 16) * σa) 0)).drop
          filled.length).flatten).length =
      divCeil (Lsb.length + 1) (W - 16) * σa ∧
     (∀ u c, u < divCeil (Lsb.length + 1) (W - 16) → c < σa →
      (((filled.map fun f : List ℕ × List ℕ => f.2).flatten ++
        ((chunksOf (sbn * σa) (List.replicate
            (divCeil (Lsb.length + 1) (W - 16) * σa) 0)).drop
          filled.length).flatten).getD (u * σa + c) 0) % 2 ^ 16 =
        ((Lsb.drop (u / sbn * sbs)).take (u % sbn * (W - 16))).count c) ∧
     (∀ u c j, u < divCeil (Lsb.length + 1) (W - 16) → c < σa →
      ((((filled.map fun f : List ℕ × List ℕ => f.2).flatten ++
          ((chunksOf (sbn * σa) (List.replicate
              (divCeil (Lsb.length + 1) (W - 16) * σa) 0)).drop
            filled.length).flatten).getD (u * σa + c) 0).testBit (j + 16) =
          true ↔
        (j < W - 16 ∧ u * (W - 16) + j < Lsb.length ∧
          Lsb.getD (u * (W - 16) + j) 0 = c)))) := by
  have huB : 0 < W - 16 := by omega
  have huBe : (W - 16) % 2 = 0 := by omega
  have hsbs0 : 0 < sbs := by
    rw [hsbs]
    exact Nat.mul_pos huB hsbn0
  have hsbse : sbs % 2 = 0 := by
    rw [hsbs, Nat.mul_mod, huBe, Nat.zero_mul, Nat.zero_mod]
  set T := divCeil Lsb.length sbs with hTdef
  set Q := divCeil (Lsb.length + 1) sbs with hQdef
  set P := divCeil (Lsb.length + 1) (W - 16) with hPdef
  have hTQ : T ≤ Q := divCeil_mono _ _ _ (by omega)
  have hTC : (chunksOf (S.transformChunkSize sbs) text).map S.iter =
      chunksOf sbs Lsb := by
    rw [map_iter_chunksOf S sbs hsbs0 hsbse text, hLsb]
  have hTClen : (chunksOf (S.transformChunkSize sbs) text).length = T := by
    have h := congrArg List.length hTC
    rw [List.length_map, chunksOf_length sbs hsbs0] at h
    exact h
  have hSOC : chunksOf σa (List.replicate (Q * σa) 0) =
      List.replicate Q (List.replicate σa 0) := chunksOf_replicate σa Q hσ0 0
  have hBLCbase : 0 < sbn * σa := Nat.mul_pos hsbn0 hσ0
  have hQP : divCeil P sbn = Q := by
    rw [hPdef, hQdef, divCeil_divCeil _ _ _ huB hsbn0, ← hsbs]
  have hBLClen : (chunksOf (sbn * σa) (List.replicate (P * σa) 0)).length =
      Q := by
    rw [chunksOf_length _ hBLCbase, List.length_replicate,
      divCeil_mul_mul_right P sbn σa hsbn0 hσ0, hQP]
  have hSOClen : (chunksOf σa (List.replicate (Q * σa) 0)).length = Q := by
    rw [hSOC, List.length_replicate]
  have hflen : filled.length = T := by
    rw [hfilled, List.length_map, List.length_zip, List.length_zip,
      hTClen, hSOClen, hBLClen]
    omega
  have hLT : Lsb.length ≤ T * sbs := le_divCeil_mul _ _ hsbs0
  have hPQsb : P ≤ Q * sbn := by
    have h1 := le_divCeil_mul P sbn hsbn0
    rw [hQP] at h1
    exact h1
  have hpiece : ∀ q, q < T →
      (filled.getD q ([], [])).1.length = σa ∧
      (∀ c, (filled.getD q ([], [])).1.getD c 0 =
        ((Lsb.drop (q * sbs)).take sbs).count c) ∧
      (filled.getD q ([], [])).2.length = min sbn (P - q * sbn) * σa ∧
      (∀ r c, r < min sbn (P - q * sbn) → c < σa →
        ((filled.getD q ([], [])).2.getD (r * σa + c) 0) % 2 ^ 16 =
          ((Lsb.drop (q * sbs)).take (r * (W - 16))).count c) ∧
      (∀ r c j, r < min sbn (P - q * sbn) → c < σa →
        (((filled.getD q ([], [])).2.getD (r * σa + c) 0).testBit (j + 16) =
            true ↔
          (j < W - 16 ∧ (q * sbn + r) * (W - 16) + j < Lsb.length ∧
            Lsb.getD ((q * sbn + r) * (W - 16) + j) 0 = c))) := by
    intro q hq
    have hq1 : q < (chunksOf (S.transformChunkSize sbs) text).length := by
      rw [hTClen]
      exact hq
    have hq2 : q < (chunksOf σa (List.replicate (Q * σa) 0)).length := by
      rw [hSOClen]
      omega
    have hq3 : q < (chunksOf (sbn * σa) (List.replicate (P * σa) 0)).length := by
      rw [hBLClen]
      omega
    have hqz : q < ((chunksOf (S.transformChunkSize sbs) text).zip
        ((chunksOf σa (List.replicate (Q * σa) 0)).zip
          (chunksOf (sbn * σa) (List.replicate (P * σa) 0)))).length := by
      simp only [List.length_zip]
      omega
    have hSOCgetD : (chunksOf σa (List.replicate (Q * σa) 0)).getD q [] =
        List.replicate σa 0 := by
      rw [hSOC, List.getD_eq_getElem _ _ (by rw [List.length_replicate]; omega),
        List.getElem_replicate]
    have hBLCgetD : (chunksOf (sbn * σa) (List.replicate (P * σa) 0)).getD q [] =
        List.replicate (min sbn (P - q * sbn) * σa) 0 := by
      have harith : min (sbn * σa) (P * σa - q * (sbn * σa)) =
          min sbn (P - q * sbn) * σa := by
        rw [mul_min_right, Nat.sub_mul,
          show q * sbn * σa = q * (sbn * σa) from by ring]
      rw [chunksOf_getD _ hBLCbase, List.drop_replicate, List.take_replicate,
        harith]
    have htcq : S.iter ((chunksOf (S.transformChunkSize sbs) text).getD q []) =
        (Lsb.drop (q * sbs)).take sbs := by
      have h1 : S.iter ((chunksOf (S.transformChunkSize sbs) text).getD q []) =
          ((chunksOf (S.transformChunkSize sbs) text).map S.iter).getD q [] := by
        rw [List.getD_eq_getElem _ _ hq1,
          List.getD_eq_getElem _ _ (by rw [List.length_map]; exact hq1),
          List.getElem_map]
      rw [h1, hTC, chunksOf_getD _ hsbs0]
    have hget : filled.getD q ([], []) =
        FlatTextWithRankSupport.fillSuperblock S W σa
          ((chunksOf (S.transformChunkSize sbs) text).getD q [])
          (List.replicate σa 0)
          (List.replicate (min sbn (P - q * sbn) * σa) 0) := by
      rw [hfilled,
        List.getD_eq_getElem _ _ (by rw [List.length_map]; exact hqz)]
      simp only [List.getElem_map, List.getElem_zip]
      rw [← List.getD_eq_getElem
          (chunksOf (S.transformChunkSize sbs) text) [] hq1,
        ← List.getD_eq_getElem (chunksOf σa (List.replicate (Q * σa) 0)) [] hq2,
        ← List.getD_eq_getElem
          (chunksOf (sbn * σa) (List.replicate (P * σa) 0)) [] hq3,
        hSOCgetD, hBLCgetD]
    obtain ⟨so, blocks, hmain, p1, p2, p3, p4, p5⟩ :=
      flat_fillSuperblock_chunk_spec S W σa sbn sbs P q hW16 hWe hsbs hsbn0
        hsbslt hσ0 Lsb hs hPdef hq
        ((chunksOf (S.transformChunkSize sbs) text).getD q []) htcq
    rw [hget, hmain]
    exact ⟨p1, p2, p3, p4, p5⟩
  -- the superblock offsets
  have hrec : ∀ r ∈ (filled.map fun f : List ℕ × List ℕ => f.1) ++
      ((chunksOf σa (List.replicate (Q * σa) 0)).drop filled.length),
      r.length = σa := by
    intro r hr
    rcases List.mem_append.mp hr with h | h
    · obtain ⟨f, hf, hfr⟩ := List.mem_map.mp h
      obtain ⟨i, hi, hif⟩ := List.getElem_of_mem hf
      have hi' : i < T := by omega
      have hgi : filled.getD i ([], []) = f := by
        rw [List.getD_eq_getElem _ _ hi, hif]
      rw [← hfr, ← hgi]
      exact (hpiece i hi').1
    · have h2 := List.mem_of_mem_drop h
      rw [hSOC] at h2
      rw [List.eq_of_mem_replicate h2, List.length_replicate]
  have hreclen : ((filled.map fun f : List ℕ × List ℕ => f.1) ++
      ((chunksOf σa (List.replicate (Q * σa) 0)).drop filled.length)).length =
      Q := by
    rw [List.length_append, List.length_map, List.length_drop, hSOClen, hflen]
    omega
  obtain ⟨haccL, haccV⟩ := accumulateSuperblockOffsets_spec σa hσ0 _ hrec
  have hrecval : ∀ p c, p < Q →
      ((((filled.map fun f : List ℕ × List ℕ => f.1) ++
        ((chunksOf σa (List.replicate (Q * σa) 0)).drop filled.length)).getD p
          []).getD c 0) =
      ((Lsb.drop (p * sbs)).take sbs).count c := by
    intro p c hp
    rcases Nat.lt_or_ge p T with hpT | hpT
    · rw [List.getD_append _ _ _ _ (by rw [List.length_map]; omega)]
      have hmapgetD : (filled.map fun f : List ℕ × List ℕ => f.1).getD p [] =
          (filled.getD p ([], [])).1 := by
        rw [List.getD_eq_getElem _ _ (by rw [List.length_map]; omega),
          List.getD_eq_getElem _ _ (by omega), List.getElem_map]
      rw [hmapgetD]
      exact (hpiece p hpT).2.1 c
    · rw [List.getD_append_right _ _ _ _ (by rw [List.length_map]; omega),
        List.length_map, hflen, hSOC, List.drop_replicate]
      have houter : (List.replicate (Q - T) (List.replicate σa (0 : ℕ))).getD
          (p - T) [] = List.replicate σa 0 := by
        rw [List.getD_eq_getElem _ _ (by rw [List.length_replicate]; omega)]
        simp
      rw [houter, getD_replicate_zero]
      have hdrop : Lsb.drop (p * sbs) = [] := by
        apply List.drop_eq_nil_of_le
        calc Lsb.length ≤ T * sbs := hLT
        _ ≤ p * sbs := Nat.mul_le_mul_right _ (by omega)
      rw [hdrop]
      simp
  -- the blocks: chunk shape
  have hmslenBL : ((filled.map fun f : List ℕ × List ℕ => f.2) ++
      ((chunksOf (sbn * σa) (List.replicate (P * σa) 0)).drop
        filled.length)).length =
      divCeil (P * σa) (sbn * σa) := by
    rw [List.length_append, List.length_map, List.length_drop, hBLClen, hflen,
      divCeil_mul_mul_right P sbn σa hsbn0 hσ0, hQP]
    omega
  have hchunkBL : ∀ i, i < ((filled.map fun f : List ℕ × List ℕ => f.2) ++
      ((chunksOf (sbn * σa) (List.replicate (P * σa) 0)).drop
        filled.length)).length →
      ((((filled.map fun f : List ℕ × List ℕ => f.2) ++
        ((chunksOf (sbn * σa) (List.replicate (P * σa) 0)).drop
          filled.length)).getD i []).length) =
      min (sbn * σa) (P * σa - i * (sbn * σa)) := by
    intro i hi
    rw [hmslenBL, divCeil_mul_mul_right P sbn σa hsbn0 hσ0, hQP] at hi
    rcases Nat.lt_or_ge i T with hiT | hiT
    · rw [List.getD_append _ _ _ _ (by rw [List.length_map]; omega)]
      have hmapgetD : (filled.map fun f : List ℕ × List ℕ => f.2).getD i [] =
          (filled.getD i ([], [])).2 := by
        rw [List.getD_eq_getElem _ _ (by rw [List.length_map]; omega),
          List.getD_eq_getElem _ _ (by omega), List.getElem_map]
      rw [hmapgetD, (hpiece i hiT).2.2.1, mul_min_right, Nat.sub_mul,
        show i * sbn * σa = i * (sbn * σa) from by ring]
    · rw [List.getD_append_right _ _ _ _ (by rw [List.length_map]; omega),
        List.length_map, getD_drop_poly,
        show filled.length + (i - filled.length) = i from by omega,
        chunksOf_length_le _ hBLCbase _ i (by rw [hBLClen]; omega),
        List.length_replicate]
  refine ⟨⟨?_, ?_⟩, ?_, ?_, ?_⟩
  · rw [← List.flatten_append, haccL, hreclen]
  · intro q c hq hc
    rw [← List.flatten_append, haccV q c (by rw [hreclen]; exact hq) hc]
    have hsum : ∑ p ∈ Finset.range q,
        ((((filled.map fun f : List ℕ × List ℕ => f.1) ++
          ((chunksOf σa (List.replicate (Q * σa) 0)).drop filled.length)).getD p
            []).getD c 0) =
        ∑ p ∈ Finset.range q, ((Lsb.drop (p * sbs)).take sbs).count c :=
      Finset.sum_congr rfl fun p hp =>
        hrecval p c (Nat.lt_trans (Finset.mem_range.mp hp) hq)
    rw [hsum, sum_window_counts sbs Lsb c q]
  · rw [← List.flatten_append]
    exact flatten_length_chunkShaped hBLCbase _ _ hmslenBL hchunkBL
  · intro u c hu hc
    have hgP : u * σa + c < P * σa := by
      have h1 : (u + 1) * σa ≤ P * σa := Nat.mul_le_mul_right σa (by omega)
      have h2 : (u + 1) * σa = u * σa + σa := by ring
      omega
    rw [← List.flatten_append,
      flatten_getD_chunkShaped hBLCbase _ (P * σa) hmslenBL hchunkBL
        (u * σa + c) hgP 0]
    have hqr := Nat.div_add_mod u sbn
    have hrlt : u % sbn < sbn := Nat.mod_lt _ hsbn0
    have hglt : u % sbn * σa + c < sbn * σa := by
      have h1 : (u % sbn + 1) * σa ≤ sbn * σa := Nat.mul_le_mul_right σa (by omega)
      have h2 : (u % sbn + 1) * σa = u % sbn * σa + σa := by ring
      omega
    have hsplit : u * σa + c = (u % sbn * σa + c) + (sbn * σa) * (u / sbn) := by
      have h1 : u * σa = (sbn * (u / sbn) + u % sbn) * σa := by rw [hqr]
      have h2 : (sbn * (u / sbn) + u % sbn) * σa =
          (sbn * σa) * (u / sbn) + u % sbn * σa := by ring
      omega
    have hgoal_div : (u * σa + c) / (sbn * σa) = u / sbn := by
      rw [hsplit, Nat.add_mul_div_left _ _ hBLCbase, Nat.div_eq_of_lt hglt]
      omega
    have hgoal_mod : (u * σa + c) % (sbn * σa) = u % sbn * σa + c := by
      rw [hsplit, Nat.add_mul_mod_self_left, Nat.mod_eq_of_lt hglt]
    rw [hgoal_div, hgoal_mod]
    have huQ : u / sbn < Q := by
      rw [Nat.div_lt_iff_lt_mul hsbn0]
      omega
    rcases Nat.lt_or_ge (u / sbn) T with hqT | hqT
    · rw [List.getD_append _ _ _ _ (by rw [List.length_map]; omega)]
      have hmapgetD : (filled.map fun f : List ℕ × List ℕ => f.2).getD
          (u / sbn) [] = (filled.getD (u / sbn) ([], [])).2 := by
        rw [List.getD_eq_getElem _ _ (by rw [List.length_map]; omega),
          List.getD_eq_getElem _ _ (by omega), List.getElem_map]
      rw [hmapgetD]
      refine (hpiece (u / sbn) hqT).2.2.2.1 (u % sbn) c
        (Nat.lt_min.mpr ⟨hrlt, ?_⟩) hc
      have h1 : u / sbn * sbn = sbn * (u / sbn) := by ring
      omega
    · rw [List.getD_append_right _ _ _ _ (by rw [List.length_map]; omega),
        List.length_map, getD_drop_poly,
        show filled.length + (u / sbn - filled.length) = u / sbn from by omega,
        chunksOf_getD _ hBLCbase, List.drop_replicate, List.take_replicate,
        getD_replicate_zero]
      have hdrop : Lsb.drop (u / sbn * sbs) = [] := by
        apply List.drop_eq_nil_of_le
        have h1 : T * sbs ≤ u / sbn * sbs := Nat.mul_le_mul_right _ (by omega)
        omega
      rw [hdrop]
      simp
  · intro u c j hu hc
    have hgP : u * σa + c < P * σa := by
      have h1 : (u + 1) * σa ≤ P * σa := Nat.mul_le_mul_right σa (by omega)
      have h2 : (u + 1) * σa = u * σa + σa := by ring
      omega
    rw [← List.flatten_append,
      flatten_getD_chunkShaped hBLCbase _ (P * σa) hmslenBL hchunkBL
        (u * σa + c) hgP 0]
    have hqr := Nat.div_add_mod u sbn
    have hrlt : u % sbn < sbn := Nat.mod_lt _ hsbn0
    have hglt : u % sbn * σa + c < sbn * σa := by
      have h1 : (u % sbn + 1) * σa ≤ sbn * σa := Nat.mul_le_mul_right σa (by omega)
      have h2 : (u % sbn + 1) * σa = u % sbn * σa + σa := by ring
      omega
    have hsplit : u * σa + c = (u % sbn * σa + c) + (sbn * σa) * (u / sbn) := by
      have h1 : u * σa = (sbn * (u / sbn) + u % sbn) * σa := by rw [hqr]
      have h2 : (sbn * (u / sbn) + u % sbn) * σa =
          (sbn * σa) * (u / sbn) + u % sbn * σa := by ring
      omega
    have hgoal_div : (u * σa + c) / (sbn * σa) = u / sbn := by
      rw [hsplit, Nat.add_mul_div_left _ _ hBLCbase, Nat.div_eq_of_lt hglt]
      omega
    have hgoal_mod : (u * σa + c) % (sbn * σa) = u % sbn * σa + c := by
      rw [hsplit, Nat.add_mul_mod_self_left, Nat.mod_eq_of_lt hglt]
    rw [hgoal_div, hgoal_mod]
    have huQ : u / sbn < Q := by
      rw [Nat.div_lt_iff_lt_mul hsbn0]
      omega
    rcases Nat.lt_or_ge (u / sbn) T with hqT | hqT
    · rw [List.getD_append _ _ _ _ (by rw [List.length_map]; omega)]
      have hmapgetD : (filled.map fun f : List ℕ × List ℕ => f.2).getD
          (u / sbn) [] = (filled.getD (u / sbn) ([], [])).2 := by
        rw [List.getD_eq_getElem _ _ (by rw [List.length_map]; omega),
          List.getD_eq_getElem _ _ (by omega), List.getElem_map]
      rw [hmapgetD]
      have h := (hpiece (u / sbn) hqT).2.2.2.2 (u % sbn) c j
        (Nat.lt_min.mpr ⟨hrlt, by
          have h1 : u / sbn * sbn = sbn * (u / sbn) := by ring
          omega⟩) hc
      have hqr' : (u / sbn * sbn + u % sbn) = u := by
        have h1 : u / sbn * sbn = sbn * (u / sbn) := by ring
        omega
      rw [hqr'] at h
      exact h
    · rw [List.getD_append_right _ _ _ _ (by rw [List.length_map]; omega),
        List.length_map, getD_drop_poly,
        show filled.length + (u / sbn - filled.length) = u / sbn from by omega,
        chunksOf_getD _ hBLCbase, List.drop_replicate, List.take_replicate,
        getD_replicate_zero]
      simp only [Nat.zero_testBit]
      constructor
      · intro h
        exact absurd h (by simp)
      · rintro ⟨_, h2, _⟩
        have h1 : T * sbn ≤ u / sbn * sbn := Nat.mul_le_mul_right _ (by omega)
        have h2' : u / sbn * sbn = sbn * (u / sbn) := by ring
        have h3 : u * (W - 16) ≥ T * sbs := by
          have h4 : T * sbn * (W - 16) ≤ u * (W - 16) :=
            Nat.mul_le_mul_right _ (by omega)
          have h5 : T * sbs = T * sbn * (W - 16) := by rw [hsbs]; ring
          omega
        omega

/-- Field-level characterisation of the flat
`construct_from_maybe_slice_compressed_text`. -/
theorem flat_construct_spec (S : SliceCompression) (W σa sbn sbs : ℕ)
    (text Lsb : List ℕ) (n : ℕ)
    (hW16 : 16 < W) (hWe : W % 2 = 0)
    (hsbsdef : 2 ^ 16 / (W - 16) * (W - 16) = sbs)
    (hsbs : sbs = (W - 16) * sbn) (hsbn0 : 0 < sbn) (hsbslt : sbs < 2 ^ 16)
    (hσ0 : 0 < σa) (hLsb : S.iter text = Lsb) (hs : ∀ s ∈ Lsb, s < σa) :
    (FlatTextWithRankSupport.construct S W text n σa).textLen = n ∧
    (FlatTextWithRankSupport.construct S W text n σa).alphabetSize = σa ∧
    (FlatTextWithRankSupport.construct S W text n σa).superblockSize = sbs ∧
    ((FlatTextWithRankSupport.construct S W text n
        σa).interleavedSuperblockOffsets.length =
      divCeil (Lsb.length + 1) sbs * σa ∧
     ∀ q c, q < divCeil (Lsb.length + 1) sbs → c < σa →
      (FlatTextWithRankSupport.construct S W text n
          σa).interleavedSuperblockOffsets.getD (q * σa + c) 0 =
        (Lsb.take (q * sbs)).count c) ∧
    ((FlatTextWithRankSupport.construct S W text n σa).interleavedBlocks.length =
      divCeil (Lsb.length + 1) (W - 16) * σa ∧
     (∀ u c, u < divCeil (Lsb.length + 1) (W - 16) → c < σa →
      ((FlatTextWithRankSupport.construct S W text n
          σa).interleavedBlocks.getD (u * σa + c) 0) % 2 ^ 16 =
        ((Lsb.drop (u / sbn * sbs)).take (u % sbn * (W - 16))).count c) ∧
     (∀ u c j, u < divCeil (Lsb.length + 1) (W - 16) → c < σa →
      (((FlatTextWithRankSupport.construct S W text n
          σa).interleavedBlocks.getD (u * σa + c) 0).testBit (j + 16) = true ↔
        (j < W - 16 ∧ u * (W - 16) + j < Lsb.length ∧
          Lsb.getD (u * (W - 16) + j) 0 = c)))) := by
  have hlen' : S.transformedSliceLen text = Lsb.length := by
    rw [← iter_length, hLsb]
  have hsbnd2 : sbs / (W - 16) = sbn := by
    rw [hsbs]
    exact Nat.mul_div_cancel_left _ (by omega)
  obtain ⟨⟨hsoL, hsoV⟩, hblL, hbloV, hblbV⟩ :=
    flat_construct_parts S W σa sbn sbs text Lsb hW16 hWe hsbs hsbn0 hsbslt
      hσ0 hLsb hs _ rfl
  refine ⟨rfl, rfl, ?_, ⟨?_, ?_⟩, ?_, ?_, ?_⟩
  · simp only [FlatTextWithRankSupport.construct, NUM_BLOCK_OFFSET_BITS]
    exact hsbsdef
  · simp only [FlatTextWithRankSupport.construct, NUM_BLOCK_OFFSET_BITS,
      hlen', hsbsdef, hsbnd2]
    exact hsoL
  · simp only [FlatTextWithRankSupport.construct, NUM_BLOCK_OFFSET_BITS,
      hlen', hsbsdef, hsbnd2]
    exact hsoV
  · simp only [FlatTextWithRankSupport.construct, NUM_BLOCK_OFFSET_BITS,
      hlen', hsbsdef, hsbnd2]
    exact hblL
  · simp only [FlatTextWithRankSupport.construct, NUM_BLOCK_OFFSET_BITS,
      hlen', hsbsdef, hsbnd2]
    exact hbloV
  · simp only [FlatTextWithRankSupport.construct, NUM_BLOCK_OFFSET_BITS,
      hlen', hsbsdef, hsbnd2]
    exact hblbV

/-- Summing the bits of the zeroized block from 16 up is summing the
original block's high bits. -/
theorem shifted_bit_sum (x : ℕ) (m : ℕ) :
    ∑ t ∈ Finset.range (m + 16), ((x - x % 2 ^ 16).testBit t).toNat =
    ∑ j ∈ Finset.range m, (x.testBit (j + 16)).toNat := by
  induction m with
  | zero =>
    rw [Nat.zero_add]
    rw [Finset.sum_congr rfl (fun t ht => by
      rw [extract_zeroize_testBit,
        show decide (16 ≤ t) = false from by
          simp only [decide_eq_false_iff_not]
          have := Finset.mem_range.mp ht
          omega,
        Bool.false_and])]
    simp
  | succ m ih =>
    rw [show m + 1 + 16 = (m + 16) + 1 from by omega, Finset.sum_range_succ, ih,
      Finset.sum_range_succ, extract_zeroize_testBit,
      show decide (16 ≤ m + 16) = true from by simp, Bool.true_and]

/-- Rank soundness of the flat structure. -/
theorem flat_rank_correct (S : SliceCompression) (W σa sbn sbs : ℕ)
    (text Lsb : List ℕ) (n : ℕ)
    (hW16 : 16 < W) (hWe : W % 2 = 0)
    (hsbsdef : 2 ^ 16 / (W - 16) * (W - 16) = sbs)
    (hsbs : sbs = (W - 16) * sbn) (hsbn0 : 0 < sbn) (hsbslt : sbs < 2 ^ 16)
    (hσ0 : 0 < σa) (hLsb : S.iter text = Lsb) (hs : ∀ s ∈ Lsb, s < σa)
    (c i : ℕ) (hc : c < σa) (hi : i ≤ Lsb.length) :
    FlatTextWithRankSupport.rankUnchecked W
      (FlatTextWithRankSupport.construct S W text n σa) c i =
    (Lsb.take i).count c := by
  have huB : 0 < W - 16 := by omega
  have hsbs0 : 0 < sbs := by
    rw [hsbs]
    exact Nat.mul_pos huB hsbn0
  obtain ⟨htl, hal, hsbsf, ⟨hsoL, hsoV⟩, hblL, hbloV, hblbV⟩ :=
    flat_construct_spec S W σa sbn sbs text Lsb n hW16 hWe hsbsdef hsbs hsbn0
      hsbslt hσ0 hLsb hs
  set r := FlatTextWithRankSupport.construct S W text n σa with hrdef
  have hu : i / (W - 16) < divCeil (Lsb.length + 1) (W - 16) := by
    rw [Nat.div_lt_iff_lt_mul huB]
    have := le_divCeil_mul (Lsb.length + 1) (W - 16) huB
    omega
  have hq : i / sbs < divCeil (Lsb.length + 1) sbs := by
    rw [Nat.div_lt_iff_lt_mul hsbs0]
    have := le_divCeil_mul (Lsb.length + 1) sbs hsbs0
    omega
  have hdm := Nat.div_add_mod i (W - 16)
  have hcomm : i / (W - 16) * (W - 16) = (W - 16) * (i / (W - 16)) := by ring
  have himW : i % (W - 16) < W - 16 := Nat.mod_lt _ huB
  simp only [FlatTextWithRankSupport.rankUnchecked, NUM_BLOCK_OFFSET_BITS,
    Block.extractBlockOffsetAndThenZeroizeIt, hal, hsbsf]
  rw [hsoV (i / sbs) c hq hc]
  have hdd : i / (W - 16) / sbn = i / sbs := by
    rw [Nat.div_div_eq_div_mul, ← hsbs]
  -- the popcount part first (before the offset is rewritten away)
  unfold Block.countOnesBefore
  rw [popcount_mod_two_pow, shifted_bit_sum]
  -- the embedded offset
  rw [hbloV (i / (W - 16)) c hu hc, hdd]
  have hmm := Nat.div_add_mod (i / (W - 16)) sbn
  have hmlt : i / (W - 16) % sbn < sbn := Nat.mod_lt _ hsbn0
  have hbitsum : ∑ j ∈ Finset.range (i % (W - 16)),
      ((r.interleavedBlocks.getD (i / (W - 16) * σa + c) 0).testBit
        (j + 16)).toNat =
      ∑ j ∈ Finset.range (i % (W - 16)),
        if Lsb.getD (i / (W - 16) * (W - 16) + j) 0 = c then 1 else 0 := by
    apply Finset.sum_congr rfl
    intro j hj
    have hjm : j < i % (W - 16) := Finset.mem_range.mp hj
    have hchar := hblbV (i / (W - 16)) c j hu hc
    by_cases hv : Lsb.getD (i / (W - 16) * (W - 16) + j) 0 = c
    · rw [if_pos hv, hchar.mpr ⟨by omega, by omega, hv⟩]
      rfl
    · rw [if_neg hv]
      rcases Bool.eq_false_or_eq_true
          ((r.interleavedBlocks.getD (i / (W - 16) * σa + c) 0).testBit
            (j + 16)) with h1 | h1
      · exact absurd (hchar.mp h1).2.2 hv
      · rw [h1]
        rfl
  rw [hbitsum,
    ← count_window_sum Lsb c (i % (W - 16)) (i / (W - 16) * (W - 16)) (by omega)]
  -- telescoping
  have hsplit1 : i / (W - 16) * (W - 16) =
      i / sbs * sbs + i / (W - 16) % sbn * (W - 16) := by
    have h1 : i / (W - 16) * (W - 16) =
        (sbn * (i / (W - 16) / sbn) + i / (W - 16) % sbn) * (W - 16) := by
      rw [hmm]
    have h2 : (sbn * (i / (W - 16) / sbn) + i / (W - 16) % sbn) * (W - 16) =
        i / (W - 16) / sbn * ((W - 16) * sbn) +
          i / (W - 16) % sbn * (W - 16) := by ring
    rw [h1, h2, ← hsbs, hdd]
  have htele1 := count_take_split Lsb (i / sbs * sbs)
    (i / (W - 16) * (W - 16)) c (by omega)
  rw [show i / (W - 16) * (W - 16) - i / sbs * sbs =
    i / (W - 16) % sbn * (W - 16) from by omega] at htele1
  have htele2 := count_take_split Lsb (i / (W - 16) * (W - 16)) i c (by omega)
  rw [show i - i / (W - 16) * (W - 16) = i % (W - 16) from by omega] at htele2
  omega

/-- `symbol_at` of the flat structure recovers the stored symbol. -/
theorem flat_symbolAt_correct (S : SliceCompression) (W σa sbn sbs : ℕ)
    (text Lsb : List ℕ) (n : ℕ)
    (hW16 : 16 < W) (hWe : W % 2 = 0)
    (hsbsdef : 2 ^ 16 / (W - 16) * (W - 16) = sbs)
    (hsbs : sbs = (W - 16) * sbn) (hsbn0 : 0 < sbn) (hsbslt : sbs < 2 ^ 16)
    (hσ0 : 0 < σa) (hLsb : S.iter text = Lsb) (hs : ∀ s ∈ Lsb, s < σa)
    (idx : ℕ) (hidx : idx < Lsb.length) :
    FlatTextWithRankSupport.symbolAt W
      (FlatTextWithRankSupport.construct S W text n σa) idx =
    Lsb.getD idx 0 := by
  have huB : 0 < W - 16 := by omega
  obtain ⟨htl, hal, hsbsf, _, hblL, _, hblbV⟩ :=
    flat_construct_spec S W σa sbn sbs text Lsb n hW16 hWe hsbsdef hsbs hsbn0
      hsbslt hσ0 hLsb hs
  set r := FlatTextWithRankSupport.construct S W text n σa with hrdef
  have hu : idx / (W - 16) < divCeil (Lsb.length + 1) (W - 16) := by
    rw [Nat.div_lt_iff_lt_mul huB]
    have := le_divCeil_mul (Lsb.length + 1) (W - 16) huB
    omega
  have hdm := Nat.div_add_mod idx (W - 16)
  have hcomm : idx / (W - 16) * (W - 16) = (W - 16) * (idx / (W - 16)) := by ring
  have himW : idx % (W - 16) < W - 16 := Nat.mod_lt _ huB
  have hval : Lsb.getD idx 0 < σa := hs _ (getD_mem_of_lt hidx 0)
  have hwlen : ((r.interleavedBlocks.drop (idx / (W - 16) * σa)).take σa).length =
      σa := by
    rw [List.length_take, List.length_drop, hblL]
    have h1 : (idx / (W - 16) + 1) * σa ≤ divCeil (Lsb.length + 1) (W - 16) * σa :=
      Nat.mul_le_mul_right σa (by omega)
    have h2 : (idx / (W - 16) + 1) * σa = idx / (W - 16) * σa + σa := by ring
    omega
  have hwelem : ∀ k, k < σa →
      ((r.interleavedBlocks.drop (idx / (W - 16) * σa)).take σa).getD k 0 =
      r.interleavedBlocks.getD (idx / (W - 16) * σa + k) 0 := by
    intro k hk
    rw [getD_take _ _ _ hk, getD_drop]
  have hbit : ∀ k, k < σa →
      ((r.interleavedBlocks.getD (idx / (W - 16) * σa + k) 0).testBit
        (idx % (W - 16) + 16) = true ↔ Lsb.getD idx 0 = k) := by
    intro k hk
    rw [hblbV (idx / (W - 16)) k (idx % (W - 16)) hu hk,
      show idx / (W - 16) * (W - 16) + idx % (W - 16) = idx from by omega]
    constructor
    · rintro ⟨_, _, h3⟩
      exact h3
    · intro h
      exact ⟨himW, hidx, h⟩
  simp only [FlatTextWithRankSupport.symbolAt, NUM_BLOCK_OFFSET_BITS, hal]
  apply findIdx_eq_of _ _ (Lsb.getD idx 0) (by omega)
  · rw [hwelem _ hval]
    rw [decide_eq_true_eq]
    exact (getBit_eq_one_iff _ _).mpr ((hbit _ hval).mpr rfl)
  · intro j hj
    rw [hwelem _ (by omega)]
    rw [decide_eq_false_iff_not]
    intro hcon
    have h1 := (getBit_eq_one_iff _ _).mp hcon
    have h2 := (hbit j (by omega)).mp h1
    omega

/-- C2: for every text over the dense alphabet `{0..=σ}` on which a rank
structure was constructed (condensed or flat encoding, block width 64 or
512), every symbol `c ≤ σ` and every index `i ≤ n`, `rank(c, i)` returns
the number of positions `k < i` at which the text has symbol `c`. -/
theorem C2_rank_soundness (variant : RankVariant) (W : ℕ)
    (hW : W = 64 ∨ W = 512) (σ : ℕ) (text : List ℕ)
    (hσ : 1 ≤ σ) (hs : ∀ s ∈ text, s ≤ σ) (c i : ℕ) (hc : c ≤ σ)
    (hi : i ≤ text.length) :
    (TextWithRankSupport.construct variant SliceCompression.noSliceCompression
        W text text.length (σ + 1)).rank c i =
      some ((text.take i).count c) := by
  have hLsb : SliceCompression.noSliceCompression.iter text = text := rfl
  have hs' : ∀ s ∈ text, s < σ + 1 := fun s hsx => by
    have := hs s hsx
    omega
  rcases hW with hW | hW <;> subst hW <;> cases variant
  · -- condensed, W = 64
    obtain ⟨htl, hal, _, _, _⟩ :=
      condensed_construct_spec SliceCompression.noSliceCompression 64 (σ + 1)
        (ilog2CeilForNonzero (σ + 1)) 1024 text text text.length
        (by omega) (by omega) (by decide) rfl
        (ilog2Ceil_pos _ (by omega)) (by omega) hLsb hs'
    rw [show TextWithRankSupport.construct RankVariant.condensed
        SliceCompression.noSliceCompression 64 text text.length (σ + 1) =
      TextWithRankSupport.condensed 64
        (CondensedTextWithRankSupport.construct
          SliceCompression.noSliceCompression 64 text text.length (σ + 1))
      from rfl]
    rw [TextWithRankSupport.rank]
    rw [if_pos (by
      constructor
      · show c < (CondensedTextWithRankSupport.construct
          SliceCompression.noSliceCompression 64 text text.length
          (σ + 1)).alphabetSize
        omega
      · show i ≤ (CondensedTextWithRankSupport.construct
          SliceCompression.noSliceCompression 64 text text.length
          (σ + 1)).textLen
        omega)]
    rw [show (TextWithRankSupport.condensed 64
        (CondensedTextWithRankSupport.construct
          SliceCompression.noSliceCompression 64 text text.length
          (σ + 1))).rankUnchecked c i =
      CondensedTextWithRankSupport.rankUnchecked 64
        (CondensedTextWithRankSupport.construct
          SliceCompression.noSliceCompression 64 text text.length (σ + 1)) c i
      from rfl]
    rw [condensed_rank_correct SliceCompression.noSliceCompression 64 (σ + 1)
      (ilog2CeilForNonzero (σ + 1)) 1024 text text text.length
      (by omega) (by omega) (by decide) rfl (by omega) hLsb hs' c i
      (by omega) hi]
  · -- flat, W = 64
    obtain ⟨htl, hal, _, _, _⟩ :=
      flat_construct_spec SliceCompression.noSliceCompression 64 (σ + 1) 1365
        65520 text text text.length (by omega) (by omega) (by decide)
        (by decide) (by omega) (by decide) (by omega) hLsb hs'
    rw [show TextWithRankSupport.construct RankVariant.flat
        SliceCompression.noSliceCompression 64 text text.length (σ + 1) =
      TextWithRankSupport.flat 64
        (FlatTextWithRankSupport.construct
          SliceCompression.noSliceCompression 64 text text.length (σ + 1))
      from rfl]
    rw [TextWithRankSupport.rank]
    rw [if_pos (by
      constructor
      · show c < (FlatTextWithRankSupport.construct
          SliceCompression.noSliceCompression 64 text text.length
          (σ + 1)).alphabetSize
        omega
      · show i ≤ (FlatTextWithRankSupport.construct
          SliceCompression.noSliceCompression 64 text text.length
          (σ + 1)).textLen
        omega)]
    rw [show (TextWithRankSupport.flat 64
        (FlatTextWithRankSupport.construct
          SliceCompression.noSliceCompression 64 text text.length
          (σ + 1))).rankUnchecked c i =
      FlatTextWithRankSupport.rankUnchecked 64
        (FlatTextWithRankSupport.construct
          SliceCompression.noSliceCompression 64 text text.length (σ + 1)) c i
      from rfl]
    rw [flat_rank_correct SliceCompression.noSliceCompression 64 (σ + 1) 1365
      65520 text text text.length (by omega) (by omega) (by decide)
      (by decide) (by omega) (by decide) (by omega) hLsb hs' c i
      (by omega) hi]
  · -- condensed, W = 512
    obtain ⟨htl, hal, _, _, _⟩ :=
      condensed_construct_spec SliceCompression.noSliceCompression 512 (σ + 1)
        (ilog2CeilForNonzero (σ + 1)) 128 text text text.length
        (by omega) (by omega) (by decide) rfl
        (ilog2Ceil_pos _ (by omega)) (by omega) hLsb hs'
    rw [show TextWithRankSupport.construct RankVariant.condensed
        SliceCompression.noSliceCompression 512 text text.length (σ + 1) =
      TextWithRankSupport.condensed 512
        (CondensedTextWithRankSupport.construct
          SliceCompression.noSliceCompression 512 text text.length (σ + 1))
      from rfl]
    rw [TextWithRankSupport.rank]
    rw [if_pos (by
      constructor
      · show c < (CondensedTextWithRankSupport.construct
          SliceCompression.noSliceCompression 512 text text.length
          (σ + 1)).alphabetSize
        omega
      · show i ≤ (CondensedTextWithRankSupport.construct
          SliceCompression.noSliceCompression 512 text text.length
          (σ + 1)).textLen
        omega)]
    rw [show (TextWithRankSupport.condensed 512
        (CondensedTextWithRankSupport.construct
          SliceCompression.noSliceCompression 512 text text.length
          (σ + 1))).rankUnchecked c i =
      CondensedTextWithRankSupport.rankUnchecked 512
        (CondensedTextWithRankSupport.construct
          SliceCompression.noSliceCompression 512 text text.length (σ + 1)) c i
      from rfl]
    rw [condensed_rank_correct SliceCompression.noSliceCompression 512 (σ + 1)
      (ilog2CeilForNonzero (σ + 1)) 128 text text text.length
      (by omega) (by omega) (by decide) rfl (by omega) hLsb hs' c i
      (by omega) hi]
  · -- flat, W = 512
    obtain ⟨htl, hal, _, _, _⟩ :=
      flat_construct_spec SliceCompression.noSliceCompression 512 (σ + 1) 132
        65472 text text text.length (by omega) (by omega) (by decide)
        (by decide) (by omega) (by decide) (by omega) hLsb hs'
    rw [show TextWithRankSupport.construct RankVariant.flat
        SliceCompression.noSliceCompression 512 text text.length (σ + 1) =
      TextWithRankSupport.flat 512
        (FlatTextWithRankSupport.construct
          SliceCompression.noSliceCompression 512 text text.length (σ + 1))
      from rfl]
    rw [TextWithRankSupport.rank]
    rw [if_pos (by
      constructor
      · show c < (FlatTextWithRankSupport.construct
          SliceCompression.noSliceCompression 512 text text.length
          (σ + 1)).alphabetSize
        omega
      · show i ≤ (FlatTextWithRankSupport.construct
          SliceCompression.noSliceCompression 512 text text.length
          (σ + 1)).textLen
        omega)]
    rw [show (TextWithRankSupport.flat 512
        (FlatTextWithRankSupport.construct
          SliceCompression.noSliceCompression 512 text text.length
          (σ + 1))).rankUnchecked c i =
      FlatTextWithRankSupport.rankUnchecked 512
        (FlatTextWithRankSupport.construct
          SliceCompression.noSliceCompression 512 text text.length (σ + 1)) c i
      from rfl]
    rw [flat_rank_correct SliceCompression.noSliceCompression 512 (σ + 1) 132
      65472 text text text.length (by omega) (by omega) (by decide)
      (by decide) (by omega) (by decide) (by omega) hLsb hs' c i
      (by omega) hi]

/-- C2, witness at `variant = condensed`, `W = 64`, `σ = 3`,
`text = [1, 0, 2, 1]`, `c = 1`, `i = 3`. -/
theorem C2_witness :
    ((64 = 64 ∨ 64 = 512) ∧ 1 ≤ 3 ∧ (∀ s ∈ [1, 0, 2, 1], s ≤ 3) ∧ 1 ≤ 3 ∧
      3 ≤ [1, 0, 2, 1].length) ∧
    (TextWithRankSupport.construct RankVariant.condensed
        SliceCompression.noSliceCompression 64 [1, 0, 2, 1]
        [1, 0, 2, 1].length (3 + 1)).rank 1 3 =
      some (([1, 0, 2, 1].take 3).count 1) :=
  ⟨⟨by decide, by decide, by decide, by decide, by decide⟩,
    C2_rank_soundness RankVariant.condensed 64 (by decide) 3 [1, 0, 2, 1]
      (by decide) (by decide) 1 3 (by decide) (by decide)⟩

/-- C8, witness for the amended theorem at `text = [1, 2]`, `slice = [37]`,
`i = 0`, `v = 5`. -/
theorem C8_witness :
    (∀ b ∈ [1, 2], b < 16) ∧ 0 < 2 * ([1, 2].length / 2) ∧ 5 < 16 ∧
      0 / 2 < [37].length ∧
    ((halfByteCompressText [1, 2]).getD (0 / 2) 0 =
        16 * [1, 2].getD (2 * (0 / 2)) 0 + [1, 2].getD (2 * (0 / 2) + 1) 0 ∧
      SliceCompression.halfBytesCompression.get 0 (halfByteCompressText [1, 2]) =
          [1, 2].getD 0 0 ∧
      SliceCompression.halfBytesCompression.get 0
          (SliceCompression.halfBytesCompression.set 0 [37] 5) = 5 ∧
      SliceCompression.halfBytesCompression.get (if 0 % 2 = 0 then 0 + 1 else 0 - 1)
          (SliceCompression.halfBytesCompression.set 0 [37] 5) =
        SliceCompression.halfBytesCompression.get
          (if 0 % 2 = 0 then 0 + 1 else 0 - 1) [37]) := by
  exact ⟨by decide, by decide, by decide, by decide,
    C8_packed_nibble_layout [1, 2] [37] 0 5 (by decide) (by decide) (by decide)
      (by decide)⟩

end Genedex
